import Mathlib

/-!
Collisions: probe-and-step collision resolution.

Shallow embedding of `src/collisions/main.go`, in two forms.

The first form runs the program in exact arithmetic: coordinates are
rationals, `step = 0.025 = 1/40`, `speed = 0.05 = 1/20`, and no operation
rounds.  It carries the statements on the control flow of `update`, on the
selection of the side and on what the probes restore, which do not depend on
rounding.

The second form, in the namespace `F32`, runs the program in `float32`, as the
Go code does: a value is the rational that a `float32` denotes, and every
addition, subtraction and multiplication of the program is followed by
`round32`, rounding to the nearest `float32` with ties to even.  The statements
on distances, on overlap after a correction, on termination and on the
displacement by the keys are made for this form.

The probe loop of `getCollisionDepth` has no iteration cap in the program.
The embedding gives it a fuel counter: the result is `none` exactly when the
fuel runs out while the loop condition still holds.  General statements about
a result are made for all sufficiently large fuel; a result computed with a
given fuel is the same for any larger fuel (`update_fuel_mono`,
`update_fuel_mono_f32`).
-/

namespace Collisions

/-! ## Data model -/

/-- The triple `rl.Vector3`. -/
@[ext]
structure Vector3 where
  X : ℚ
  Y : ℚ
  Z : ℚ
deriving DecidableEq

/-- The pair of corners `rl.BoundingBox`. -/
structure BoundingBox where
  Min : Vector3
  Max : Vector3
deriving DecidableEq

/-- The values of `rl.Color` the program uses. -/
inductive Color where
  | Green
  | Red
  | Blue
deriving DecidableEq

def BLOCK_SIZE : ℚ := 1

/-- `rl.NewVector3`. -/
def NewVector3 (x y z : ℚ) : Vector3 := ⟨x, y, z⟩

/-- `rl.Vector3Add`. -/
def Vector3Add (v1 v2 : Vector3) : Vector3 :=
  ⟨v1.X + v2.X, v1.Y + v2.Y, v1.Z + v2.Z⟩

/-- `rl.Vector3Scale`. -/
def Vector3Scale (v : Vector3) (scalar : ℚ) : Vector3 :=
  ⟨v.X * scalar, v.Y * scalar, v.Z * scalar⟩

/-- Modelled from the spec: the bounding-volume query of the rendering library
(`rl.GetModelBoundingBox` on a model made by `rl.GenMeshCube (w, w, w)`), which
is not part of the repository.  The box of the cube mesh, centred at the
origin with half-extent `w / 2`, is moved by the translation stored in the
model's transform. -/
def GetModelBoundingBox (size : ℚ) (transform : Vector3) : BoundingBox :=
  { Min := ⟨transform.X - size / 2, transform.Y - size / 2, transform.Z - size / 2⟩
    Max := ⟨transform.X + size / 2, transform.Y + size / 2, transform.Z + size / 2⟩ }

/-- Modelled from the spec: the overlap test of the rendering library
(`rl.CheckCollisionBoxes`), which is not part of the repository.  Two boxes
overlap when their closed intervals intersect on all three axes. -/
def CheckCollisionBoxes (box1 box2 : BoundingBox) : Bool :=
  if box1.Max.X ≥ box2.Min.X ∧ box1.Min.X ≤ box2.Max.X then
    let collision := true
    let collision :=
      if box1.Max.Y < box2.Min.Y ∨ box1.Min.Y > box2.Max.Y then false else collision
    let collision :=
      if box1.Max.Z < box2.Min.Z ∨ box1.Min.Z > box2.Max.Z then false else collision
    collision
  else false

/-- The fields of `Block` that the collision code reads or writes.  The model
transform of a block is set from its position by `newBlock` and by `draw`, and
the position never changes, so the block's box is derived from `position`. -/
structure Block where
  position : Vector3
  color : Color
deriving DecidableEq

/-- The box `rl.GetModelBoundingBox(b.model)` of a block. -/
def Block.boundingBox (b : Block) : BoundingBox :=
  GetModelBoundingBox BLOCK_SIZE b.position

/-- The fields of `Player` that the collision code reads or writes:
`position`, and the translation held in `model.Transform`. -/
structure Player where
  position : Vector3
  transform : Vector3
deriving DecidableEq

/-- `Player.updateTransform`: the model transform becomes the translation to
the current position. -/
def Player.updateTransform (p : Player) : Player :=
  { p with transform := p.position }

/-- The box `rl.GetModelBoundingBox(p.model)` of the player, a cube of size 1. -/
def Player.boundingBox (p : Player) : BoundingBox :=
  GetModelBoundingBox 1 p.transform

inductive CubeSide where
  | Z
  | ZMinus
  | X
  | XMinus
  | Y
  | YMinus
deriving DecidableEq

structure CubeSideValue where
  side : CubeSide
  value : ℚ
deriving DecidableEq

def newCubeSideValue (side : CubeSide) (value : ℚ) : CubeSideValue :=
  { side := side, value := value }

/-! ## The resolver -/

/-- The `switch side` of `getCollisionDepth`: the direction in which the
probe moves for each side. -/
def probeDir : CubeSide → Vector3
  | .Z => NewVector3 0 0 1
  | .ZMinus => NewVector3 0 0 (-1)
  | .X => NewVector3 1 0 0
  | .XMinus => NewVector3 (-1) 0 0
  | .Y => NewVector3 0 1 0
  | .YMinus => NewVector3 0 1 0

/-- The probe loop of `getCollisionDepth`
(`for rl.CheckCollisionBoxes(...) { totalStep += step; ... }`), with a fuel
counter: one unit of fuel per evaluation of the loop condition. -/
def probeLoop (bbBlock : BoundingBox) (step : ℚ) (stepVec : Vector3) :
    Nat → Player → ℚ → Option (Player × ℚ)
  | 0, _, _ => none
  | fuel + 1, p, totalStep =>
    if CheckCollisionBoxes p.boundingBox bbBlock then
      let totalStep := totalStep + step
      let p := { p with position := Vector3Add p.position stepVec }
      let p := p.updateTransform
      probeLoop bbBlock step stepVec fuel p totalStep
    else
      some (p, totalStep)

/-- `Player.getCollisionDepth`: the returned depth together with the player
as the call leaves it. -/
def Player.getCollisionDepth (fuel : Nat) (p : Player) (bbBlock : BoundingBox)
    (side : CubeSide) : Option (ℚ × Player) :=
  let oldPosition := p.position
  let dir := probeDir side
  let step : ℚ := 1 / 40
  let stepVec := Vector3Scale dir step
  let totalStep := step
  let p := { p with position := Vector3Add p.position stepVec }
  let p := p.updateTransform
  match probeLoop bbBlock step stepVec fuel p totalStep with
  | none => none
  | some (p, totalStep) =>
    let p := { p with position := oldPosition }
    let p := p.updateTransform
    some (totalStep, p)

/-- The selection loop of `getCollisionWhichSide`
(`for _, d := range depths { if d.value < min.value { min = d } }`). -/
def minLoop : List CubeSideValue → CubeSideValue → CubeSideValue
  | [], min => min
  | d :: ds, min => if d.value < min.value then minLoop ds d else minLoop ds min

/-- `Player.getCollisionWhichSide`: the chosen side together with the player
as the call leaves it. -/
def Player.getCollisionWhichSide (fuel : Nat) (p : Player) (bbBlock : BoundingBox) :
    Option (CubeSide × Player) :=
  match p.getCollisionDepth fuel bbBlock .Z with
  | none => none
  | some (dZ, p) =>
  match p.getCollisionDepth fuel bbBlock .ZMinus with
  | none => none
  | some (dZMinus, p) =>
  match p.getCollisionDepth fuel bbBlock .X with
  | none => none
  | some (dX, p) =>
  match p.getCollisionDepth fuel bbBlock .XMinus with
  | none => none
  | some (dXMinus, p) =>
  match p.getCollisionDepth fuel bbBlock .Y with
  | none => none
  | some (dY, p) =>
  match p.getCollisionDepth fuel bbBlock .YMinus with
  | none => none
  | some (dYMinus, p) =>
    let depths := [newCubeSideValue .Z dZ, newCubeSideValue .ZMinus dZMinus,
      newCubeSideValue .X dX, newCubeSideValue .XMinus dXMinus,
      newCubeSideValue .Y dY, newCubeSideValue .YMinus dYMinus]
    match depths with
    | [] => none
    | first :: _ =>
      let min := minLoop depths first
      some (min.side, p)

/-- The `switch` of `resolveCollision`, for a given value of the scrutinee. -/
def Player.resolveCollisionCase (fuel : Nat) (p : Player) (bbBlock : BoundingBox) :
    CubeSide → Option Player
  | .Z =>
    match p.getCollisionDepth fuel bbBlock .Z with
    | none => none
    | some (depth, p) => some { p with position := { p.position with Z := p.position.Z + depth } }
  | .ZMinus =>
    match p.getCollisionDepth fuel bbBlock .ZMinus with
    | none => none
    | some (depth, p) => some { p with position := { p.position with Z := p.position.Z - depth } }
  | .X =>
    match p.getCollisionDepth fuel bbBlock .X with
    | none => none
    | some (depth, p) => some { p with position := { p.position with X := p.position.X + depth } }
  | .XMinus =>
    match p.getCollisionDepth fuel bbBlock .XMinus with
    | none => none
    | some (depth, p) => some { p with position := { p.position with X := p.position.X - depth } }
  | .Y =>
    match p.getCollisionDepth fuel bbBlock .Y with
    | none => none
    | some (depth, p) => some { p with position := { p.position with Y := p.position.Y + depth } }
  | .YMinus =>
    match p.getCollisionDepth fuel bbBlock .YMinus with
    | none => none
    | some (depth, p) => some { p with position := { p.position with Y := p.position.Y - depth } }

/-- `Player.resolveCollision`. -/
def Player.resolveCollision (fuel : Nat) (p : Player) (b : Block) : Option Player :=
  let bbBlock := b.boundingBox
  match p.getCollisionWhichSide fuel bbBlock with
  | none => none
  | some (side, p) =>
    match p.resolveCollisionCase fuel bbBlock side with
    | none => none
    | some p => some p.updateTransform

/-! ## The motion controller -/

/-- The four key states `rl.IsKeyDown` reports during one call of `update`. -/
structure Keys where
  W : Bool
  S : Bool
  A : Bool
  D : Bool
deriving DecidableEq

/-- The parts of `Game` that `Player.update` reads or writes: the camera
target and the blocks of the block manager. -/
structure Game where
  cameraTarget : Vector3
  blocks : List Block
deriving DecidableEq

/-- The loop `for _, b := range g.blockManager.blocks` of `Player.update`;
`bbPlayer` is the player's box as computed before the loop. -/
def updateLoop (fuel : Nat) (bbPlayer : BoundingBox) : List Block → Player →
    Option (Player × List Block)
  | [], p => some (p, [])
  | b :: bs, p =>
    if CheckCollisionBoxes bbPlayer b.boundingBox then
      let b := { b with color := Color.Red }
      match p.resolveCollision fuel b with
      | none => none
      | some p =>
        match updateLoop fuel bbPlayer bs p with
        | none => none
        | some (p, bs) => some (p, b :: bs)
    else
      let b := { b with color := Color.Green }
      match updateLoop fuel bbPlayer bs p with
      | none => none
      | some (p, bs) => some (p, b :: bs)

/-- `Player.update`. -/
def Player.update (fuel : Nat) (keys : Keys) (p : Player) (g : Game) : Option (Player × Game) :=
  let g := { g with cameraTarget := NewVector3 p.position.X p.position.Y p.position.Z }
  let speed : ℚ := 1 / 20
  let p := if keys.W then { p with position := { p.position with Z := p.position.Z + speed } } else p
  let p := if keys.S then { p with position := { p.position with Z := p.position.Z - speed } } else p
  let p := if keys.A then { p with position := { p.position with X := p.position.X + speed } } else p
  let p := if keys.D then { p with position := { p.position with X := p.position.X - speed } } else p
  let p := p.updateTransform
  let bbPlayer := p.boundingBox
  match updateLoop fuel bbPlayer g.blocks p with
  | none => none
  | some (p, blocks) => some (p, { g with blocks := blocks })

/-- `newPlayer`. -/
def newPlayer (position : Vector3) : Player :=
  { position := position, transform := ⟨0, 0, 0⟩ }

/-- `newBlock`. -/
def newBlock (position : Vector3) (color : Color) : Block :=
  { position := position, color := color }

/-! ## Vocabulary of the statements -/

/-- The probe step `step := float32(0.025)` of `getCollisionDepth`. -/
def STEP : ℚ := 1 / 40

/-- The position `pos` moved `k` probe steps along the probe direction of `side`. -/
def translate (pos : Vector3) (side : CubeSide) (k : ℕ) : Vector3 :=
  Vector3Add pos (Vector3Scale (probeDir side) ((k : ℚ) * STEP))

/-- The player's box when its model transform is the translation to `pos`. -/
def boxAt (pos : Vector3) : BoundingBox :=
  (Player.updateTransform { position := pos, transform := pos }).boundingBox

/-- Whether the player's box at `pos` overlaps the box `bb`. -/
def overlapsAt (pos : Vector3) (bb : BoundingBox) : Bool :=
  CheckCollisionBoxes (boxAt pos) bb

/-- `k` is the least positive number of probe steps after which the player's
box, moved from `pos` along the probe direction of `side`, no longer overlaps
`bb`. -/
def IsExitStep (pos : Vector3) (bb : BoundingBox) (side : CubeSide) (k : ℕ) : Prop :=
  1 ≤ k ∧ overlapsAt (translate pos side k) bb = false ∧
    ∀ i, 1 ≤ i → i < k → overlapsAt (translate pos side i) bb = true

/-- The unit vector of the correction that `resolveCollision` applies for each side. -/
def unitVector : CubeSide → Vector3
  | .Z => ⟨0, 0, 1⟩
  | .ZMinus => ⟨0, 0, -1⟩
  | .X => ⟨1, 0, 0⟩
  | .XMinus => ⟨-1, 0, 0⟩
  | .Y => ⟨0, 1, 0⟩
  | .YMinus => ⟨0, -1, 0⟩

/-- The place of a side in the enumeration order `Z, ZMinus, X, XMinus, Y, YMinus`
(the `iota` values of the constants). -/
def CubeSide.index : CubeSide → ℕ
  | .Z => 0
  | .ZMinus => 1
  | .X => 2
  | .XMinus => 3
  | .Y => 4
  | .YMinus => 5

/-- The position `pos` moved by `depth` along the unit vector of `side`. -/
def moveAlong (pos : Vector3) (side : CubeSide) (depth : ℚ) : Vector3 :=
  Vector3Add pos (Vector3Scale (unitVector side) depth)

/-- The slice `depths` that `getCollisionWhichSide` builds from the six depths. -/
def depthsOf (v : CubeSide → ℚ) : List CubeSideValue :=
  [newCubeSideValue .Z (v .Z), newCubeSideValue .ZMinus (v .ZMinus),
    newCubeSideValue .X (v .X), newCubeSideValue .XMinus (v .XMinus),
    newCubeSideValue .Y (v .Y), newCubeSideValue .YMinus (v .YMinus)]

/-- The side that the selection loop of `getCollisionWhichSide` picks from the
six depths `v`, starting from `depths[0]`. -/
def chosenSide (v : CubeSide → ℚ) : CubeSide :=
  (minLoop (depthsOf v) (newCubeSideValue .Z (v .Z))).side

/-- The penetration of the player's box at `pos` into `bb` along the probe
direction of `side`: the distance the box has to travel in that direction for
its trailing face to reach the far face of `bb`.  The probe of `YMinus` moves
along `+Y`, as that of `Y`. -/
def penetration (pos : Vector3) (bb : BoundingBox) : CubeSide → ℚ
  | .Z => bb.Max.Z - (pos.Z - 1 / 2)
  | .ZMinus => pos.Z + 1 / 2 - bb.Min.Z
  | .X => bb.Max.X - (pos.X - 1 / 2)
  | .XMinus => pos.X + 1 / 2 - bb.Min.X
  | .Y => bb.Max.Y - (pos.Y - 1 / 2)
  | .YMinus => bb.Max.Y - (pos.Y - 1 / 2)

/-- The player as `update` leaves it after reading the keys, just before the
loop over the blocks (the lines from `speed := float32(0.05)` to
`p.updateTransform()`). -/
def afterInput (keys : Keys) (p : Player) : Player :=
  let speed : ℚ := 1 / 20
  let p := if keys.W then { p with position := { p.position with Z := p.position.Z + speed } } else p
  let p := if keys.S then { p with position := { p.position with Z := p.position.Z - speed } } else p
  let p := if keys.A then { p with position := { p.position with X := p.position.X + speed } } else p
  let p := if keys.D then { p with position := { p.position with X := p.position.X - speed } } else p
  p.updateTransform

/-- The main loop `for !rl.WindowShouldClose() { g.update() ... }` run for `K`
frames with the same keys held. -/
def updateN (fuel : Nat) (keys : Keys) : Nat → Player → Game → Option (Player × Game)
  | 0, p, g => some (p, g)
  | K + 1, p, g =>
    match p.update fuel keys g with
    | none => none
    | some (p, g) => updateN fuel keys K p g

/-- The exit steps of the six probes in the end-to-end scenario; `kZ` is that
of `+Z` and `kZMinus` that of `-Z`. -/
def scenarioSteps (kZ kZMinus : ℕ) : CubeSide → ℕ
  | .Z => kZ
  | .ZMinus => kZMinus
  | _ => 41

/-- The value `[s]` of a signal: 1 if held, 0 otherwise. -/
def indicator (s : Bool) : ℚ := if s then 1 else 0

/-- The position `update` gives the player on reading the keys: `speed` times
`[A] - [D]` along `X` and `[W] - [S]` along `Z`. -/
def displaced (keys : Keys) (pos : Vector3) : Vector3 :=
  ⟨pos.X + 1 / 20 * (indicator keys.A - indicator keys.D), pos.Y,
    pos.Z + 1 / 20 * (indicator keys.W - indicator keys.S)⟩

/-- The block with the marker that the loop of `update` gives it: red when its
box overlaps `bbPlayer`, green otherwise. -/
def marked (bbPlayer : BoundingBox) (b : Block) : Block :=
  { b with color := if CheckCollisionBoxes bbPlayer b.boundingBox then Color.Red else Color.Green }

/-! ## The calls of the resolver, recorded -/

/-- The loop of `Player.update` once more, this time keeping a record of the
calls `p.resolveCollision(b)` it makes instead of the final state: for each
call, the player as it is at the moment of the call and the block passed. -/
def updateLoopCalls (fuel : Nat) (bbPlayer : BoundingBox) : List Block → Player →
    Option (List (Player × Block))
  | [], _ => some []
  | b :: bs, p =>
    if CheckCollisionBoxes bbPlayer b.boundingBox then
      let b := { b with color := Color.Red }
      match p.resolveCollision fuel b with
      | none => none
      | some p1 =>
        match updateLoopCalls fuel bbPlayer bs p1 with
        | none => none
        | some calls => some ((p, b) :: calls)
    else
      updateLoopCalls fuel bbPlayer bs p

/-- The calls of `resolveCollision` that one call of `Player.update` makes, in
order. -/
def Player.updateCalls (fuel : Nat) (keys : Keys) (p : Player) (g : Game) :
    Option (List (Player × Block)) :=
  let speed : ℚ := 1 / 20
  let p := if keys.W then { p with position := { p.position with Z := p.position.Z + speed } } else p
  let p := if keys.S then { p with position := { p.position with Z := p.position.Z - speed } } else p
  let p := if keys.A then { p with position := { p.position with X := p.position.X + speed } } else p
  let p := if keys.D then { p with position := { p.position with X := p.position.X - speed } } else p
  let p := p.updateTransform
  let bbPlayer := p.boundingBox
  updateLoopCalls fuel bbPlayer g.blocks p

/-! ## float32 arithmetic -/

/-- The binary logarithm of `n`, rounded down (0 for `n = 0`), by halving at
most `fuel` times. -/
def log2Fuel : ℕ → ℕ → ℕ
  | 0, _ => 0
  | fuel + 1, n => if 2 ≤ n then log2Fuel fuel (n / 2) + 1 else 0

/-- One stage of a binary search for the position of the leading bit: from
`(m, a)` to `(m / 2 ^ s, a + s)` when `2 ^ s ≤ m`. -/
def log2Stage (s : ℕ) (x : ℕ × ℕ) : ℕ × ℕ :=
  cond (Nat.ble (2 ^ s) x.1) (x.1 >>> s, x.2 + s) x

/-- The binary logarithm of `n`, rounded down (0 for `n = 0`): nine stages of
binary search below `2 ^ 512`, halving above. -/
def log2 (n : ℕ) : ℕ :=
  cond (Nat.ble (2 ^ 512) n) (log2Fuel n n)
    (log2Stage 1 (log2Stage 2 (log2Stage 4 (log2Stage 8 (log2Stage 16 (log2Stage 32
      (log2Stage 64 (log2Stage 128 (log2Stage 256 (n, 0)))))))))).2

/-- The binary exponent of `n / d` counted from `-149`:
`⌊log₂ (n / d)⌋ + 149`, and 0 when `n / d < 2 ^ (-149)`.  The difference of the
two logarithms is that exponent or one more; the comparison settles which. -/
def binaryExponent (n d : ℕ) : ℕ :=
  let e0 := log2 n + 149 - log2 d
  cond (Nat.ble (d * 2 ^ e0) (n * 2 ^ 149)) e0 (e0 - 1)

/-- The quotient `N / D` rounded to the nearest integer, ties to even. -/
def roundQuotient (N D : ℕ) : ℕ :=
  let f := N / D
  let r := N % D
  cond (Nat.blt (2 * r) D) f (cond (Nat.blt D (2 * r)) (f + 1) (f + f % 2))

/-- The float32 value nearest to the rational `q` (round to nearest, ties to
even), as the rational it denotes.  With `q = ± n / d`, everything is counted
in units of `2 ^ (-149)`, the least positive float32: the spacing of the
float32 grid at `n / d` is `2 ^ s` units, where `s` is the binary exponent
less the 23 fraction bits (one unit in the subnormal range), and `m` is
`n / d` in units of that spacing, rounded.  Overflow to infinity
(`|q| ≥ 2 ^ 128`) is not modelled. -/
def round32 (q : ℚ) : ℚ :=
  let n := q.num.natAbs
  let d := q.den
  let s := binaryExponent n d - 23
  let m := roundQuotient (n * 2 ^ 149) (d * 2 ^ s)
  let v : ℚ := mkRat (m * 2 ^ s) (2 ^ 149)
  cond (decide (q.num < 0)) (-v) v

/-- Addition of float32 values: the exact sum, rounded. -/
def fadd (a b : ℚ) : ℚ := round32 (a + b)

/-- Subtraction of float32 values: the exact difference, rounded. -/
def fsub (a b : ℚ) : ℚ := round32 (a - b)

/-- Multiplication of float32 values: the exact product, rounded. -/
def fmul (a b : ℚ) : ℚ := round32 (a * b)

/-! ## Coordinates by axis -/

/-- The three coordinate axes. -/
inductive Axis where
  | X
  | Y
  | Z
deriving DecidableEq

/-- The coordinate of a vector on an axis. -/
def Vector3.get (v : Vector3) : Axis → ℚ
  | .X => v.X
  | .Y => v.Y
  | .Z => v.Z

/-- The axis along which the probe of a side moves. -/
def CubeSide.axis : CubeSide → Axis
  | .Z => .Z
  | .ZMinus => .Z
  | .X => .X
  | .XMinus => .X
  | .Y => .Y
  | .YMinus => .Y

/-! ## The program in float32 -/

namespace F32

/-- The constant `float32(0.025)`. -/
def step : ℚ := round32 (1 / 40)

/-- The constant `float32(0.05)`. -/
def speed : ℚ := round32 (1 / 20)

/-- `rl.Vector3Add` in float32. -/
def Vector3Add (v1 v2 : Vector3) : Vector3 :=
  ⟨fadd v1.X v2.X, fadd v1.Y v2.Y, fadd v1.Z v2.Z⟩

/-- `rl.Vector3Scale` in float32. -/
def Vector3Scale (v : Vector3) (scalar : ℚ) : Vector3 :=
  ⟨fmul v.X scalar, fmul v.Y scalar, fmul v.Z scalar⟩

/-- Modelled from the spec: `rl.GetModelBoundingBox` in float32 for a cube of
size `size`: each corner of the mesh box `± size / 2` plus the translation of
the model transform, rounded once. -/
def GetModelBoundingBox (size : ℚ) (transform : Vector3) : BoundingBox :=
  { Min := ⟨fadd (-(size / 2)) transform.X, fadd (-(size / 2)) transform.Y,
            fadd (-(size / 2)) transform.Z⟩
    Max := ⟨fadd (size / 2) transform.X, fadd (size / 2) transform.Y,
            fadd (size / 2) transform.Z⟩ }

/-- The box `rl.GetModelBoundingBox(b.model)` of a block, in float32. -/
def blockBox (b : Block) : BoundingBox :=
  GetModelBoundingBox BLOCK_SIZE b.position

/-- The box `rl.GetModelBoundingBox(p.model)` of the player, in float32. -/
def playerBox (p : Player) : BoundingBox :=
  GetModelBoundingBox 1 p.transform

/-- The probe loop of `getCollisionDepth` in float32, with fuel. -/
def probeLoop (bbBlock : BoundingBox) (step : ℚ) (stepVec : Vector3) :
    Nat → Player → ℚ → Option (Player × ℚ)
  | 0, _, _ => none
  | fuel + 1, p, totalStep =>
    if CheckCollisionBoxes (playerBox p) bbBlock then
      let totalStep := fadd totalStep step
      let p := { p with position := Vector3Add p.position stepVec }
      let p := p.updateTransform
      probeLoop bbBlock step stepVec fuel p totalStep
    else
      some (p, totalStep)

/-- `Player.getCollisionDepth` in float32. -/
def getCollisionDepth (fuel : Nat) (p : Player) (bbBlock : BoundingBox)
    (side : CubeSide) : Option (ℚ × Player) :=
  let oldPosition := p.position
  let dir := probeDir side
  let step : ℚ := F32.step
  let stepVec := Vector3Scale dir step
  let totalStep := step
  let p := { p with position := Vector3Add p.position stepVec }
  let p := p.updateTransform
  match probeLoop bbBlock step stepVec fuel p totalStep with
  | none => none
  | some (p, totalStep) =>
    let p := { p with position := oldPosition }
    let p := p.updateTransform
    some (totalStep, p)

/-- `Player.getCollisionWhichSide` in float32. -/
def getCollisionWhichSide (fuel : Nat) (p : Player) (bbBlock : BoundingBox) :
    Option (CubeSide × Player) :=
  match getCollisionDepth fuel p bbBlock .Z with
  | none => none
  | some (dZ, p) =>
  match getCollisionDepth fuel p bbBlock .ZMinus with
  | none => none
  | some (dZMinus, p) =>
  match getCollisionDepth fuel p bbBlock .X with
  | none => none
  | some (dX, p) =>
  match getCollisionDepth fuel p bbBlock .XMinus with
  | none => none
  | some (dXMinus, p) =>
  match getCollisionDepth fuel p bbBlock .Y with
  | none => none
  | some (dY, p) =>
  match getCollisionDepth fuel p bbBlock .YMinus with
  | none => none
  | some (dYMinus, p) =>
    let depths := [newCubeSideValue .Z dZ, newCubeSideValue .ZMinus dZMinus,
      newCubeSideValue .X dX, newCubeSideValue .XMinus dXMinus,
      newCubeSideValue .Y dY, newCubeSideValue .YMinus dYMinus]
    match depths with
    | [] => none
    | first :: _ =>
      let min := minLoop depths first
      some (min.side, p)

/-- The `switch` of `resolveCollision` in float32, for a given scrutinee. -/
def resolveCollisionCase (fuel : Nat) (p : Player) (bbBlock : BoundingBox) :
    CubeSide → Option Player
  | .Z =>
    match getCollisionDepth fuel p bbBlock .Z with
    | none => none
    | some (depth, p) =>
      some { p with position := { p.position with Z := fadd p.position.Z depth } }
  | .ZMinus =>
    match getCollisionDepth fuel p bbBlock .ZMinus with
    | none => none
    | some (depth, p) =>
      some { p with position := { p.position with Z := fsub p.position.Z depth } }
  | .X =>
    match getCollisionDepth fuel p bbBlock .X with
    | none => none
    | some (depth, p) =>
      some { p with position := { p.position with X := fadd p.position.X depth } }
  | .XMinus =>
    match getCollisionDepth fuel p bbBlock .XMinus with
    | none => none
    | some (depth, p) =>
      some { p with position := { p.position with X := fsub p.position.X depth } }
  | .Y =>
    match getCollisionDepth fuel p bbBlock .Y with
    | none => none
    | some (depth, p) =>
      some { p with position := { p.position with Y := fadd p.position.Y depth } }
  | .YMinus =>
    match getCollisionDepth fuel p bbBlock .YMinus with
    | none => none
    | some (depth, p) =>
      some { p with position := { p.position with Y := fsub p.position.Y depth } }

/-- `Player.resolveCollision` in float32. -/
def resolveCollision (fuel : Nat) (p : Player) (b : Block) : Option Player :=
  let bbBlock := blockBox b
  match getCollisionWhichSide fuel p bbBlock with
  | none => none
  | some (side, p) =>
    match resolveCollisionCase fuel p bbBlock side with
    | none => none
    | some p => some p.updateTransform

/-- The loop over the blocks of `Player.update` in float32. -/
def updateLoop (fuel : Nat) (bbPlayer : BoundingBox) : List Block → Player →
    Option (Player × List Block)
  | [], p => some (p, [])
  | b :: bs, p =>
    if CheckCollisionBoxes bbPlayer (blockBox b) then
      let b := { b with color := Color.Red }
      match resolveCollision fuel p b with
      | none => none
      | some p =>
        match updateLoop fuel bbPlayer bs p with
        | none => none
        | some (p, bs) => some (p, b :: bs)
    else
      let b := { b with color := Color.Green }
      match updateLoop fuel bbPlayer bs p with
      | none => none
      | some (p, bs) => some (p, b :: bs)

/-- `Player.update` in float32. -/
def update (fuel : Nat) (keys : Keys) (p : Player) (g : Game) : Option (Player × Game) :=
  let g := { g with cameraTarget := NewVector3 p.position.X p.position.Y p.position.Z }
  let speed : ℚ := F32.speed
  let p := if keys.W then { p with position := { p.position with Z := fadd p.position.Z speed } } else p
  let p := if keys.S then { p with position := { p.position with Z := fsub p.position.Z speed } } else p
  let p := if keys.A then { p with position := { p.position with X := fadd p.position.X speed } } else p
  let p := if keys.D then { p with position := { p.position with X := fsub p.position.X speed } } else p
  let p := p.updateTransform
  let bbPlayer := playerBox p
  match updateLoop fuel bbPlayer g.blocks p with
  | none => none
  | some (p, blocks) => some (p, { g with blocks := blocks })

/-- The vector `stepVec` by which the probe of `side` moves at each step. -/
def stepVec (side : CubeSide) : Vector3 :=
  Vector3Scale (probeDir side) step

/-- The position of the probe of `side` after `k` steps from `pos`: `stepVec`
added `k` times, each addition rounded. -/
def probePos (pos : Vector3) (side : CubeSide) : ℕ → Vector3
  | 0 => pos
  | k + 1 => Vector3Add (probePos pos side k) (stepVec side)

/-- The value of `totalStep` after `k ≥ 1` probe steps: `step` added up `k`
times, each addition rounded. -/
def stepTotal : ℕ → ℚ
  | 0 => 0
  | 1 => step
  | k + 2 => fadd (stepTotal (k + 1)) step

/-- The player's box when its model transform is the translation to `pos`. -/
def boxAt (pos : Vector3) : BoundingBox :=
  playerBox (Player.updateTransform { position := pos, transform := pos })

/-- Whether the player's box at `pos` overlaps the box `bb`. -/
def overlapsAt (pos : Vector3) (bb : BoundingBox) : Bool :=
  CheckCollisionBoxes (boxAt pos) bb

/-- `k` is the least positive number of probe steps of `side` after which the
player's box at the probe's position no longer overlaps `bb`. -/
def IsExitStep (pos : Vector3) (bb : BoundingBox) (side : CubeSide) (k : ℕ) : Prop :=
  1 ≤ k ∧ overlapsAt (probePos pos side k) bb = false ∧
    ∀ i, 1 ≤ i → i < k → overlapsAt (probePos pos side i) bb = true

/-- The position that the branch of `side` in the `switch` of
`resolveCollision` gives the player: one rounded addition or subtraction of
`depth` on the coordinate of `side`. -/
def corrected (pos : Vector3) (depth : ℚ) : CubeSide → Vector3
  | .Z => { pos with Z := fadd pos.Z depth }
  | .ZMinus => { pos with Z := fsub pos.Z depth }
  | .X => { pos with X := fadd pos.X depth }
  | .XMinus => { pos with X := fsub pos.X depth }
  | .Y => { pos with Y := fadd pos.Y depth }
  | .YMinus => { pos with Y := fsub pos.Y depth }

/-- The player as `update` leaves it after reading the keys, in float32. -/
def afterInput (keys : Keys) (p : Player) : Player :=
  let speed : ℚ := F32.speed
  let p := if keys.W then { p with position := { p.position with Z := fadd p.position.Z speed } } else p
  let p := if keys.S then { p with position := { p.position with Z := fsub p.position.Z speed } } else p
  let p := if keys.A then { p with position := { p.position with X := fadd p.position.X speed } } else p
  let p := if keys.D then { p with position := { p.position with X := fsub p.position.X speed } } else p
  p.updateTransform

/-- All three coordinates of `v` are at most `B` in absolute value. -/
def Within (B : ℚ) (v : Vector3) : Prop :=
  |v.X| ≤ B ∧ |v.Y| ≤ B ∧ |v.Z| ≤ B

/-- A number of probe steps that suffices for every probe within `2 ^ 17`. -/
def probeBound : ℕ := 64 * (2 ^ 18 + 2)

/-- The gap between the player's box `pb` and the box `bb` across the face of
`side`: the signed distance from the face of `bb` on that side to the facing
face of `pb`; it is negative or zero when the boxes overlap along that axis. -/
def gap (pb bb : BoundingBox) : CubeSide → ℚ
  | .Z => pb.Min.Z - bb.Max.Z
  | .ZMinus => bb.Min.Z - pb.Max.Z
  | .X => pb.Min.X - bb.Max.X
  | .XMinus => bb.Min.X - pb.Max.X
  | .Y => pb.Min.Y - bb.Max.Y
  | .YMinus => bb.Min.Y - pb.Max.Y

/-- A coordinate after the two key tests of its axis in `update`: `speed`
added if the first key is held, then `speed` subtracted if the second key is
held, each operation rounded. -/
def moved (plus minus : Bool) (c : ℚ) : ℚ :=
  let c := if plus then fadd c speed else c
  if minus then fsub c speed else c

/-- Each coordinate of the vector is a float32 value: rounding leaves it as it
is. -/
def Exact32 (v : Vector3) : Prop :=
  round32 v.X = v.X ∧ round32 v.Y = v.Y ∧ round32 v.Z = v.Z

/-- The step of the probe of a side along its axis, as a float32. -/
def probeStep : CubeSide → ℚ
  | .Z => step
  | .ZMinus => -step
  | .X => step
  | .XMinus => -step
  | .Y => step
  | .YMinus => step

/-- A coordinate after `i` probe steps: `s` added `i` times to `c`, each sum
rounded. -/
def track (c s : ℚ) : ℕ → ℚ
  | 0 => c
  | i + 1 => fadd (track c s i) s

/-- How far two boxes interpenetrate: the least, over the three axes, of the
lengths by which each box reaches past the facing side of the other.  It is
negative when the boxes are apart. -/
def overlapDepth (pb bb : BoundingBox) : ℚ :=
  min (min (min (pb.Max.X - bb.Min.X) (bb.Max.X - pb.Min.X))
      (min (pb.Max.Y - bb.Min.Y) (bb.Max.Y - pb.Min.Y)))
    (min (pb.Max.Z - bb.Min.Z) (bb.Max.Z - pb.Min.Z))

instance instDecidableExact32 (v : Vector3) : Decidable (Exact32 v) := by
  unfold Exact32
  infer_instance

end F32

/-! ## The overlap test -/

theorem CheckCollisionBoxes_eq_true_iff (box1 box2 : BoundingBox) :
    CheckCollisionBoxes box1 box2 = true ↔
      (box2.Min.X ≤ box1.Max.X ∧ box1.Min.X ≤ box2.Max.X) ∧
      (box2.Min.Y ≤ box1.Max.Y ∧ box1.Min.Y ≤ box2.Max.Y) ∧
      (box2.Min.Z ≤ box1.Max.Z ∧ box1.Min.Z ≤ box2.Max.Z) := by
  unfold CheckCollisionBoxes
  simp only [ge_iff_le, gt_iff_lt]
  split_ifs with hx hz hy
  · simp only [Bool.false_eq_true, false_iff]
    rintro ⟨-, -, h1, h2⟩
    rcases hz with h | h <;> linarith
  · simp only [Bool.false_eq_true, false_iff]
    rintro ⟨-, ⟨h1, h2⟩, -⟩
    rcases hy with h | h <;> linarith
  · simp only [not_or, not_lt] at hy hz
    simp only [true_iff]
    exact ⟨hx, hy, hz⟩
  · simp only [Bool.false_eq_true, false_iff]
    rintro ⟨h, -, -⟩
    exact hx h

theorem overlapsAt_eq_true_iff (pos : Vector3) (bb : BoundingBox) :
    overlapsAt pos bb = true ↔
      (bb.Min.X ≤ pos.X + 1 / 2 ∧ pos.X - 1 / 2 ≤ bb.Max.X) ∧
      (bb.Min.Y ≤ pos.Y + 1 / 2 ∧ pos.Y - 1 / 2 ≤ bb.Max.Y) ∧
      (bb.Min.Z ≤ pos.Z + 1 / 2 ∧ pos.Z - 1 / 2 ≤ bb.Max.Z) := by
  rw [overlapsAt, CheckCollisionBoxes_eq_true_iff]
  simp [boxAt, Player.boundingBox, Player.updateTransform, GetModelBoundingBox]

/-! ## The probe loop -/

theorem translate_succ (pos : Vector3) (side : CubeSide) (k : ℕ) :
    Vector3Add (translate pos side k) (Vector3Scale (probeDir side) (1 / 40)) =
      translate pos side (k + 1) := by
  cases side <;> ext <;>
    simp [translate, Vector3Add, Vector3Scale, probeDir, NewVector3, STEP] <;> ring

theorem translate_one (pos : Vector3) (side : CubeSide) :
    Vector3Add pos (Vector3Scale (probeDir side) (1 / 40)) = translate pos side 1 := by
  cases side <;> ext <;>
    simp [translate, Vector3Add, Vector3Scale, probeDir, NewVector3, STEP]

theorem boundingBox_synced (pos position : Vector3) :
    Player.boundingBox { position := position, transform := pos } = boxAt pos := rfl

/-- The loop, entered after `j` probe steps, leaves at the first step `k ≥ j`
at which the boxes no longer overlap, provided the fuel covers the `k - j + 1`
evaluations of the condition. -/
theorem probeLoop_exit (bb : BoundingBox) (pos : Vector3) (side : CubeSide) (k : ℕ)
    (hex : overlapsAt (translate pos side k) bb = false) :
    ∀ (fuel j : ℕ), j ≤ k → k - j + 1 ≤ fuel →
      (∀ i, j ≤ i → i < k → overlapsAt (translate pos side i) bb = true) →
      probeLoop bb (1 / 40) (Vector3Scale (probeDir side) (1 / 40)) fuel
          { position := translate pos side j, transform := translate pos side j }
          ((j : ℚ) * (1 / 40)) =
        some ({ position := translate pos side k, transform := translate pos side k },
          (k : ℚ) * (1 / 40)) := by
  intro fuel
  induction fuel with
  | zero => intro j _ hf; omega
  | succ fuel ih =>
    intro j hjk hf hov
    rcases Nat.eq_or_lt_of_le hjk with hjk' | hjk'
    · subst hjk'
      have hc : CheckCollisionBoxes (boxAt (translate pos side j)) bb = false := hex
      simp [probeLoop, boundingBox_synced, hc]
    · have hc : CheckCollisionBoxes (boxAt (translate pos side j)) bb = true :=
        hov j le_rfl hjk'
      have hstep : (j : ℚ) * (1 / 40) + 1 / 40 = ((j + 1 : ℕ) : ℚ) * (1 / 40) := by
        push_cast; ring
      simp only [probeLoop, boundingBox_synced, hc, if_true, Player.updateTransform,
        translate_succ, hstep]
      exact ih (j + 1) hjk' (by omega) (fun i hi hik => hov i (by omega) hik)

/-- Some positive number of probe steps takes the player's box out of `bb`. -/
theorem exists_not_overlapsAt (pos : Vector3) (bb : BoundingBox) (side : CubeSide) :
    ∃ k, 1 ≤ k ∧ overlapsAt (translate pos side k) bb = false := by
  have key : ∀ (a : ℚ), ∃ n : ℕ, 1 ≤ n ∧ a < (n : ℚ) * (1 / 40) := by
    intro a
    obtain ⟨n, hn⟩ := exists_nat_gt (40 * a)
    refine ⟨n + 1, by omega, ?_⟩
    push_cast
    linarith
  have hfalse : ∀ q : Vector3, ¬ ((bb.Min.X ≤ q.X + 1 / 2 ∧ q.X - 1 / 2 ≤ bb.Max.X) ∧
      (bb.Min.Y ≤ q.Y + 1 / 2 ∧ q.Y - 1 / 2 ≤ bb.Max.Y) ∧
      (bb.Min.Z ≤ q.Z + 1 / 2 ∧ q.Z - 1 / 2 ≤ bb.Max.Z)) → overlapsAt q bb = false := by
    intro q h
    rw [← Bool.not_eq_true, overlapsAt_eq_true_iff]
    exact h
  cases side
  · obtain ⟨n, h1, hn⟩ := key (bb.Max.Z - pos.Z + 1 / 2)
    refine ⟨n, h1, hfalse _ ?_⟩
    rintro ⟨-, -, -, h⟩
    simp [translate, Vector3Add, Vector3Scale, probeDir, NewVector3, STEP] at h hn
    linarith
  · obtain ⟨n, h1, hn⟩ := key (pos.Z + 1 / 2 - bb.Min.Z)
    refine ⟨n, h1, hfalse _ ?_⟩
    rintro ⟨-, -, h, -⟩
    simp [translate, Vector3Add, Vector3Scale, probeDir, NewVector3, STEP] at h hn
    linarith
  · obtain ⟨n, h1, hn⟩ := key (bb.Max.X - pos.X + 1 / 2)
    refine ⟨n, h1, hfalse _ ?_⟩
    rintro ⟨⟨-, h⟩, -, -⟩
    simp [translate, Vector3Add, Vector3Scale, probeDir, NewVector3, STEP] at h hn
    linarith
  · obtain ⟨n, h1, hn⟩ := key (pos.X + 1 / 2 - bb.Min.X)
    refine ⟨n, h1, hfalse _ ?_⟩
    rintro ⟨⟨h, -⟩, -, -⟩
    simp [translate, Vector3Add, Vector3Scale, probeDir, NewVector3, STEP] at h hn
    linarith
  · obtain ⟨n, h1, hn⟩ := key (bb.Max.Y - pos.Y + 1 / 2)
    refine ⟨n, h1, hfalse _ ?_⟩
    rintro ⟨-, ⟨-, h⟩, -⟩
    simp [translate, Vector3Add, Vector3Scale, probeDir, NewVector3, STEP] at h hn
    linarith
  · obtain ⟨n, h1, hn⟩ := key (bb.Max.Y - pos.Y + 1 / 2)
    refine ⟨n, h1, hfalse _ ?_⟩
    rintro ⟨-, ⟨-, h⟩, -⟩
    simp [translate, Vector3Add, Vector3Scale, probeDir, NewVector3, STEP] at h hn
    linarith

/-- Every probe has an exit step. -/
theorem exists_isExitStep (pos : Vector3) (bb : BoundingBox) (side : CubeSide) :
    ∃ k, IsExitStep pos bb side k := by
  classical
  have h := exists_not_overlapsAt pos bb side
  refine ⟨Nat.find h, (Nat.find_spec h).1, (Nat.find_spec h).2, ?_⟩
  intro i hi hik
  have hmin := Nat.find_min h hik
  by_contra hne
  exact hmin ⟨hi, by simpa using hne⟩

theorem isExitStep_unique {pos : Vector3} {bb : BoundingBox} {side : CubeSide} {k k1 : ℕ}
    (h : IsExitStep pos bb side k) (h1 : IsExitStep pos bb side k1) : k = k1 := by
  rcases Nat.lt_trichotomy k k1 with hlt | heq | hgt
  · have := h1.2.2 k h.1 hlt
    rw [h.2.1] at this
    cases this
  · exact heq
  · have := h.2.2 k1 h1.1 hgt
    rw [h1.2.1] at this
    cases this

/-- `getCollisionDepth` returns the exit step times `STEP` and leaves the
player at its old position, whenever the fuel covers the exit step. -/
theorem getCollisionDepth_of_isExitStep {p : Player} {bb : BoundingBox} {side : CubeSide}
    {k : ℕ} (h : IsExitStep p.position bb side k) {fuel : ℕ} (hf : k ≤ fuel) :
    p.getCollisionDepth fuel bb side =
      some ((k : ℚ) * STEP, { position := p.position, transform := p.position }) := by
  have h1 := h.1
  have hloop := probeLoop_exit bb p.position side k h.2.1 fuel 1 h1 (by omega) h.2.2
  simp only [Nat.cast_one, one_mul] at hloop
  simp only [Player.getCollisionDepth, Player.updateTransform, translate_one, hloop, STEP]

/-! ## The selection loop and the resolver -/

/-- The outcome of the selection loop on six depths, by cases. -/
theorem minLoop_six (a b c d e f : ℚ) :
    ∃ r : CubeSideValue,
      minLoop [⟨.Z, a⟩, ⟨.ZMinus, b⟩, ⟨.X, c⟩, ⟨.XMinus, d⟩, ⟨.Y, e⟩, ⟨.YMinus, f⟩]
        ⟨.Z, a⟩ = r ∧
      ((r.side = .Z ∧ a ≤ b ∧ a ≤ c ∧ a ≤ d ∧ a ≤ e ∧ a ≤ f) ∨
       (r.side = .ZMinus ∧ b < a ∧ b ≤ c ∧ b ≤ d ∧ b ≤ e ∧ b ≤ f) ∨
       (r.side = .X ∧ c < a ∧ c < b ∧ c ≤ d ∧ c ≤ e ∧ c ≤ f) ∨
       (r.side = .XMinus ∧ d < a ∧ d < b ∧ d < c ∧ d ≤ e ∧ d ≤ f) ∨
       (r.side = .Y ∧ e < a ∧ e < b ∧ e < c ∧ e < d ∧ e ≤ f) ∨
       (r.side = .YMinus ∧ f < a ∧ f < b ∧ f < c ∧ f < d ∧ f < e)) := by
  refine ⟨_, rfl, ?_⟩
  simp only [minLoop, lt_self_iff_false, if_false]
  split_ifs <;> simp only [true_and, false_and, or_false, false_or, reduceCtorEq] <;>
    (refine ⟨?_, ?_, ?_, ?_, ?_⟩ <;> linarith)

theorem chosenSide_cases (v : CubeSide → ℚ) :
    (chosenSide v = .Z ∧ v .Z ≤ v .ZMinus ∧ v .Z ≤ v .X ∧ v .Z ≤ v .XMinus ∧
        v .Z ≤ v .Y ∧ v .Z ≤ v .YMinus) ∨
    (chosenSide v = .ZMinus ∧ v .ZMinus < v .Z ∧ v .ZMinus ≤ v .X ∧ v .ZMinus ≤ v .XMinus ∧
        v .ZMinus ≤ v .Y ∧ v .ZMinus ≤ v .YMinus) ∨
    (chosenSide v = .X ∧ v .X < v .Z ∧ v .X < v .ZMinus ∧ v .X ≤ v .XMinus ∧
        v .X ≤ v .Y ∧ v .X ≤ v .YMinus) ∨
    (chosenSide v = .XMinus ∧ v .XMinus < v .Z ∧ v .XMinus < v .ZMinus ∧ v .XMinus < v .X ∧
        v .XMinus ≤ v .Y ∧ v .XMinus ≤ v .YMinus) ∨
    (chosenSide v = .Y ∧ v .Y < v .Z ∧ v .Y < v .ZMinus ∧ v .Y < v .X ∧
        v .Y < v .XMinus ∧ v .Y ≤ v .YMinus) ∨
    (chosenSide v = .YMinus ∧ v .YMinus < v .Z ∧ v .YMinus < v .ZMinus ∧ v .YMinus < v .X ∧
        v .YMinus < v .XMinus ∧ v .YMinus < v .Y) := by
  obtain ⟨r, hr, h⟩ := minLoop_six (v .Z) (v .ZMinus) (v .X) (v .XMinus) (v .Y) (v .YMinus)
  have hc : chosenSide v = r.side := by
    simp only [chosenSide, depthsOf, newCubeSideValue, hr]
  rw [hc]
  exact h

/-- The selection loop picks the first side of least depth. -/
theorem chosenSide_first_min (v : CubeSide → ℚ) (t : CubeSide) :
    v (chosenSide v) ≤ v t ∧ (t.index < (chosenSide v).index → v (chosenSide v) < v t) := by
  rcases chosenSide_cases v with h | h | h | h | h | h <;>
    obtain ⟨hs, h1, h2, h3, h4, h5⟩ := h <;> rw [hs] <;> cases t <;>
    simp only [CubeSide.index] <;>
    refine ⟨by linarith, fun hlt => ?_⟩ <;> first | omega | linarith

theorem getCollisionWhichSide_of_isExitStep {p : Player} {bb : BoundingBox} {k : CubeSide → ℕ}
    (hk : ∀ s, IsExitStep p.position bb s (k s)) {fuel : ℕ} (hf : ∀ s, k s ≤ fuel) :
    p.getCollisionWhichSide fuel bb =
      some (chosenSide (fun s => (k s : ℚ) * STEP),
        { position := p.position, transform := p.position }) := by
  have h0 := getCollisionDepth_of_isExitStep (hk .Z) (hf .Z)
  have hs : ∀ s, Player.getCollisionDepth fuel
      { position := p.position, transform := p.position } bb s =
      some ((k s : ℚ) * STEP, { position := p.position, transform := p.position }) :=
    fun s => @getCollisionDepth_of_isExitStep
      { position := p.position, transform := p.position } bb s (k s) (hk s) fuel (hf s)
  simp only [Player.getCollisionWhichSide, h0, hs, chosenSide, depthsOf]

theorem resolveCollisionCase_of_isExitStep {p : Player} {bb : BoundingBox} {side : CubeSide}
    {k : ℕ} (h : IsExitStep p.position bb side k) {fuel : ℕ} (hf : k ≤ fuel) :
    p.resolveCollisionCase fuel bb side =
      some { position := moveAlong p.position side ((k : ℚ) * STEP),
             transform := p.position } := by
  have hd := getCollisionDepth_of_isExitStep h hf
  cases side <;>
    simp [Player.resolveCollisionCase, hd, moveAlong, unitVector, Vector3Add, Vector3Scale] <;>
    ring

theorem resolveCollision_of_isExitStep {p : Player} {b : Block} {k : CubeSide → ℕ}
    (hk : ∀ s, IsExitStep p.position b.boundingBox s (k s)) {fuel : ℕ}
    (hf : ∀ s, k s ≤ fuel) :
    p.resolveCollision fuel b =
      some { position := moveAlong p.position (chosenSide (fun s => (k s : ℚ) * STEP))
               ((k (chosenSide (fun s => (k s : ℚ) * STEP)) : ℚ) * STEP),
             transform := moveAlong p.position (chosenSide (fun s => (k s : ℚ) * STEP))
               ((k (chosenSide (fun s => (k s : ℚ) * STEP)) : ℚ) * STEP) } := by
  have hw := getCollisionWhichSide_of_isExitStep hk hf
  have hc := @resolveCollisionCase_of_isExitStep
    { position := p.position, transform := p.position } b.boundingBox
    (chosenSide (fun s => (k s : ℚ) * STEP)) _ (hk _) fuel (hf _)
  simp only [Player.resolveCollision, hw, hc, Player.updateTransform]

/-- The exit steps of all six sides, with a fuel bound that covers them. -/
theorem exists_exitSteps (pos : Vector3) (bb : BoundingBox) :
    ∃ (k : CubeSide → ℕ) (N : ℕ), (∀ s, IsExitStep pos bb s (k s)) ∧ ∀ s, k s ≤ N := by
  choose k hk using exists_isExitStep pos bb
  refine ⟨k, k .Z + k .ZMinus + k .X + k .XMinus + k .Y + k .YMinus, hk, ?_⟩
  intro s
  cases s <;> omega

theorem isExitStep_YMinus_iff (pos : Vector3) (bb : BoundingBox) (k : ℕ) :
    IsExitStep pos bb .YMinus k ↔ IsExitStep pos bb .Y k := Iff.rfl

theorem chosenSide_ne_YMinus (v : CubeSide → ℚ) (h : v .YMinus = v .Y) :
    chosenSide v ≠ .YMinus := by
  rcases chosenSide_cases v with h1 | h1 | h1 | h1 | h1 | h1 <;>
    obtain ⟨hs, -, -, -, -, h5⟩ := h1 <;> rw [hs]
  · simp
  · simp
  · simp
  · simp
  · simp
  · rw [h] at h5
    exact absurd h5 (lt_irrefl _)

/-- The depths of the `-Y` and `+Y` probes agree. -/
theorem exitStep_YMinus_eq {pos : Vector3} {bb : BoundingBox} {k : CubeSide → ℕ}
    (hk : ∀ s, IsExitStep pos bb s (k s)) : k .YMinus = k .Y :=
  isExitStep_unique ((isExitStep_YMinus_iff pos bb _).1 (hk .YMinus)) (hk .Y)

/-- The side chosen from the six probe depths is never `-Y`. -/
theorem chosenSide_exitSteps_ne_YMinus {pos : Vector3} {bb : BoundingBox} {k : CubeSide → ℕ}
    (hk : ∀ s, IsExitStep pos bb s (k s)) :
    chosenSide (fun s => (k s : ℚ) * STEP) ≠ .YMinus :=
  chosenSide_ne_YMinus _ (by simp only [exitStep_YMinus_eq hk])

/-- From an overlapping position, the boxes still overlap after `i` probe
steps exactly when `i * STEP` does not exceed the penetration. -/
theorem overlapsAt_translate_iff {pos : Vector3} {bb : BoundingBox}
    (h : overlapsAt pos bb = true) (side : CubeSide) (i : ℕ) :
    overlapsAt (translate pos side i) bb = true ↔ (i : ℚ) * STEP ≤ penetration pos bb side := by
  have hi : (0 : ℚ) ≤ (i : ℚ) := Nat.cast_nonneg i
  rw [overlapsAt_eq_true_iff] at h
  obtain ⟨⟨h1, h2⟩, ⟨h3, h4⟩, h5, h6⟩ := h
  rw [overlapsAt_eq_true_iff]
  cases side <;>
    simp only [translate, Vector3Add, Vector3Scale, probeDir, NewVector3, STEP, penetration] <;>
    constructor <;> intro h <;> (try refine ⟨⟨?_, ?_⟩, ⟨?_, ?_⟩, ?_, ?_⟩) <;>
    (try obtain ⟨⟨g1, g2⟩, ⟨g3, g4⟩, g5, g6⟩ := h) <;> linarith

/-- From an overlapping position, the exit step is the `k` with
`(k - 1) * STEP ≤ penetration < k * STEP`. -/
theorem isExitStep_of_penetration {pos : Vector3} {bb : BoundingBox}
    (h : overlapsAt pos bb = true) (side : CubeSide) (k : ℕ) (hk : 1 ≤ k)
    (h1 : ((k : ℚ) - 1) * STEP ≤ penetration pos bb side)
    (h2 : penetration pos bb side < (k : ℚ) * STEP) : IsExitStep pos bb side k := by
  refine ⟨hk, ?_, ?_⟩
  · rw [← Bool.not_eq_true, overlapsAt_translate_iff h]
    exact not_le.mpr h2
  · intro i _ hik
    rw [overlapsAt_translate_iff h]
    have hle : (i : ℚ) ≤ (k : ℚ) - 1 := by
      have : i + 1 ≤ k := hik
      have : ((i + 1 : ℕ) : ℚ) ≤ (k : ℚ) := by exact_mod_cast this
      push_cast at this
      linarith
    have hS : (0 : ℚ) < STEP := by norm_num [STEP]
    nlinarith

/-! ## The loop of `update` -/

theorem update_eq_updateLoop (fuel : ℕ) (keys : Keys) (p : Player) (g : Game) :
    p.update fuel keys g =
      match updateLoop fuel (afterInput keys p).boundingBox g.blocks (afterInput keys p) with
      | none => none
      | some (p1, blocks) =>
        some (p1, { cameraTarget := p.position, blocks := blocks }) := rfl

/-! ## Fuel

A result obtained with some fuel is obtained with any larger fuel, so it is
the result of the program, whose loop has no cap. -/

/-- More fuel does not change a result of the probe loop. -/
theorem probeLoop_fuel_mono (bb : BoundingBox) (step : ℚ) (stepVec : Vector3) :
    ∀ (fuel fuel1 : ℕ) (p : Player) (total : ℚ) (r : Player × ℚ), fuel ≤ fuel1 →
      probeLoop bb step stepVec fuel p total = some r →
      probeLoop bb step stepVec fuel1 p total = some r := by
  intro fuel
  induction fuel with
  | zero => intro fuel1 p total r _ h; simp [probeLoop] at h
  | succ fuel ih =>
    intro fuel1 p total r hle h
    obtain ⟨f, rfl⟩ : ∃ f, fuel1 = f + 1 := ⟨fuel1 - 1, by omega⟩
    simp only [probeLoop] at h ⊢
    split_ifs at h ⊢ with hc
    · exact ih _ _ _ _ (by omega) h
    · exact h

theorem getCollisionDepth_fuel_mono {fuel fuel1 : ℕ} (hle : fuel ≤ fuel1) {p : Player}
    {bb : BoundingBox} {side : CubeSide} {r : ℚ × Player}
    (h : p.getCollisionDepth fuel bb side = some r) :
    p.getCollisionDepth fuel1 bb side = some r := by
  unfold Player.getCollisionDepth at h ⊢
  simp only at h ⊢
  split at h
  · cases h
  · rename_i q total heq
    rw [probeLoop_fuel_mono _ _ _ _ _ _ _ _ hle heq]
    exact h

theorem getCollisionWhichSide_fuel_mono {fuel fuel1 : ℕ} (hle : fuel ≤ fuel1) {p : Player}
    {bb : BoundingBox} {r : CubeSide × Player}
    (h : p.getCollisionWhichSide fuel bb = some r) :
    p.getCollisionWhichSide fuel1 bb = some r := by
  unfold Player.getCollisionWhichSide at h ⊢
  split at h
  · cases h
  rename_i d1 p1 h1
  rw [getCollisionDepth_fuel_mono hle h1]
  simp only at h ⊢
  split at h
  · cases h
  rename_i d2 p2 h2
  rw [getCollisionDepth_fuel_mono hle h2]
  simp only at h ⊢
  split at h
  · cases h
  rename_i d3 p3 h3
  rw [getCollisionDepth_fuel_mono hle h3]
  simp only at h ⊢
  split at h
  · cases h
  rename_i d4 p4 h4
  rw [getCollisionDepth_fuel_mono hle h4]
  simp only at h ⊢
  split at h
  · cases h
  rename_i d5 p5 h5
  rw [getCollisionDepth_fuel_mono hle h5]
  simp only at h ⊢
  split at h
  · cases h
  rename_i d6 p6 h6
  rw [getCollisionDepth_fuel_mono hle h6]
  exact h

theorem resolveCollisionCase_fuel_mono {fuel fuel1 : ℕ} (hle : fuel ≤ fuel1) {p : Player}
    {bb : BoundingBox} {side : CubeSide} {r : Player}
    (h : p.resolveCollisionCase fuel bb side = some r) :
    p.resolveCollisionCase fuel1 bb side = some r := by
  cases side <;> simp only [Player.resolveCollisionCase] at h ⊢ <;> split at h <;>
    rename_i hd <;>
    first
    | (rw [getCollisionDepth_fuel_mono hle hd]; exact h)
    | cases h

theorem resolveCollision_fuel_mono {fuel fuel1 : ℕ} (hle : fuel ≤ fuel1) {p : Player}
    {b : Block} {r : Player} (h : p.resolveCollision fuel b = some r) :
    p.resolveCollision fuel1 b = some r := by
  unfold Player.resolveCollision at h ⊢
  simp only at h ⊢
  split at h
  · cases h
  rename_i side q hw
  rw [getCollisionWhichSide_fuel_mono hle hw]
  simp only at h ⊢
  split at h
  · cases h
  rename_i q1 hc
  rw [resolveCollisionCase_fuel_mono hle hc]
  exact h

theorem updateLoop_fuel_mono {fuel fuel1 : ℕ} (hle : fuel ≤ fuel1) (bb : BoundingBox) :
    ∀ (blocks : List Block) (p : Player) (r : Player × List Block),
      updateLoop fuel bb blocks p = some r → updateLoop fuel1 bb blocks p = some r := by
  intro blocks
  induction blocks with
  | nil => intro p r h; exact h
  | cons b bs ih =>
    intro p r h
    simp only [updateLoop] at h ⊢
    split_ifs at h ⊢ with hg
    · split at h
      · cases h
      rename_i p1 hr
      rw [resolveCollision_fuel_mono hle hr]
      simp only at h ⊢
      split at h
      · cases h
      rename_i p2 bs2 hl
      rw [ih _ _ hl]
      exact h
    · split at h
      · cases h
      rename_i p2 bs2 hl
      rw [ih _ _ hl]
      exact h

/-- More fuel does not change a result of `update`: a result obtained with
some fuel is the result of the program. -/
theorem update_fuel_mono {fuel fuel1 : ℕ} (hle : fuel ≤ fuel1) {keys : Keys} {p : Player}
    {g : Game} {r : Player × Game} (h : p.update fuel keys g = some r) :
    p.update fuel1 keys g = some r := by
  rw [update_eq_updateLoop] at h ⊢
  split at h
  · cases h
  rename_i p1 bs hl
  rw [updateLoop_fuel_mono hle _ _ _ _ hl]
  exact h

/-! ## The end-to-end scenario -/

theorem scenario_first_exitSteps (c : Color) (s : CubeSide) :
    IsExitStep ⟨12, 0, 101 / 20⟩ (Block.boundingBox ⟨⟨12, 0, 6⟩, c⟩) s (scenarioSteps 79 3 s) := by
  have hov : overlapsAt ⟨12, 0, 101 / 20⟩ (Block.boundingBox ⟨⟨12, 0, 6⟩, c⟩) = true := by
    rw [overlapsAt_eq_true_iff]
    norm_num [Block.boundingBox, GetModelBoundingBox, BLOCK_SIZE]
  cases s <;>
    refine isExitStep_of_penetration hov _ _ (by simp [scenarioSteps]) ?_ ?_ <;>
    norm_num [scenarioSteps, penetration, STEP, Block.boundingBox, GetModelBoundingBox, BLOCK_SIZE]

theorem scenario_later_exitSteps (c : Color) (s : CubeSide) :
    IsExitStep ⟨12, 0, 201 / 40⟩ (Block.boundingBox ⟨⟨12, 0, 6⟩, c⟩) s (scenarioSteps 80 2 s) := by
  have hov : overlapsAt ⟨12, 0, 201 / 40⟩ (Block.boundingBox ⟨⟨12, 0, 6⟩, c⟩) = true := by
    rw [overlapsAt_eq_true_iff]
    norm_num [Block.boundingBox, GetModelBoundingBox, BLOCK_SIZE]
  cases s <;>
    refine isExitStep_of_penetration hov _ _ (by simp [scenarioSteps]) ?_ ?_ <;>
    norm_num [scenarioSteps, penetration, STEP, Block.boundingBox, GetModelBoundingBox, BLOCK_SIZE]

theorem scenarioSteps_le (kZ kZMinus : ℕ) (h1 : kZ ≤ 80) (h2 : kZMinus ≤ 80) (s : CubeSide) :
    scenarioSteps kZ kZMinus s ≤ 80 := by
  cases s <;> simp [scenarioSteps] <;> omega

/-- One tick of the scenario with `W` held, from `z = 5`. -/
theorem scenario_first_tick (fuel : ℕ) (hf : 80 ≤ fuel) (t cam : Vector3) (c : Color) :
    Player.update fuel ⟨true, false, false, false⟩ ⟨⟨12, 0, 5⟩, t⟩ ⟨cam, [⟨⟨12, 0, 6⟩, c⟩]⟩ =
      some (⟨⟨12, 0, 199 / 40⟩, ⟨12, 0, 199 / 40⟩⟩,
        ⟨⟨12, 0, 5⟩, [⟨⟨12, 0, 6⟩, Color.Red⟩]⟩) := by
  have hA : afterInput ⟨true, false, false, false⟩ ⟨⟨12, 0, 5⟩, t⟩ =
      ⟨⟨12, 0, 101 / 20⟩, ⟨12, 0, 101 / 20⟩⟩ := by
    simp only [afterInput, Player.updateTransform, if_true, Bool.false_eq_true, if_false]
    norm_num
  have hg : CheckCollisionBoxes (Player.boundingBox ⟨⟨12, 0, 101 / 20⟩, ⟨12, 0, 101 / 20⟩⟩)
      (Block.boundingBox ⟨⟨12, 0, 6⟩, c⟩) = true := by
    cases c <;> decide!
  have hr := @resolveCollision_of_isExitStep ⟨⟨12, 0, 101 / 20⟩, ⟨12, 0, 101 / 20⟩⟩
    ⟨⟨12, 0, 6⟩, Color.Red⟩ (scenarioSteps 79 3) (scenario_first_exitSteps Color.Red) fuel
    (fun s => le_trans (scenarioSteps_le 79 3 (by omega) (by omega) s) hf)
  have hc : chosenSide (fun s => (scenarioSteps 79 3 s : ℚ) * STEP) = CubeSide.ZMinus := by
    decide!
  have hm : moveAlong ⟨12, 0, 101 / 20⟩ CubeSide.ZMinus ((scenarioSteps 79 3 .ZMinus : ℚ) * STEP)
      = ⟨12, 0, 199 / 40⟩ := by
    decide!
  rw [hc, hm] at hr
  rw [update_eq_updateLoop, hA]
  simp only [updateLoop, hg, if_true, hr]

/-- One tick of the scenario with `W` held, from `z = 199/40`. -/
theorem scenario_later_tick (fuel : ℕ) (hf : 80 ≤ fuel) (t cam : Vector3) (c : Color) :
    Player.update fuel ⟨true, false, false, false⟩ ⟨⟨12, 0, 199 / 40⟩, t⟩
        ⟨cam, [⟨⟨12, 0, 6⟩, c⟩]⟩ =
      some (⟨⟨12, 0, 199 / 40⟩, ⟨12, 0, 199 / 40⟩⟩,
        ⟨⟨12, 0, 199 / 40⟩, [⟨⟨12, 0, 6⟩, Color.Red⟩]⟩) := by
  have hA : afterInput ⟨true, false, false, false⟩ ⟨⟨12, 0, 199 / 40⟩, t⟩ =
      ⟨⟨12, 0, 201 / 40⟩, ⟨12, 0, 201 / 40⟩⟩ := by
    simp only [afterInput, Player.updateTransform, if_true, Bool.false_eq_true, if_false]
    norm_num
  have hg : CheckCollisionBoxes (Player.boundingBox ⟨⟨12, 0, 201 / 40⟩, ⟨12, 0, 201 / 40⟩⟩)
      (Block.boundingBox ⟨⟨12, 0, 6⟩, c⟩) = true := by
    cases c <;> decide!
  have hr := @resolveCollision_of_isExitStep ⟨⟨12, 0, 201 / 40⟩, ⟨12, 0, 201 / 40⟩⟩
    ⟨⟨12, 0, 6⟩, Color.Red⟩ (scenarioSteps 80 2) (scenario_later_exitSteps Color.Red) fuel
    (fun s => le_trans (scenarioSteps_le 80 2 (by omega) (by omega) s) hf)
  have hc : chosenSide (fun s => (scenarioSteps 80 2 s : ℚ) * STEP) = CubeSide.ZMinus := by
    decide!
  have hm : moveAlong ⟨12, 0, 201 / 40⟩ CubeSide.ZMinus ((scenarioSteps 80 2 .ZMinus : ℚ) * STEP)
      = ⟨12, 0, 199 / 40⟩ := by
    decide!
  rw [hc, hm] at hr
  rw [update_eq_updateLoop, hA]
  simp only [updateLoop, hg, if_true, hr]

/-- From `z = 199/40` any number of ticks with `W` held leaves the player there. -/
theorem scenario_later_ticks (fuel : ℕ) (hf : 80 ≤ fuel) (K : ℕ) :
    ∀ (cam : Vector3) (c : Color), ∃ g1,
      updateN fuel ⟨true, false, false, false⟩ K ⟨⟨12, 0, 199 / 40⟩, ⟨12, 0, 199 / 40⟩⟩
        ⟨cam, [⟨⟨12, 0, 6⟩, c⟩]⟩ =
      some (⟨⟨12, 0, 199 / 40⟩, ⟨12, 0, 199 / 40⟩⟩, g1) := by
  induction K with
  | zero => intro cam c; exact ⟨_, rfl⟩
  | succ K ih =>
    intro cam c
    obtain ⟨g1, h⟩ := ih ⟨12, 0, 199 / 40⟩ Color.Red
    exact ⟨g1, by simp only [updateN, scenario_later_tick fuel hf, h]⟩

/-! ## Termination, markers and the ground plane -/

theorem getCollisionWhichSide_ne_YMinus {fuel : ℕ} {p : Player} {bb : BoundingBox}
    {side : CubeSide} {p1 : Player} (h : p.getCollisionWhichSide fuel bb = some (side, p1)) :
    side ≠ .YMinus := by
  obtain ⟨k, N, hk, hN⟩ := exists_exitSteps p.position bb
  have h1 := getCollisionWhichSide_fuel_mono (Nat.le_max_left fuel N) h
  have h2 := @getCollisionWhichSide_of_isExitStep p bb k hk (max fuel N)
    (fun s => le_trans (hN s) (Nat.le_max_right fuel N))
  rw [h2] at h1
  simp only [Option.some.injEq, Prod.mk.injEq] at h1
  rw [← h1.1]
  exact chosenSide_exitSteps_ne_YMinus hk

theorem afterInput_position (keys : Keys) (p : Player) :
    (afterInput keys p).position = displaced keys p.position ∧
    (afterInput keys p).transform = displaced keys p.position := by
  obtain ⟨w, s, a, d⟩ := keys
  cases w <;> cases s <;> cases a <;> cases d <;>
    simp [afterInput, displaced, indicator, Player.updateTransform] <;>
    (try refine ⟨?_, ?_⟩) <;> ring

/-- The blocks that the loop returns carry the markers of the box computed
before the loop. -/
theorem updateLoop_blocks (fuel : ℕ) (bb : BoundingBox) :
    ∀ (blocks : List Block) (p p1 : Player) (bs : List Block),
      updateLoop fuel bb blocks p = some (p1, bs) → bs = blocks.map (marked bb) := by
  intro blocks
  induction blocks with
  | nil =>
    intro p p1 bs h
    simp only [updateLoop, Option.some.injEq, Prod.mk.injEq] at h
    rw [← h.2]; rfl
  | cons b blocks ih =>
    intro p p1 bs h
    simp only [updateLoop] at h
    split_ifs at h with hg
    · split at h
      · cases h
      rename_i p2 hr
      split at h
      · cases h
      rename_i p3 bs3 hl
      simp only [Option.some.injEq, Prod.mk.injEq] at h
      rw [← h.2, ih _ _ _ hl]
      simp [marked, hg]
    · split at h
      · cases h
      rename_i p3 bs3 hl
      simp only [Option.some.injEq, Prod.mk.injEq] at h
      rw [← h.2, ih _ _ _ hl]
      simp [marked, hg]

/-- The loop returns for all sufficiently large fuel, with a result that does
not depend on the fuel. -/
theorem updateLoop_returns (bb : BoundingBox) :
    ∀ (blocks : List Block) (p : Player), ∃ N r, ∀ fuel, N ≤ fuel →
      updateLoop fuel bb blocks p = some r := by
  intro blocks
  induction blocks with
  | nil => intro p; exact ⟨0, (p, []), fun fuel _ => rfl⟩
  | cons b blocks ih =>
    intro p
    by_cases hg : CheckCollisionBoxes bb b.boundingBox = true
    · obtain ⟨k, N1, hk, hN1⟩ := exists_exitSteps p.position
        (Block.boundingBox { b with color := Color.Red })
      obtain ⟨N2, r, h2⟩ := ih
        { position := moveAlong p.position (chosenSide (fun s => (k s : ℚ) * STEP))
            ((k (chosenSide (fun s => (k s : ℚ) * STEP)) : ℚ) * STEP),
          transform := moveAlong p.position (chosenSide (fun s => (k s : ℚ) * STEP))
            ((k (chosenSide (fun s => (k s : ℚ) * STEP)) : ℚ) * STEP) }
      refine ⟨N1 + N2, (r.1, { b with color := Color.Red } :: r.2), fun fuel hf => ?_⟩
      have hr := @resolveCollision_of_isExitStep p { b with color := Color.Red } k hk fuel
        (fun s => le_trans (hN1 s) (by omega))
      simp only [updateLoop, hg, if_true, hr, h2 fuel (by omega)]
    · obtain ⟨N2, r, h2⟩ := ih p
      refine ⟨N2, (r.1, { b with color := Color.Green } :: r.2), fun fuel hf => ?_⟩
      simp only [updateLoop, hg, Bool.false_eq_true, if_false, h2 fuel hf]

/-- The colours of the blocks do not enter the player that the loop returns. -/
theorem updateLoop_player_of_positions (fuel : ℕ) (bb : BoundingBox) :
    ∀ (blocks blocks2 : List Block) (p : Player),
      blocks.map Block.position = blocks2.map Block.position →
      (updateLoop fuel bb blocks p).map Prod.fst =
        (updateLoop fuel bb blocks2 p).map Prod.fst := by
  intro blocks
  induction blocks with
  | nil =>
    intro blocks2 p h
    cases blocks2 with
    | nil => rfl
    | cons c cs => simp at h
  | cons b blocks ih =>
    intro blocks2 p h
    cases blocks2 with
    | nil => simp at h
    | cons c cs =>
      simp only [List.map_cons, List.cons.injEq] at h
      obtain ⟨hb, hrest⟩ := h
      have hbox : c.boundingBox = b.boundingBox := by
        simp only [Block.boundingBox, hb]
      have hres : ∀ q : Player,
          q.resolveCollision fuel { c with color := Color.Red } =
            q.resolveCollision fuel { b with color := Color.Red } := by
        intro q
        simp only [Player.resolveCollision, Block.boundingBox, hb]
      simp only [updateLoop, hbox, hres]
      split_ifs with hg
      · cases hr : p.resolveCollision fuel { b with color := Color.Red } with
        | none => rfl
        | some p1 =>
          have := ih cs p1 hrest
          simp only
          cases h1 : updateLoop fuel bb blocks p1 with
          | none =>
            rw [h1] at this
            cases h2 : updateLoop fuel bb cs p1 with
            | none => rfl
            | some r2 => rw [h2] at this; simp at this
          | some r1 =>
            rw [h1] at this
            cases h2 : updateLoop fuel bb cs p1 with
            | none => rw [h2] at this; simp at this
            | some r2 =>
              rw [h2] at this
              simpa using this
      · have := ih cs p hrest
        cases h1 : updateLoop fuel bb blocks p with
        | none =>
          rw [h1] at this
          cases h2 : updateLoop fuel bb cs p with
          | none => rfl
          | some r2 => rw [h2] at this; simp at this
        | some r1 =>
          rw [h1] at this
          cases h2 : updateLoop fuel bb cs p with
          | none => rw [h2] at this; simp at this
          | some r2 =>
            rw [h2] at this
            simpa using this

theorem afterInput_boundingBox_eq (keys : Keys) (p : Player) :
    (afterInput keys p).boundingBox = boxAt (displaced keys p.position) := by
  unfold Player.boundingBox
  rw [(afterInput_position keys p).2]
  rfl

/-! ## The calls of the resolver -/

theorem updateCalls_eq_updateLoopCalls (fuel : ℕ) (keys : Keys) (p : Player) (g : Game) :
    p.updateCalls fuel keys g =
      updateLoopCalls fuel (afterInput keys p).boundingBox g.blocks (afterInput keys p) := rfl

/-- The recording loop returns exactly when the loop of `update` does. -/
theorem updateLoopCalls_isSome (fuel : ℕ) (bb : BoundingBox) :
    ∀ (blocks : List Block) (p : Player),
      (updateLoopCalls fuel bb blocks p).isSome = (updateLoop fuel bb blocks p).isSome := by
  intro blocks
  induction blocks with
  | nil => intro p; rfl
  | cons b blocks ih =>
    intro p
    simp only [updateLoopCalls, updateLoop]
    split_ifs with hg
    · cases hr : p.resolveCollision fuel { position := b.position, color := Color.Red } with
      | none => rfl
      | some p1 =>
        have := ih p1
        simp only
        cases h1 : updateLoopCalls fuel bb blocks p1 <;>
          cases h2 : updateLoop fuel bb blocks p1 <;> simp_all
    · have := ih p
      cases h1 : updateLoopCalls fuel bb blocks p <;>
        cases h2 : updateLoop fuel bb blocks p <;> simp_all

/-- What the recording loop records: the blocks that pass the guard on
`bbPlayer`, in list order and marked red; the first call is made on the player
the loop starts from; each later call is made on the player that the call
before it returned. -/
theorem updateLoopCalls_spec (fuel : ℕ) (bb : BoundingBox) :
    ∀ (blocks : List Block) (p : Player) (calls : List (Player × Block)),
      updateLoopCalls fuel bb blocks p = some calls →
      calls.map Prod.snd =
        (blocks.filter (fun b => CheckCollisionBoxes bb b.boundingBox)).map
          (fun b => { b with color := Color.Red }) ∧
      (∀ c ∈ calls.head?, c.1 = p) ∧
      List.Chain' (fun c d => c.1.resolveCollision fuel c.2 = some d.1) calls := by
  intro blocks
  induction blocks with
  | nil =>
    intro p calls h
    simp only [updateLoopCalls, Option.some.injEq] at h
    subst h
    simp
  | cons b blocks ih =>
    intro p calls h
    simp only [updateLoopCalls] at h
    split_ifs at h with hg
    · split at h
      · cases h
      rename_i p1 hr
      split at h
      · cases h
      rename_i calls1 hl
      simp only [Option.some.injEq] at h
      subst h
      obtain ⟨h1, h2, h3⟩ := ih p1 calls1 hl
      refine ⟨?_, ?_, ?_⟩
      · simp only [List.map_cons, List.filter_cons, hg, if_true, h1]
      · simp
      · rw [List.chain'_cons']
        refine ⟨fun d hd => ?_, h3⟩
        rw [h2 d hd]
        exact hr
    · obtain ⟨h1, h2, h3⟩ := ih p calls h
      refine ⟨?_, h2, h3⟩
      simp only [List.filter_cons, hg, Bool.false_eq_true, if_false, h1]

/-! ## Rounding to float32 -/

theorem log2Fuel_spec : ∀ (fuel n : ℕ), n ≤ fuel → 1 ≤ n →
    2 ^ log2Fuel fuel n ≤ n ∧ n < 2 ^ (log2Fuel fuel n + 1) := by
  intro fuel
  induction fuel with
  | zero => intro n h1 h2; omega
  | succ fuel ih =>
    intro n h1 h2
    simp only [log2Fuel]
    split_ifs with h
    · have h3 := ih (n / 2) (by omega) (by omega)
      rw [pow_succ, pow_succ]
      constructor <;> omega
    · simp
      omega

theorem log2Stage_spec (n s : ℕ) (x : ℕ × ℕ) (h1 : 1 ≤ x.1) (h2 : 2 ^ x.2 * x.1 ≤ n)
    (h3 : n < 2 ^ x.2 * (x.1 + 1)) (h4 : x.1 < 2 ^ (2 * s)) :
    1 ≤ (log2Stage s x).1 ∧ 2 ^ (log2Stage s x).2 * (log2Stage s x).1 ≤ n ∧
      n < 2 ^ (log2Stage s x).2 * ((log2Stage s x).1 + 1) ∧ (log2Stage s x).1 < 2 ^ s := by
  unfold log2Stage
  rcases h : Nat.ble (2 ^ s) x.1 with _ | _
  · have h5 : ¬ 2 ^ s ≤ x.1 := by
      intro h6
      rw [← Nat.ble_eq] at h6
      rw [h] at h6
      cases h6
    simp only [cond_false]
    exact ⟨h1, h2, h3, by omega⟩
  · have h5 : 2 ^ s ≤ x.1 := Nat.ble_eq.mp h
    simp only [cond_true, Nat.shiftRight_eq_div_pow]
    have hp : 0 < 2 ^ s := Nat.pow_pos (by norm_num)
    have hd := Nat.div_add_mod x.1 (2 ^ s)
    have hm := Nat.mod_lt x.1 hp
    have hq : 1 ≤ x.1 / 2 ^ s := (Nat.one_le_div_iff hp).mpr h5
    refine ⟨hq, ?_, ?_, ?_⟩
    · calc 2 ^ (x.2 + s) * (x.1 / 2 ^ s) = 2 ^ x.2 * (2 ^ s * (x.1 / 2 ^ s)) := by
            rw [pow_add]; ring
        _ ≤ 2 ^ x.2 * x.1 := Nat.mul_le_mul_left _ (by omega)
        _ ≤ n := h2
    · calc n < 2 ^ x.2 * (x.1 + 1) := h3
        _ ≤ 2 ^ x.2 * (2 ^ s * (x.1 / 2 ^ s + 1)) := Nat.mul_le_mul_left _ (by
            rw [Nat.mul_add]; omega)
        _ = 2 ^ (x.2 + s) * (x.1 / 2 ^ s + 1) := by rw [pow_add]; ring
    · rw [Nat.div_lt_iff_lt_mul hp, ← pow_add]
      calc x.1 < 2 ^ (2 * s) := h4
        _ = 2 ^ (s + s) := by rw [two_mul]

set_option exponentiation.threshold 1024 in
/-- `log2 n` is the position of the leading bit of `n ≥ 1`. -/
theorem log2_spec (n : ℕ) (hn : 1 ≤ n) : 2 ^ log2 n ≤ n ∧ n < 2 ^ (log2 n + 1) := by
  unfold log2
  rcases h : Nat.ble (2 ^ 512) n with _ | _
  · have h5 : n < 2 ^ 512 := by
      by_contra h6
      have h7 : 2 ^ 512 ≤ n := by omega
      rw [← Nat.ble_eq] at h7
      rw [h] at h7
      cases h7
    simp only [cond_false]
    have s0 : 1 ≤ ((n, 0) : ℕ × ℕ).1 ∧ 2 ^ ((n, 0) : ℕ × ℕ).2 * ((n, 0) : ℕ × ℕ).1 ≤ n ∧
        n < 2 ^ ((n, 0) : ℕ × ℕ).2 * (((n, 0) : ℕ × ℕ).1 + 1) ∧
        ((n, 0) : ℕ × ℕ).1 < 2 ^ (2 * 256) := by
      refine ⟨hn, by simp, by simp, h5⟩
    have s1 := log2Stage_spec n 256 _ s0.1 s0.2.1 s0.2.2.1 s0.2.2.2
    have s2 := log2Stage_spec n 128 _ s1.1 s1.2.1 s1.2.2.1 s1.2.2.2
    have s3 := log2Stage_spec n 64 _ s2.1 s2.2.1 s2.2.2.1 s2.2.2.2
    have s4 := log2Stage_spec n 32 _ s3.1 s3.2.1 s3.2.2.1 s3.2.2.2
    have s5 := log2Stage_spec n 16 _ s4.1 s4.2.1 s4.2.2.1 s4.2.2.2
    have s6 := log2Stage_spec n 8 _ s5.1 s5.2.1 s5.2.2.1 s5.2.2.2
    have s7 := log2Stage_spec n 4 _ s6.1 s6.2.1 s6.2.2.1 s6.2.2.2
    have s8 := log2Stage_spec n 2 _ s7.1 s7.2.1 s7.2.2.1 s7.2.2.2
    have s9 := log2Stage_spec n 1 _ s8.1 s8.2.1 s8.2.2.1 s8.2.2.2
    obtain ⟨t1, t2, t3, t4⟩ := s9
    generalize log2Stage 1 (log2Stage 2 (log2Stage 4 (log2Stage 8 (log2Stage 16 (log2Stage 32
      (log2Stage 64 (log2Stage 128 (log2Stage 256 (n, 0))))))))) = y at t1 t2 t3 t4 ⊢
    have hy : y.1 = 1 := by
      have : y.1 < 2 := by simpa using t4
      omega
    rw [hy] at t2 t3
    constructor
    · simpa using t2
    · rw [pow_succ]
      simpa using t3
  · simp only [cond_true]
    exact log2Fuel_spec n n le_rfl hn

set_option exponentiation.threshold 1024 in
theorem log2_zero : log2 0 = 0 := by decide!

theorem binaryExponent_le (n d K : ℕ) (hd : 0 < d) (h : n < d * 2 ^ K) :
    binaryExponent n d ≤ K + 148 := by
  unfold binaryExponent
  rcases hb : Nat.ble (d * 2 ^ (log2 n + 149 - log2 d)) (n * 2 ^ 149) with _ | _
  · simp only [hb, cond_false]
    rcases Nat.eq_zero_or_pos n with h0 | h0
    · subst h0
      rw [log2_zero]
      omega
    · have h1 := (log2_spec n h0).1
      have h2 := (log2_spec d hd).2
      have h3 : 2 ^ log2 n < 2 ^ (log2 d + 1 + K) := by
        calc 2 ^ log2 n ≤ n := h1
          _ < d * 2 ^ K := h
          _ ≤ 2 ^ (log2 d + 1) * 2 ^ K := Nat.mul_le_mul_right _ h2.le
          _ = 2 ^ (log2 d + 1 + K) := (pow_add 2 (log2 d + 1) K).symm
      have h4 := (Nat.pow_lt_pow_iff_right (by norm_num : 1 < 2)).mp h3
      omega
  · simp only [hb, cond_true]
    have h1 : d * 2 ^ (log2 n + 149 - log2 d) ≤ n * 2 ^ 149 := Nat.ble_eq.mp hb
    have h2 : d * 2 ^ (log2 n + 149 - log2 d) < d * 2 ^ (K + 149) := by
      calc d * 2 ^ (log2 n + 149 - log2 d) ≤ n * 2 ^ 149 := h1
        _ < d * 2 ^ K * 2 ^ 149 := Nat.mul_lt_mul_of_pos_right h (Nat.pow_pos (by norm_num))
        _ = d * 2 ^ (K + 149) := by rw [pow_add]; ring
    have h3 := Nat.lt_of_mul_lt_mul_left h2
    have h4 := (Nat.pow_lt_pow_iff_right (by norm_num : 1 < 2)).mp h3
    omega

theorem roundQuotient_spec (N D : ℕ) (hD : 0 < D) :
    2 * (roundQuotient N D * D) ≤ 2 * N + D ∧ 2 * N ≤ 2 * (roundQuotient N D * D) + D := by
  unfold roundQuotient
  have hd := Nat.div_add_mod N D
  have hm := Nat.mod_lt N hD
  have hc : D * (N / D) = N / D * D := Nat.mul_comm _ _
  rcases h1 : Nat.blt (2 * (N % D)) D with _ | _
  · rcases h2 : Nat.blt D (2 * (N % D)) with _ | _
    · simp only [h1, h2, cond_false]
      have e1 : ¬ 2 * (N % D) < D := by
        intro h; rw [← Nat.blt_eq] at h; rw [h1] at h; cases h
      have e2 : ¬ D < 2 * (N % D) := by
        intro h; rw [← Nat.blt_eq] at h; rw [h2] at h; cases h
      rcases Nat.mod_two_eq_zero_or_one (N / D) with h3 | h3
      · rw [h3, Nat.add_zero]
        omega
      · rw [h3, Nat.add_mul, Nat.one_mul]
        omega
    · simp only [h1, h2, cond_false, cond_true]
      have e2 : D < 2 * (N % D) := Nat.blt_eq.mp h2
      rw [Nat.add_mul, Nat.one_mul]
      omega
  · simp only [h1, cond_true]
    have e1 : 2 * (N % D) < D := Nat.blt_eq.mp h1
    omega

/-- Rounding to float32 moves a rational below `2 ^ K` in absolute value by at
most half the spacing of the float32 grid there, `2 ^ K / 2 ^ 25`. -/
theorem round32_error (q : ℚ) (K : ℕ) (h : |q| < 2 ^ K) :
    |round32 q - q| ≤ 2 ^ K / 2 ^ 25 := by
  have hd : 0 < q.den := q.den_pos
  have hdq : (0 : ℚ) < q.den := by exact_mod_cast hd
  have habs : |q| = (q.num.natAbs : ℚ) / q.den := by
    conv_lhs => rw [← Rat.num_div_den q]
    rw [abs_div, Nat.abs_cast, Nat.cast_natAbs, Int.cast_abs]
  have hn : q.num.natAbs < q.den * 2 ^ K := by
    rw [habs, div_lt_iff₀ hdq] at h
    have : (q.num.natAbs : ℚ) < ((q.den * 2 ^ K : ℕ) : ℚ) := by
      push_cast
      linarith
    exact_mod_cast this
  have he := binaryExponent_le _ _ K hd hn
  set s := binaryExponent q.num.natAbs q.den - 23 with hs
  have hsK : s ≤ K + 125 := by omega
  have hD : 0 < q.den * 2 ^ s := Nat.mul_pos hd (Nat.pow_pos (by norm_num))
  have hr := roundQuotient_spec (q.num.natAbs * 2 ^ 149) (q.den * 2 ^ s) hD
  set m := roundQuotient (q.num.natAbs * 2 ^ 149) (q.den * 2 ^ s) with hm
  have hmk : (mkRat ((m : ℤ) * 2 ^ s) (2 ^ 149) : ℚ) = (m : ℚ) * 2 ^ s / 2 ^ 149 := by
    rw [Rat.mkRat_eq_div]
    norm_num
  have aux : ∀ (a b c e P : ℚ), 0 < e → 0 < P →
      a * b / P - c / e = (a * (e * b) - c * P) / (e * P) := by
    intro a b c e P he hP
    field_simp
    ring
  have hv : abs ((m : ℚ) * 2 ^ s / 2 ^ 149 - abs q) ≤ 2 ^ K / 2 ^ 25 := by
    rw [habs, aux _ _ _ _ _ hdq (by positivity), abs_div,
      abs_of_pos (by positivity : (0 : ℚ) < q.den * 2 ^ 149),
      div_le_div_iff₀ (by positivity) (by positivity)]
    have hr1 : (2 : ℚ) * (m * (q.den * 2 ^ s)) ≤ 2 * (q.num.natAbs * 2 ^ 149) + q.den * 2 ^ s := by
      exact_mod_cast hr.1
    have hr2 : (2 : ℚ) * (q.num.natAbs * 2 ^ 149) ≤ 2 * (m * (q.den * 2 ^ s)) + q.den * 2 ^ s := by
      exact_mod_cast hr.2
    have hab : |(m : ℚ) * (q.den * 2 ^ s) - q.num.natAbs * 2 ^ 149| ≤ (q.den : ℚ) * 2 ^ s / 2 := by
      rw [abs_le]
      constructor <;> linarith
    have hpow : (2 : ℚ) ^ s ≤ 2 ^ (K + 125) := pow_le_pow_right₀ (by norm_num) hsK
    calc |(m : ℚ) * (q.den * 2 ^ s) - q.num.natAbs * 2 ^ 149| * 2 ^ 25
        ≤ (q.den : ℚ) * 2 ^ s / 2 * 2 ^ 25 := by
          apply mul_le_mul_of_nonneg_right hab (by positivity)
      _ ≤ (q.den : ℚ) * 2 ^ (K + 125) / 2 * 2 ^ 25 := by
          have := mul_le_mul_of_nonneg_left hpow hdq.le
          linarith
      _ = 2 ^ K * ((q.den : ℚ) * 2 ^ 149) := by
          rw [pow_add]
          ring
  unfold round32
  simp only [← hs, ← hm, hmk]
  by_cases hneg : q.num < 0
  · have hq : q < 0 := Rat.num_neg.mp hneg
    simp only [hneg, decide_True, cond_true]
    rw [abs_of_neg hq] at hv
    have e2 : -((m : ℚ) * 2 ^ s / 2 ^ 149) - q = -((m : ℚ) * 2 ^ s / 2 ^ 149 - -q) := by ring
    rw [e2, abs_neg]
    exact hv
  · have hq : 0 ≤ q := Rat.num_nonneg.mp (not_lt.mp hneg)
    simp only [hneg, decide_False, cond_false]
    rw [abs_of_nonneg hq] at hv
    exact hv

theorem roundQuotient_zero (D : ℕ) : roundQuotient 0 D = 0 := by
  unfold roundQuotient
  simp only [Nat.zero_div, Nat.zero_mod, Nat.mul_zero]
  rcases h : Nat.blt 0 D with _ | _
  · have h2 : Nat.blt D 0 = false := by
      rcases h3 : Nat.blt D 0 with _ | _
      · rfl
      · exact absurd (Nat.blt_eq.mp h3) (Nat.not_lt_zero D)
    simp [h2]
  · simp

/-- Rounding to float32 commutes with negation. -/
theorem round32_neg (q : ℚ) : round32 (-q) = -round32 q := by
  unfold round32
  simp only [Rat.neg_num, Rat.neg_den, Int.natAbs_neg]
  rcases lt_trichotomy q.num 0 with h | h | h
  · have h1 : ¬ (-q.num < 0) := by omega
    simp only [h, h1, decide_True, decide_False, cond_true, cond_false, neg_neg]
  · simp only [h, Int.natAbs_zero, Nat.zero_mul, roundQuotient_zero, neg_zero,
      lt_self_iff_false, decide_False, cond_false, Nat.cast_zero, zero_mul, Rat.zero_mkRat]
  · have h1 : ¬ (q.num < 0) := by omega
    have h2 : -q.num < 0 := by omega
    simp only [h1, h2, decide_True, decide_False, cond_true, cond_false]

theorem fadd_neg_neg (a b : ℚ) : fadd (-a) (-b) = -fadd a b := by
  unfold fadd
  rw [← neg_add, round32_neg]

theorem fsub_eq_fadd_neg (a b : ℚ) : fsub a b = fadd a (-b) := by
  unfold fsub fadd
  rw [sub_eq_add_neg]

/-- The exponent is not too small: `n / d` is below `2 ^ (e + 1)` units. -/
theorem binaryExponent_upper (n d : ℕ) (hd : 0 < d) :
    n * 2 ^ 149 < d * 2 ^ (binaryExponent n d + 1) := by
  have hb := (log2_spec d hd).1
  have h0 : n * 2 ^ 149 < d * 2 ^ (log2 n + 149 - log2 d + 1) := by
    rcases Nat.eq_zero_or_pos n with hn | hn
    · subst hn
      rw [Nat.zero_mul]
      exact Nat.mul_pos hd (Nat.pow_pos (by norm_num))
    · have ha := (log2_spec n hn).2
      calc n * 2 ^ 149 < 2 ^ (log2 n + 1) * 2 ^ 149 :=
            Nat.mul_lt_mul_of_pos_right ha (Nat.pow_pos (by norm_num))
        _ = 2 ^ (log2 n + 1 + 149) := (pow_add 2 _ _).symm
        _ ≤ 2 ^ (log2 d + (log2 n + 149 - log2 d + 1)) :=
            Nat.pow_le_pow_right (by norm_num) (by omega)
        _ = 2 ^ log2 d * 2 ^ (log2 n + 149 - log2 d + 1) := pow_add 2 _ _
        _ ≤ d * 2 ^ (log2 n + 149 - log2 d + 1) := Nat.mul_le_mul_right _ hb
  unfold binaryExponent
  rcases ht : Nat.ble (d * 2 ^ (log2 n + 149 - log2 d)) (n * 2 ^ 149) with _ | _
  · simp only [ht, cond_false]
    have h1 : ¬ d * 2 ^ (log2 n + 149 - log2 d) ≤ n * 2 ^ 149 := by
      intro h
      rw [← Nat.ble_eq] at h
      rw [ht] at h
      cases h
    rcases Nat.eq_zero_or_pos (log2 n + 149 - log2 d) with he | he
    · rw [he] at h1 ⊢
      simp only [pow_zero, Nat.mul_one, Nat.zero_sub, Nat.zero_add, pow_one] at h1 ⊢
      omega
    · rw [Nat.sub_add_cancel he]
      omega
  · simp only [ht, cond_true]
    exact h0

/-- The exponent is not too large: when it is positive, `n / d`, for `n ≥ 1`,
is at least `2 ^ e` units. -/
theorem binaryExponent_lower (n d : ℕ) (hn : 0 < n) (hd : 0 < d)
    (he : 1 ≤ binaryExponent n d) : d * 2 ^ binaryExponent n d ≤ n * 2 ^ 149 := by
  have ha := (log2_spec n hn).1
  have hb := (log2_spec d hd).2
  unfold binaryExponent at he ⊢
  rcases ht : Nat.ble (d * 2 ^ (log2 n + 149 - log2 d)) (n * 2 ^ 149) with _ | _
  · simp only [ht, cond_false] at he ⊢
    calc d * 2 ^ (log2 n + 149 - log2 d - 1)
        ≤ 2 ^ (log2 d + 1) * 2 ^ (log2 n + 149 - log2 d - 1) := Nat.mul_le_mul_right _ hb.le
      _ = 2 ^ (log2 d + 1 + (log2 n + 149 - log2 d - 1)) := (pow_add 2 _ _).symm
      _ = 2 ^ (log2 n + 149) := by
          rw [show log2 d + 1 + (log2 n + 149 - log2 d - 1) = log2 n + 149 from by omega]
      _ = 2 ^ log2 n * 2 ^ 149 := pow_add 2 _ _
      _ ≤ n * 2 ^ 149 := Nat.mul_le_mul_right _ ha
  · simp only [ht, cond_true]
    exact Nat.ble_eq.mp ht

theorem roundQuotient_le (N D : ℕ) : roundQuotient N D ≤ N / D + 1 := by
  unfold roundQuotient
  rcases h1 : Nat.blt (2 * (N % D)) D with _ | _
  · rcases h2 : Nat.blt D (2 * (N % D)) with _ | _
    · simp only [h1, h2, cond_false]
      have := Nat.mod_lt (N / D) (by norm_num : 0 < 2)
      omega
    · simp only [h1, h2, cond_false, cond_true]
      exact le_rfl
  · simp only [h1, cond_true]
    omega

/-- A quotient that is exact is not changed by rounding. -/
theorem roundQuotient_of_dvd (c D : ℕ) (hD : 0 < D) : roundQuotient (c * D) D = c := by
  unfold roundQuotient
  have h1 : Nat.blt (2 * (c * D % D)) D = true := by
    rw [Nat.mul_mod_left, Nat.mul_zero]
    exact Nat.blt_eq.mpr hD
  simp only [h1, cond_true]
  exact Nat.mul_div_cancel c hD

/-- The rounded quotient of `round32` has at most 24 bits, or is `2 ^ 24`. -/
theorem roundQuotient_round32_le (n d : ℕ) (hd : 0 < d) :
    roundQuotient (n * 2 ^ 149) (d * 2 ^ (binaryExponent n d - 23)) ≤ 2 ^ 24 := by
  have hU := binaryExponent_upper n d hd
  have hD : 0 < d * 2 ^ (binaryExponent n d - 23) := Nat.mul_pos hd (Nat.pow_pos (by norm_num))
  have h1 : n * 2 ^ 149 < d * 2 ^ (binaryExponent n d - 23) * 2 ^ 24 := by
    calc n * 2 ^ 149 < d * 2 ^ (binaryExponent n d + 1) := hU
      _ ≤ d * 2 ^ (binaryExponent n d - 23 + 24) :=
          Nat.mul_le_mul_left _ (Nat.pow_le_pow_right (by norm_num) (by omega))
      _ = d * 2 ^ (binaryExponent n d - 23) * 2 ^ 24 := by rw [pow_add, Nat.mul_assoc]
  have h2 : n * 2 ^ 149 / (d * 2 ^ (binaryExponent n d - 23)) < 2 ^ 24 := by
    rw [Nat.div_lt_iff_lt_mul hD]
    calc n * 2 ^ 149 < d * 2 ^ (binaryExponent n d - 23) * 2 ^ 24 := h1
      _ = 2 ^ 24 * (d * 2 ^ (binaryExponent n d - 23)) := Nat.mul_comm _ _
  have := roundQuotient_le (n * 2 ^ 149) (d * 2 ^ (binaryExponent n d - 23))
  omega

theorem round32_zero : round32 0 = 0 := by decide!

/-- A non-negative rational `V / P` in lowest terms, cross-multiplied. -/
theorem num_mul_eq_of_eq_div (q : ℚ) (V P : ℕ) (hP : 0 < P) (hq : q = (V : ℚ) / (P : ℚ))
    (hq0 : 0 ≤ q) : q.num.natAbs * P = V * q.den := by
  have hnat : (q.num.natAbs : ℤ) = q.num := Int.natAbs_of_nonneg (Rat.num_nonneg.mpr hq0)
  have h1 : q * q.den = q.num := Rat.mul_den_eq_num q
  have hPq : (0 : ℚ) < P := by exact_mod_cast hP
  have h2 : (q.num : ℚ) * P = (V : ℚ) * q.den := by
    rw [← h1, hq]
    field_simp
  have h3 : ((q.num.natAbs : ℤ) : ℚ) * P = (V : ℚ) * q.den := by
    rw [hnat]
    exact h2
  have h4 : ((q.num.natAbs * P : ℕ) : ℚ) = ((V * q.den : ℕ) : ℚ) := by
    push_cast
    rw [← h3]
    norm_cast
  exact_mod_cast h4

/-- A multiple `m × 2 ^ s` of `2 ^ (-149)` with `m ≤ 2 ^ 24` is a float32
value: rounding leaves it as it is. -/
theorem round32_of_representable (m s : ℕ) (hm : m ≤ 2 ^ 24) :
    round32 ((m : ℚ) * 2 ^ s / 2 ^ 149) = (m : ℚ) * 2 ^ s / 2 ^ 149 := by
  rcases Nat.eq_zero_or_pos m with h0 | h0
  · subst h0
    simp only [Nat.cast_zero, zero_mul, zero_div]
    exact round32_zero
  set q : ℚ := (m : ℚ) * 2 ^ s / 2 ^ 149 with hq
  have hqpos : 0 < q := by
    rw [hq]
    have : (0 : ℚ) < m := by exact_mod_cast h0
    positivity
  have hnum : 0 < q.num := Rat.num_pos.mpr hqpos
  have hd : 0 < q.den := q.den_pos
  have hnat : (q.num.natAbs : ℤ) = q.num := Int.natAbs_of_nonneg hnum.le
  have hn : 0 < q.num.natAbs := by
    have : (0 : ℤ) < q.num.natAbs := by rw [hnat]; exact hnum
    exact_mod_cast this
  -- the fraction in lowest terms against the fraction over `2 ^ 149`
  have hcross : q.num.natAbs * 2 ^ 149 = m * 2 ^ s * q.den := by
    have hq2 : q = ((m * 2 ^ s : ℕ) : ℚ) / ((2 ^ 149 : ℕ) : ℚ) := by
      rw [hq]
      norm_num
    exact num_mul_eq_of_eq_div q _ _ (Nat.pow_pos (by norm_num)) hq2 hqpos.le
  -- the spacing divides the value
  have hdvd : 2 ^ (binaryExponent q.num.natAbs q.den - 23) ∣ m * 2 ^ s := by
    rcases Nat.lt_or_ge (binaryExponent q.num.natAbs q.den) 24 with h24 | h24
    · have : binaryExponent q.num.natAbs q.den - 23 = 0 := by omega
      rw [this, pow_zero]
      exact one_dvd _
    · have hL := binaryExponent_lower _ _ hn hd (by omega)
      rw [hcross, Nat.mul_comm (m * 2 ^ s) q.den] at hL
      have h1 : 2 ^ binaryExponent q.num.natAbs q.den ≤ m * 2 ^ s :=
        Nat.le_of_mul_le_mul_left hL hd
      have h2 : 2 ^ binaryExponent q.num.natAbs q.den ≤ 2 ^ (24 + s) := by
        calc 2 ^ binaryExponent q.num.natAbs q.den ≤ m * 2 ^ s := h1
          _ ≤ 2 ^ 24 * 2 ^ s := Nat.mul_le_mul_right _ hm
          _ = 2 ^ (24 + s) := (pow_add 2 _ _).symm
      have h3 := (Nat.pow_le_pow_iff_right (by norm_num : 1 < 2)).mp h2
      rcases Nat.lt_or_ge (binaryExponent q.num.natAbs q.den) (24 + s) with h4 | h4
      · exact Dvd.dvd.mul_left (pow_dvd_pow 2 (by omega)) m
      · have h5 : binaryExponent q.num.natAbs q.den = 24 + s := by omega
        rw [h5] at h1
        have h6 : 2 ^ 24 * 2 ^ s ≤ m * 2 ^ s := by
          rw [← pow_add]
          exact h1
        have h7 : 2 ^ 24 ≤ m := Nat.le_of_mul_le_mul_right h6 (Nat.pow_pos (by norm_num))
        have h8 : m = 2 ^ 24 := le_antisymm hm h7
        rw [h5, h8, ← pow_add]
        exact pow_dvd_pow 2 (by omega)
  obtain ⟨c, hc⟩ := hdvd
  have hN : q.num.natAbs * 2 ^ 149 =
      c * (q.den * 2 ^ (binaryExponent q.num.natAbs q.den - 23)) := by
    rw [hcross, hc]
    ring
  have hD : 0 < q.den * 2 ^ (binaryExponent q.num.natAbs q.den - 23) :=
    Nat.mul_pos hd (Nat.pow_pos (by norm_num))
  have hnotneg : ¬ (q.num < 0) := by omega
  unfold round32
  simp only [hnotneg, decide_False, cond_false]
  rw [hN, roundQuotient_of_dvd c _ hD, Rat.mkRat_eq_div]
  have hcV : (c : ℚ) * 2 ^ (binaryExponent q.num.natAbs q.den - 23) = (m : ℚ) * 2 ^ s := by
    have : ((m * 2 ^ s : ℕ) : ℚ) =
        ((2 ^ (binaryExponent q.num.natAbs q.den - 23) * c : ℕ) : ℚ) := by
      rw [hc]
    push_cast at this
    linarith
  have hcV2 : (((c : ℤ) * 2 ^ (binaryExponent q.num.natAbs q.den - 23) : ℤ) : ℚ) =
      (m : ℚ) * 2 ^ s := by
    rw [← hcV]
    push_cast
    rfl
  rw [hcV2, hq]
  norm_num

/-- Rounding to float32 is idempotent. -/
theorem round32_round32 (q : ℚ) : round32 (round32 q) = round32 q := by
  have hm := roundQuotient_round32_le q.num.natAbs q.den q.den_pos
  have hv : (mkRat ((roundQuotient (q.num.natAbs * 2 ^ 149)
        (q.den * 2 ^ (binaryExponent q.num.natAbs q.den - 23)) : ℕ) *
        2 ^ (binaryExponent q.num.natAbs q.den - 23)) (2 ^ 149) : ℚ) =
      ((roundQuotient (q.num.natAbs * 2 ^ 149)
        (q.den * 2 ^ (binaryExponent q.num.natAbs q.den - 23)) : ℕ) : ℚ) *
        2 ^ (binaryExponent q.num.natAbs q.den - 23) / 2 ^ 149 := by
    rw [Rat.mkRat_eq_div]
    norm_num
  have hr := round32_of_representable _ (binaryExponent q.num.natAbs q.den - 23) hm
  have e : round32 q = cond (decide (q.num < 0))
      (-(((roundQuotient (q.num.natAbs * 2 ^ 149)
        (q.den * 2 ^ (binaryExponent q.num.natAbs q.den - 23)) : ℕ) : ℚ) *
        2 ^ (binaryExponent q.num.natAbs q.den - 23) / 2 ^ 149))
      (((roundQuotient (q.num.natAbs * 2 ^ 149)
        (q.den * 2 ^ (binaryExponent q.num.natAbs q.den - 23)) : ℕ) : ℚ) *
        2 ^ (binaryExponent q.num.natAbs q.den - 23) / 2 ^ 149) := by
    rw [← hv]
    rfl
  rw [e]
  by_cases hneg : q.num < 0
  · simp only [hneg, decide_True, cond_true]
    rw [round32_neg, hr]
  · simp only [hneg, decide_False, cond_false]
    exact hr

namespace F32

/-! ## The probe loop in float32 -/

theorem playerBox_synced (pos position : Vector3) :
    playerBox { position := position, transform := pos } = boxAt pos := rfl

theorem stepTotal_succ (j : ℕ) (hj : 1 ≤ j) :
    fadd (stepTotal j) step = stepTotal (j + 1) := by
  obtain ⟨i, rfl⟩ : ∃ i, j = i + 1 := ⟨j - 1, by omega⟩
  rfl

/-- The loop, entered after `j` probe steps, leaves at the first step `k ≥ j`
at which the boxes no longer overlap, if the fuel covers the evaluations. -/
theorem probeLoop_exit_f32 (bb : BoundingBox) (pos : Vector3) (side : CubeSide) (k : ℕ)
    (hex : overlapsAt (probePos pos side k) bb = false) :
    ∀ (fuel j : ℕ), 1 ≤ j → j ≤ k → k - j + 1 ≤ fuel →
      (∀ i, j ≤ i → i < k → overlapsAt (probePos pos side i) bb = true) →
      probeLoop bb step (stepVec side) fuel
          { position := probePos pos side j, transform := probePos pos side j }
          (stepTotal j) =
        some ({ position := probePos pos side k, transform := probePos pos side k },
          stepTotal k) := by
  intro fuel
  induction fuel with
  | zero => intro j _ _ hf; omega
  | succ fuel ih =>
    intro j hj1 hjk hf hov
    rcases Nat.eq_or_lt_of_le hjk with hjk' | hjk'
    · subst hjk'
      have hc : CheckCollisionBoxes (boxAt (probePos pos side j)) bb = false := hex
      simp [probeLoop, playerBox_synced, hc]
    · have hc : CheckCollisionBoxes (boxAt (probePos pos side j)) bb = true :=
        hov j le_rfl hjk'
      have hp : Vector3Add (probePos pos side j) (stepVec side) = probePos pos side (j + 1) :=
        rfl
      simp only [probeLoop, playerBox_synced, hc, if_true, Player.updateTransform,
        stepTotal_succ j hj1, hp]
      exact ih (j + 1) (by omega) hjk' (by omega) (fun i hi hik => hov i (by omega) hik)

/-- While the boxes overlap at every probe position that the fuel reaches,
the loop does not return. -/
theorem probeLoop_none_f32 (bb : BoundingBox) (pos : Vector3) (side : CubeSide) :
    ∀ (fuel j : ℕ), 1 ≤ j →
      (∀ i, j ≤ i → i < j + fuel → overlapsAt (probePos pos side i) bb = true) →
      probeLoop bb step (stepVec side) fuel
          { position := probePos pos side j, transform := probePos pos side j }
          (stepTotal j) = none := by
  intro fuel
  induction fuel with
  | zero => intro j _ _; rfl
  | succ fuel ih =>
    intro j hj1 hov
    have hc : CheckCollisionBoxes (boxAt (probePos pos side j)) bb = true :=
      hov j le_rfl (by omega)
    have hp : Vector3Add (probePos pos side j) (stepVec side) = probePos pos side (j + 1) :=
      rfl
    simp only [probeLoop, playerBox_synced, hc, if_true, Player.updateTransform,
      stepTotal_succ j hj1, hp]
    exact ih (j + 1) (by omega) (fun i hi hik => hov i (by omega) (by omega))

theorem getCollisionDepth_of_exit_f32 {p : Player} {bb : BoundingBox} {side : CubeSide}
    {k : ℕ} (h : IsExitStep p.position bb side k) {fuel : ℕ} (hf : k ≤ fuel) :
    getCollisionDepth fuel p bb side =
      some (stepTotal k, { position := p.position, transform := p.position }) := by
  have h1 := h.1
  have hloop := probeLoop_exit_f32 bb p.position side k h.2.1 fuel 1 le_rfl h1 (by omega) h.2.2
  have hs : stepTotal 1 = step := rfl
  have hp : Vector3Add p.position (Vector3Scale (probeDir side) step) =
      probePos p.position side 1 := rfl
  rw [hs] at hloop
  simp only [getCollisionDepth, Player.updateTransform, hp]
  rw [show Vector3Scale (probeDir side) step = stepVec side from rfl, hloop]

theorem getCollisionDepth_none_f32 {p : Player} {bb : BoundingBox} {side : CubeSide}
    {fuel : ℕ} (h : ∀ i, 1 ≤ i → i ≤ fuel → overlapsAt (probePos p.position side i) bb = true) :
    getCollisionDepth fuel p bb side = none := by
  have hloop := probeLoop_none_f32 bb p.position side fuel 1 le_rfl
    (fun i hi hlt => h i hi (by omega))
  have hs : stepTotal 1 = step := rfl
  have hp : Vector3Add p.position (Vector3Scale (probeDir side) step) =
      probePos p.position side 1 := rfl
  rw [hs] at hloop
  simp only [getCollisionDepth, Player.updateTransform, hp]
  rw [show Vector3Scale (probeDir side) step = stepVec side from rfl, hloop]

/-- `getCollisionDepth` returns exactly when an exit step lies within the
fuel, and then returns the running total of that many steps, with the player
back at its old position. -/
theorem getCollisionDepth_eq_some_iff_f32 (fuel : ℕ) (p : Player) (bb : BoundingBox)
    (side : CubeSide) (r : ℚ × Player) :
    getCollisionDepth fuel p bb side = some r ↔
      ∃ k, k ≤ fuel ∧ IsExitStep p.position bb side k ∧
        r = (stepTotal k, { position := p.position, transform := p.position }) := by
  constructor
  · intro h
    by_cases hex : ∃ i, 1 ≤ i ∧ i ≤ fuel ∧ overlapsAt (probePos p.position side i) bb = false
    · classical
      have hs := Nat.find_spec hex
      have hk : IsExitStep p.position bb side (Nat.find hex) := by
        refine ⟨hs.1, hs.2.2, fun i hi hlt => ?_⟩
        have hmin := Nat.find_min hex hlt
        by_contra hne
        exact hmin ⟨hi, by omega, by simpa using hne⟩
      rw [getCollisionDepth_of_exit_f32 hk hs.2.1] at h
      exact ⟨_, hs.2.1, hk, (Option.some.inj h).symm⟩
    · have hall : ∀ i, 1 ≤ i → i ≤ fuel → overlapsAt (probePos p.position side i) bb = true := by
        intro i hi hle
        by_contra hne
        exact hex ⟨i, hi, hle, by simpa using hne⟩
      rw [getCollisionDepth_none_f32 hall] at h
      cases h
  · rintro ⟨k, hk, hex, rfl⟩
    exact getCollisionDepth_of_exit_f32 hex hk

theorem isExitStep_unique_f32 {pos : Vector3} {bb : BoundingBox} {side : CubeSide} {k k1 : ℕ}
    (h : IsExitStep pos bb side k) (h1 : IsExitStep pos bb side k1) : k = k1 := by
  rcases Nat.lt_trichotomy k k1 with hlt | heq | hgt
  · have := h1.2.2 k h.1 hlt
    rw [h.2.1] at this
    cases this
  · exact heq
  · have := h.2.2 k1 h1.1 hgt
    rw [h1.2.1] at this
    cases this

theorem getCollisionDepth_fuel_mono_f32 {fuel fuel1 : ℕ} (hle : fuel ≤ fuel1) {p : Player}
    {bb : BoundingBox} {side : CubeSide} {r : ℚ × Player}
    (h : getCollisionDepth fuel p bb side = some r) :
    getCollisionDepth fuel1 p bb side = some r := by
  rw [getCollisionDepth_eq_some_iff_f32] at h ⊢
  obtain ⟨k, hk, hex, hr⟩ := h
  exact ⟨k, le_trans hk hle, hex, hr⟩

/-! ## The selection loop and the resolver in float32 -/

/-- The player that `getCollisionDepth` leaves is the one at the old position. -/
theorem getCollisionDepth_player_f32 {fuel : ℕ} {p : Player} {bb : BoundingBox}
    {side : CubeSide} {d : ℚ} {p1 : Player} (h : getCollisionDepth fuel p bb side = some (d, p1)) :
    p1 = { position := p.position, transform := p.position } := by
  rw [getCollisionDepth_eq_some_iff_f32] at h
  obtain ⟨k, -, -, hr⟩ := h
  exact (Prod.mk.inj hr).2

theorem getCollisionDepth_YMinus_f32 (fuel : ℕ) (p : Player) (bb : BoundingBox) :
    getCollisionDepth fuel p bb .YMinus = getCollisionDepth fuel p bb .Y := rfl

/-- `getCollisionWhichSide` returns what the selection loop picks from the
six depths, when the six probes return. -/
theorem getCollisionWhichSide_of_depths_f32 {fuel : ℕ} {p : Player} {bb : BoundingBox}
    {d : CubeSide → ℚ}
    (hd : ∀ t, ∃ pt, getCollisionDepth fuel p bb t = some (d t, pt)) :
    getCollisionWhichSide fuel p bb =
      some (chosenSide d, { position := p.position, transform := p.position }) := by
  have hs : ∀ t, getCollisionDepth fuel { position := p.position, transform := p.position } bb t
      = some (d t, { position := p.position, transform := p.position }) := by
    intro t
    obtain ⟨pt, h⟩ := hd t
    have hp := getCollisionDepth_player_f32 h
    have hc : getCollisionDepth fuel { position := p.position, transform := p.position } bb t =
        getCollisionDepth fuel p bb t := rfl
    rw [hc, h, hp]
  have h0 : getCollisionDepth fuel p bb .Z =
      some (d .Z, { position := p.position, transform := p.position }) := hs .Z
  simp only [getCollisionWhichSide, h0, hs, chosenSide, depthsOf]

/-- Whenever `getCollisionWhichSide` returns, the six probes have returned
and the side is the one the selection loop picks from their depths. -/
theorem getCollisionWhichSide_some_f32 {fuel : ℕ} {p : Player} {bb : BoundingBox}
    {side : CubeSide} {p1 : Player} (h : getCollisionWhichSide fuel p bb = some (side, p1)) :
    ∃ d : CubeSide → ℚ,
      (∀ t, getCollisionDepth fuel p bb t =
        some (d t, { position := p.position, transform := p.position })) ∧
      side = chosenSide d ∧ p1 = { position := p.position, transform := p.position } := by
  unfold getCollisionWhichSide at h
  split at h
  · cases h
  rename_i d1 p1' h1
  have e1 := getCollisionDepth_player_f32 h1
  subst e1
  simp only at h
  split at h
  · cases h
  rename_i d2 p2 h2
  have e2 := getCollisionDepth_player_f32 h2
  subst e2
  simp only at h
  split at h
  · cases h
  rename_i d3 p3 h3
  have e3 := getCollisionDepth_player_f32 h3
  subst e3
  simp only at h
  split at h
  · cases h
  rename_i d4 p4 h4
  have e4 := getCollisionDepth_player_f32 h4
  subst e4
  simp only at h
  split at h
  · cases h
  rename_i d5 p5 h5
  have e5 := getCollisionDepth_player_f32 h5
  subst e5
  simp only at h
  split at h
  · cases h
  rename_i d6 p6 h6
  have e6 := getCollisionDepth_player_f32 h6
  subst e6
  simp only [Option.some.injEq, Prod.mk.injEq] at h
  refine ⟨fun t => match t with
    | .Z => d1 | .ZMinus => d2 | .X => d3 | .XMinus => d4 | .Y => d5 | .YMinus => d6,
    ?_, ?_, h.2.symm⟩
  · intro t
    cases t
    · exact h1
    · exact h2
    · exact h3
    · exact h4
    · exact h5
    · exact h6
  · rw [← h.1]
    rfl

theorem resolveCollisionCase_of_depth_f32 {fuel : ℕ} {p : Player} {bb : BoundingBox}
    {side : CubeSide} {d : ℚ} {pd : Player}
    (h : getCollisionDepth fuel p bb side = some (d, pd)) :
    resolveCollisionCase fuel p bb side =
      some { position := corrected p.position d side, transform := p.position } := by
  have hp := getCollisionDepth_player_f32 h
  subst hp
  cases side <;> simp only [resolveCollisionCase, h, corrected]

/-- `resolveCollision` returns the player at the corrected position, when the
six probes return. -/
theorem resolveCollision_of_depths_f32 {fuel : ℕ} {p : Player} {b : Block}
    {d : CubeSide → ℚ}
    (hd : ∀ t, ∃ pt, getCollisionDepth fuel p (blockBox b) t = some (d t, pt)) :
    resolveCollision fuel p b =
      some { position := corrected p.position (d (chosenSide d)) (chosenSide d),
             transform := corrected p.position (d (chosenSide d)) (chosenSide d) } := by
  have hw := getCollisionWhichSide_of_depths_f32 hd
  obtain ⟨pt, hdc⟩ := hd (chosenSide d)
  have hc : getCollisionDepth fuel { position := p.position, transform := p.position }
      (blockBox b) (chosenSide d) = some (d (chosenSide d), pt) := hdc
  have hr := resolveCollisionCase_of_depth_f32 hc
  simp only [resolveCollision, hw, hr, Player.updateTransform]

/-- Whenever `resolveCollision` returns, the six probes have returned and the
player is at the corrected position for the side picked from their depths. -/
theorem resolveCollision_some_f32 {fuel : ℕ} {p : Player} {b : Block} {p1 : Player}
    (h : resolveCollision fuel p b = some p1) :
    ∃ d : CubeSide → ℚ,
      (∀ t, getCollisionDepth fuel p (blockBox b) t =
        some (d t, { position := p.position, transform := p.position })) ∧
      p1 = { position := corrected p.position (d (chosenSide d)) (chosenSide d),
             transform := corrected p.position (d (chosenSide d)) (chosenSide d) } := by
  have h0 := h
  unfold resolveCollision at h
  simp only at h
  split at h
  · cases h
  rename_i side q hw
  obtain ⟨d, hd, -, -⟩ := getCollisionWhichSide_some_f32 hw
  refine ⟨d, hd, ?_⟩
  rw [resolveCollision_of_depths_f32 (fun t => ⟨_, hd t⟩)] at h0
  exact (Option.some.inj h0).symm

theorem resolveCollision_fuel_mono_f32 {fuel fuel1 : ℕ} (hle : fuel ≤ fuel1) {p : Player}
    {b : Block} {p1 : Player} (h : resolveCollision fuel p b = some p1) :
    resolveCollision fuel1 p b = some p1 := by
  obtain ⟨d, hd, hp⟩ := resolveCollision_some_f32 h
  rw [resolveCollision_of_depths_f32
    (fun t => ⟨_, getCollisionDepth_fuel_mono_f32 hle (hd t)⟩), hp]

/-- The side picked from the depths of six probes is never `-Y`. -/
theorem chosenSide_ne_YMinus_f32 {fuel : ℕ} {p : Player} {bb : BoundingBox} {d : CubeSide → ℚ}
    (hd : ∀ t, ∃ pt, getCollisionDepth fuel p bb t = some (d t, pt)) :
    chosenSide d ≠ .YMinus := by
  apply chosenSide_ne_YMinus
  obtain ⟨p1, h1⟩ := hd .YMinus
  obtain ⟨p2, h2⟩ := hd .Y
  rw [getCollisionDepth_YMinus_f32, h2] at h1
  exact ((Prod.mk.inj (Option.some.inj h1)).1).symm

/-! ## The loop of `update` in float32 -/

theorem update_eq_updateLoop_f32 (fuel : ℕ) (keys : Keys) (p : Player) (g : Game) :
    update fuel keys p g =
      match updateLoop fuel (playerBox (afterInput keys p)) g.blocks (afterInput keys p) with
      | none => none
      | some (p1, blocks) =>
        some (p1, { cameraTarget := p.position, blocks := blocks }) := rfl

/-- While no block passes the guard, the loop leaves the player as it is. -/
theorem updateLoop_of_no_overlap_f32 (fuel : ℕ) (bb : BoundingBox) (blocks : List Block)
    (p : Player) (h : ∀ c ∈ blocks, CheckCollisionBoxes bb (blockBox c) = false) :
    ∃ bs, updateLoop fuel bb blocks p = some (p, bs) := by
  induction blocks with
  | nil => exact ⟨[], rfl⟩
  | cons b blocks ih =>
    obtain ⟨bs, hbs⟩ := ih (fun c hc => h c (List.mem_cons_of_mem _ hc))
    have hb := h b (List.mem_cons_self _ _)
    exact ⟨{ b with color := Color.Green } :: bs,
      by simp only [updateLoop, hb, Bool.false_eq_true, if_false, hbs]⟩

theorem updateLoop_fuel_mono_f32 {fuel fuel1 : ℕ} (hle : fuel ≤ fuel1) (bb : BoundingBox) :
    ∀ (blocks : List Block) (p : Player) (r : Player × List Block),
      updateLoop fuel bb blocks p = some r → updateLoop fuel1 bb blocks p = some r := by
  intro blocks
  induction blocks with
  | nil => intro p r h; exact h
  | cons b bs ih =>
    intro p r h
    simp only [updateLoop] at h ⊢
    split_ifs at h ⊢ with hg
    · split at h
      · cases h
      rename_i p1 hr
      rw [resolveCollision_fuel_mono_f32 hle hr]
      simp only at h ⊢
      split at h
      · cases h
      rename_i p2 bs2 hl
      rw [ih _ _ hl]
      exact h
    · split at h
      · cases h
      rename_i p2 bs2 hl
      rw [ih _ _ hl]
      exact h

theorem update_fuel_mono_f32 {fuel fuel1 : ℕ} (hle : fuel ≤ fuel1) {keys : Keys} {p : Player}
    {g : Game} {r : Player × Game} (h : update fuel keys p g = some r) :
    update fuel1 keys p g = some r := by
  rw [update_eq_updateLoop_f32] at h ⊢
  split at h
  · cases h
  rename_i p1 bs hl
  rw [updateLoop_fuel_mono_f32 hle _ _ _ _ hl]
  exact h

theorem corrected_Y (pos : Vector3) (depth : ℚ) (side : CubeSide) (h1 : side ≠ .Y)
    (h2 : side ≠ .YMinus) : (corrected pos depth side).Y = pos.Y := by
  cases side <;> first | rfl | exact absurd rfl h1 | exact absurd rfl h2

/-! ## Termination of the probes within `2 ^ 17` -/

theorem step_eq : step = 13421773 / 536870912 := by decide!

theorem stepVec_Z : stepVec .Z = ⟨0, 0, step⟩ := by decide!

theorem stepVec_ZMinus : stepVec .ZMinus = ⟨0, 0, -step⟩ := by decide!

theorem stepVec_X : stepVec .X = ⟨step, 0, 0⟩ := by decide!

theorem stepVec_XMinus : stepVec .XMinus = ⟨-step, 0, 0⟩ := by decide!

theorem stepVec_Y : stepVec .Y = ⟨0, step, 0⟩ := by decide!

theorem stepVec_YMinus : stepVec .YMinus = ⟨0, step, 0⟩ := by decide!

theorem fadd_error_18 (a b : ℚ) (h : |a + b| < 2 ^ 18) : |fadd a b - (a + b)| ≤ 1 / 128 := by
  have := round32_error (a + b) 18 h
  unfold fadd
  norm_num at this ⊢
  exact this

/-- A probe going up in steps of `step` from a coordinate within `2 ^ 17`
lifts the lower face of the player's box above any bound `M ≤ 2 ^ 17`. -/
theorem exists_exit_up (z : ℕ → ℚ) (M : ℚ) (hz : ∀ i, z (i + 1) = fadd (z i) step)
    (h0 : |z 0| ≤ 2 ^ 17) (hM : M ≤ 2 ^ 17) :
    ∃ i, 1 ≤ i ∧ i ≤ 64 * (2 ^ 18 + 2) ∧ M < fadd (-(1 / 2)) (z i) := by
  by_contra hcon
  push_neg at hcon
  have h0' := abs_le.mp h0
  have key : ∀ i : ℕ, i ≤ 64 * (2 ^ 18 + 2) → z 0 + (i : ℚ) / 64 ≤ z i ∧ z i ≤ 2 ^ 17 + 1 := by
    intro i
    induction i with
    | zero =>
      intro _
      constructor
      · simp
      · linarith [h0'.2]
    | succ i ih =>
      intro hi
      obtain ⟨ih1, ih2⟩ := ih (by omega)
      have hi0 : (0 : ℚ) ≤ (i : ℚ) / 64 := by positivity
      have e1 : |z i + step| < 2 ^ 18 := by
        rw [abs_lt, step_eq]
        constructor <;> norm_num at h0' ih2 ⊢ <;> linarith
      have e2 := abs_le.mp (fadd_error_18 _ _ e1)
      rw [← hz i] at e2
      have e3 : z i + 1 / 64 ≤ z (i + 1) := by
        rw [step_eq] at e2
        linarith [e2.1]
      have e4 : z (i + 1) ≤ z i + 1 / 16 := by
        rw [step_eq] at e2
        linarith [e2.2]
      have e5 : |-(1 / 2) + z (i + 1)| < 2 ^ 18 := by
        rw [abs_lt]
        constructor <;> norm_num at h0' ih2 ⊢ <;> linarith
      have e6 := abs_le.mp (fadd_error_18 _ _ e5)
      have e7 := hcon (i + 1) (by omega) hi
      constructor
      · push_cast
        linarith
      · norm_num at hM ⊢
        linarith [e6.1]
  have hK := (key (64 * (2 ^ 18 + 2)) le_rfl)
  have h1 := hK.1
  have h2 := hK.2
  push_cast at h1
  norm_num at h1 h2 h0'
  linarith [h0'.1]

/-- A probe going down in steps of `step` from a coordinate within `2 ^ 17`
takes the upper face of the player's box below any bound `M ≥ -2 ^ 17`. -/
theorem exists_exit_down (z : ℕ → ℚ) (M : ℚ) (hz : ∀ i, z (i + 1) = fadd (z i) (-step))
    (h0 : |z 0| ≤ 2 ^ 17) (hM : -2 ^ 17 ≤ M) :
    ∃ i, 1 ≤ i ∧ i ≤ 64 * (2 ^ 18 + 2) ∧ fadd (1 / 2) (z i) < M := by
  by_contra hcon
  push_neg at hcon
  have h0' := abs_le.mp h0
  have key : ∀ i : ℕ, i ≤ 64 * (2 ^ 18 + 2) → z i ≤ z 0 - (i : ℚ) / 64 ∧ -2 ^ 17 - 1 ≤ z i := by
    intro i
    induction i with
    | zero =>
      intro _
      constructor
      · simp
      · linarith [h0'.1]
    | succ i ih =>
      intro hi
      obtain ⟨ih1, ih2⟩ := ih (by omega)
      have hi0 : (0 : ℚ) ≤ (i : ℚ) / 64 := by positivity
      have e1 : |z i + -step| < 2 ^ 18 := by
        rw [abs_lt, step_eq]
        constructor <;> norm_num at h0' ih2 ⊢ <;> linarith
      have e2 := abs_le.mp (fadd_error_18 _ _ e1)
      rw [← hz i] at e2
      have e3 : z (i + 1) ≤ z i - 1 / 64 := by
        rw [step_eq] at e2
        linarith [e2.2]
      have e4 : z i - 1 / 16 ≤ z (i + 1) := by
        rw [step_eq] at e2
        linarith [e2.1]
      have e5 : |1 / 2 + z (i + 1)| < 2 ^ 18 := by
        rw [abs_lt]
        constructor <;> norm_num at h0' ih2 ⊢ <;> linarith
      have e6 := abs_le.mp (fadd_error_18 _ _ e5)
      have e7 := hcon (i + 1) (by omega) hi
      constructor
      · push_cast
        linarith
      · norm_num at hM ⊢
        linarith [e6.2]
  have hK := (key (64 * (2 ^ 18 + 2)) le_rfl)
  have h1 := hK.1
  have h2 := hK.2
  push_cast at h1
  norm_num at h1 h2 h0'
  linarith [h0'.2]

/-- Within `2 ^ 17` every probe reaches a position where the boxes do not
overlap. -/
theorem exists_not_overlapsAt_f32 (pos : Vector3) (bb : BoundingBox) (side : CubeSide)
    (hp : Within (2 ^ 17) pos) (hmin : Within (2 ^ 17) bb.Min) (hmax : Within (2 ^ 17) bb.Max) :
    ∃ i, 1 ≤ i ∧ i ≤ 64 * (2 ^ 18 + 2) ∧ overlapsAt (probePos pos side i) bb = false := by
  obtain ⟨hpX, hpY, hpZ⟩ := hp
  obtain ⟨hminX, hminY, hminZ⟩ := hmin
  obtain ⟨hmaxX, hmaxY, hmaxZ⟩ := hmax
  have conv : ∀ i, ¬ (overlapsAt (probePos pos side i) bb = true) →
      overlapsAt (probePos pos side i) bb = false := fun i h => by simpa using h
  cases side
  · obtain ⟨i, h1, h2, h3⟩ := exists_exit_up (fun i => (probePos pos .Z i).Z) bb.Max.Z
      (fun i => by simp only [probePos, Vector3Add, stepVec_Z]) hpZ (abs_le.mp hmaxZ).2
    refine ⟨i, h1, h2, conv i ?_⟩
    rw [overlapsAt, CheckCollisionBoxes_eq_true_iff]
    rintro ⟨-, -, -, h⟩
    exact absurd h (not_le.mpr h3)
  · obtain ⟨i, h1, h2, h3⟩ := exists_exit_down (fun i => (probePos pos .ZMinus i).Z) bb.Min.Z
      (fun i => by simp only [probePos, Vector3Add, stepVec_ZMinus]) hpZ
      (abs_le.mp hminZ).1
    refine ⟨i, h1, h2, conv i ?_⟩
    rw [overlapsAt, CheckCollisionBoxes_eq_true_iff]
    rintro ⟨-, -, h, -⟩
    exact absurd h (not_le.mpr h3)
  · obtain ⟨i, h1, h2, h3⟩ := exists_exit_up (fun i => (probePos pos .X i).X) bb.Max.X
      (fun i => by simp only [probePos, Vector3Add, stepVec_X]) hpX (abs_le.mp hmaxX).2
    refine ⟨i, h1, h2, conv i ?_⟩
    rw [overlapsAt, CheckCollisionBoxes_eq_true_iff]
    rintro ⟨⟨-, h⟩, -, -⟩
    exact absurd h (not_le.mpr h3)
  · obtain ⟨i, h1, h2, h3⟩ := exists_exit_down (fun i => (probePos pos .XMinus i).X) bb.Min.X
      (fun i => by simp only [probePos, Vector3Add, stepVec_XMinus]) hpX
      (abs_le.mp hminX).1
    refine ⟨i, h1, h2, conv i ?_⟩
    rw [overlapsAt, CheckCollisionBoxes_eq_true_iff]
    rintro ⟨⟨h, -⟩, -, -⟩
    exact absurd h (not_le.mpr h3)
  · obtain ⟨i, h1, h2, h3⟩ := exists_exit_up (fun i => (probePos pos .Y i).Y) bb.Max.Y
      (fun i => by simp only [probePos, Vector3Add, stepVec_Y]) hpY (abs_le.mp hmaxY).2
    refine ⟨i, h1, h2, conv i ?_⟩
    rw [overlapsAt, CheckCollisionBoxes_eq_true_iff]
    rintro ⟨-, ⟨-, h⟩, -⟩
    exact absurd h (not_le.mpr h3)
  · obtain ⟨i, h1, h2, h3⟩ := exists_exit_up (fun i => (probePos pos .YMinus i).Y) bb.Max.Y
      (fun i => by simp only [probePos, Vector3Add, stepVec_YMinus]) hpY (abs_le.mp hmaxY).2
    refine ⟨i, h1, h2, conv i ?_⟩
    rw [overlapsAt, CheckCollisionBoxes_eq_true_iff]
    rintro ⟨-, ⟨-, h⟩, -⟩
    exact absurd h (not_le.mpr h3)

/-- The least probe step at which the boxes do not overlap is an exit step. -/
theorem exists_isExitStep_of_not_overlapsAt_f32 {pos : Vector3} {bb : BoundingBox}
    {side : CubeSide} {i : ℕ} (h1 : 1 ≤ i) (h : overlapsAt (probePos pos side i) bb = false) :
    ∃ k, k ≤ i ∧ IsExitStep pos bb side k := by
  classical
  have hex : ∃ j, 1 ≤ j ∧ overlapsAt (probePos pos side j) bb = false := ⟨i, h1, h⟩
  refine ⟨Nat.find hex, Nat.find_min' hex ⟨h1, h⟩, (Nat.find_spec hex).1, (Nat.find_spec hex).2, ?_⟩
  intro j hj hlt
  have := Nat.find_min hex hlt
  simp only [not_and, Bool.not_eq_false] at this
  exact this hj

theorem exists_isExitStep_f32 (pos : Vector3) (bb : BoundingBox) (side : CubeSide)
    (hp : Within (2 ^ 17) pos) (hmin : Within (2 ^ 17) bb.Min) (hmax : Within (2 ^ 17) bb.Max) :
    ∃ k, k ≤ 64 * (2 ^ 18 + 2) ∧ IsExitStep pos bb side k := by
  obtain ⟨i, h1, h2, h3⟩ := exists_not_overlapsAt_f32 pos bb side hp hmin hmax
  obtain ⟨k, hk, hex⟩ := exists_isExitStep_of_not_overlapsAt_f32 h1 h3
  exact ⟨k, le_trans hk h2, hex⟩

/-! ## The correction in float32 -/

theorem speed_eq : speed = 13421773 / 268435456 := by decide!

/-- Rounding to float32 moves a rational of absolute value at least 1 by at
most `2 ^ (-24)` of itself. -/
theorem round32_rel_error (q : ℚ) (h : 1 ≤ |q|) : |round32 q - q| ≤ |q| / 2 ^ 24 := by
  classical
  have hex : ∃ K : ℕ, |q| < 2 ^ K := pow_unbounded_of_one_lt |q| (by norm_num)
  have hK := Nat.find_spec hex
  have hpos : 0 < Nat.find hex := by
    rcases Nat.eq_zero_or_pos (Nat.find hex) with h0 | h0
    · rw [h0] at hK
      norm_num at hK
      linarith
    · exact h0
  have hmin := Nat.find_min hex (Nat.sub_lt hpos Nat.one_pos)
  rw [not_lt] at hmin
  have hr := round32_error q _ hK
  have e : (2 : ℚ) ^ Nat.find hex = 2 * 2 ^ (Nat.find hex - 1) := by
    rw [← pow_succ', Nat.sub_add_cancel hpos]
  calc |round32 q - q| ≤ 2 ^ Nat.find hex / 2 ^ 25 := hr
    _ = 2 ^ (Nat.find hex - 1) / 2 ^ 24 := by rw [e]; ring
    _ ≤ |q| / 2 ^ 24 := by
        apply div_le_div_of_nonneg_right hmin (by positivity)

theorem stepTotal_ge (k : ℕ) (hk : 1 ≤ k) : 1 / 64 ≤ stepTotal k := by
  obtain ⟨j, rfl⟩ : ∃ j, k = j + 1 := ⟨k - 1, by omega⟩
  clear hk
  induction j with
  | zero =>
    show 1 / 64 ≤ step
    rw [step_eq]
    norm_num
  | succ j ih =>
    show 1 / 64 ≤ fadd (stepTotal (j + 1)) step
    unfold fadd
    have hs : (0 : ℚ) < step := by rw [step_eq]; norm_num
    have hq : 1 / 64 < stepTotal (j + 1) + step := by linarith
    have hq0 : 0 < stepTotal (j + 1) + step := by linarith
    by_cases h1 : stepTotal (j + 1) + step < 1
    · have := round32_error (stepTotal (j + 1) + step) 0 (by rw [abs_of_pos hq0]; simpa using h1)
      have := (abs_le.mp this).1
      rw [step_eq] at hq this
      norm_num at this
      rw [step_eq]
      linarith
    · rw [not_lt] at h1
      have := round32_rel_error (stepTotal (j + 1) + step) (by rw [abs_of_pos hq0]; exact h1)
      rw [abs_of_pos hq0] at this
      have := (abs_le.mp this).1
      have h2 : (stepTotal (j + 1) + step) / 2 ^ 24 ≤ (stepTotal (j + 1) + step) / 2 := by
        apply div_le_div_of_nonneg_left hq0.le (by norm_num) (by norm_num)
      linarith

/-- Within `2 ^ 17` the rounded addition of a depth moves the coordinate up. -/
theorem lt_fadd_self (z d : ℚ) (hz : |z| ≤ 2 ^ 17) (hd : 1 / 64 ≤ d) : z < fadd z d := by
  have hz' := abs_le.mp hz
  unfold fadd
  by_cases h1 : |z + d| < 2 ^ 18
  · have := (abs_le.mp (round32_error (z + d) 18 h1)).1
    norm_num at this
    linarith
  · rw [not_lt] at h1
    have hq : (2 : ℚ) ^ 18 ≤ z + d := by
      rcases le_abs'.mp h1 with h2 | h2
      · norm_num at h2 hz' ⊢
        linarith
      · exact h2
    have hq0 : 0 < z + d := by norm_num at hq ⊢; linarith
    have := round32_rel_error (z + d) (by rw [abs_of_pos hq0]; norm_num at hq ⊢; linarith)
    rw [abs_of_pos hq0] at this
    have := (abs_le.mp this).1
    have h2 : (z + d) / 2 ^ 24 ≤ (z + d) / 2 ^ 2 := by
      apply div_le_div_of_nonneg_left hq0.le (by norm_num) (by norm_num)
    norm_num at hq hz' h2 this ⊢
    linarith

/-- Within `2 ^ 17` the rounded subtraction of a depth moves the coordinate
down. -/
theorem fsub_self_lt (z d : ℚ) (hz : |z| ≤ 2 ^ 17) (hd : 1 / 64 ≤ d) : fsub z d < z := by
  have hz' := abs_le.mp hz
  unfold fsub
  by_cases h1 : |z - d| < 2 ^ 18
  · have := (abs_le.mp (round32_error (z - d) 18 h1)).2
    norm_num at this
    linarith
  · rw [not_lt] at h1
    have hq : z - d ≤ -(2 : ℚ) ^ 18 := by
      rcases le_abs'.mp h1 with h2 | h2
      · exact h2
      · norm_num at h2 hz' ⊢
        linarith
    have hq0 : z - d < 0 := by norm_num at hq ⊢; linarith
    have := round32_rel_error (z - d) (by rw [abs_of_neg hq0]; norm_num at hq ⊢; linarith)
    rw [abs_of_neg hq0] at this
    have := (abs_le.mp this).2
    have h2 : (-(z - d)) / 2 ^ 24 ≤ (-(z - d)) / 2 ^ 2 := by
      apply div_le_div_of_nonneg_left (by linarith) (by norm_num) (by norm_num)
    norm_num at hq hz' h2 this ⊢
    linarith

/-- Within `2 ^ 17` a correction by a depth of at least `1 / 64` changes the
position. -/
theorem corrected_ne (pos : Vector3) (d : ℚ) (side : CubeSide) (hp : Within (2 ^ 17) pos)
    (hd : 1 / 64 ≤ d) : corrected pos d side ≠ pos := by
  obtain ⟨hX, hY, hZ⟩ := hp
  intro h
  cases side
  · exact absurd (congrArg Vector3.Z h) (ne_of_gt (lt_fadd_self _ _ hZ hd))
  · exact absurd (congrArg Vector3.Z h) (ne_of_lt (fsub_self_lt _ _ hZ hd))
  · exact absurd (congrArg Vector3.X h) (ne_of_gt (lt_fadd_self _ _ hX hd))
  · exact absurd (congrArg Vector3.X h) (ne_of_lt (fsub_self_lt _ _ hX hd))
  · exact absurd (congrArg Vector3.Y h) (ne_of_gt (lt_fadd_self _ _ hY hd))
  · exact absurd (congrArg Vector3.Y h) (ne_of_lt (fsub_self_lt _ _ hY hd))

/-- The running total after `k ≤ 1000` steps is within `k / 2 ^ 20` of
`k × 0.025`. -/
theorem stepTotal_error (k : ℕ) (hk : 1 ≤ k) (hk1 : k ≤ 1000) :
    |stepTotal k - (k : ℚ) * STEP| ≤ (k : ℚ) / 2 ^ 20 := by
  have key : ∀ j : ℕ, j + 1 ≤ 1000 →
      |stepTotal (j + 1) - ((j + 1 : ℕ) : ℚ) * step| ≤ (j : ℚ) / 2 ^ 20 := by
    intro j
    induction j with
    | zero =>
      intro _
      show |step - ((0 + 1 : ℕ) : ℚ) * step| ≤ _
      simp
    | succ j ih =>
      intro hj
      have ih1 := abs_le.mp (ih (by omega))
      have hj1 : (j : ℚ) ≤ 998 := by exact_mod_cast (by omega : j ≤ 998)
      have hj0 : (0 : ℚ) ≤ j := by positivity
      push_cast at ih1 ⊢
      rw [step_eq] at ih1 ⊢
      have hq : |stepTotal (j + 1) + 13421773 / 536870912| < 2 ^ 5 := by
        rw [abs_lt]
        constructor <;> norm_num <;> nlinarith
      have e := abs_le.mp (round32_error _ 5 hq)
      have e2 : stepTotal (j + 1 + 1) = round32 (stepTotal (j + 1) + 13421773 / 536870912) := by
        show fadd (stepTotal (j + 1)) step = _
        rw [step_eq]
        rfl
      rw [e2, abs_le]
      norm_num at e ⊢
      constructor <;> linarith
  obtain ⟨j, rfl⟩ : ∃ j, k = j + 1 := ⟨k - 1, by omega⟩
  have h1 := abs_le.mp (key j hk1)
  have hj1 : (j : ℚ) ≤ 999 := by exact_mod_cast (by omega : j ≤ 999)
  have hj0 : (0 : ℚ) ≤ j := by positivity
  rw [abs_le, STEP]
  rw [step_eq] at h1
  push_cast at h1 ⊢
  constructor <;> norm_num at h1 ⊢ <;> linarith

/-- The corners of the box of a block within `2 ^ 17 - 1` are within `2 ^ 17`. -/
theorem blockBox_within (b : Block) (hb : Within (2 ^ 17 - 1) b.position) :
    Within (2 ^ 17) (blockBox b).Min ∧ Within (2 ^ 17) (blockBox b).Max := by
  obtain ⟨hX, hY, hZ⟩ := hb
  have key : ∀ (h c : ℚ), |h| ≤ 1 / 2 → |c| ≤ 2 ^ 17 - 1 → |fadd h c| ≤ 2 ^ 17 := by
    intro h c hh hc
    have hh' := abs_le.mp hh
    have hc' := abs_le.mp hc
    have hq : |h + c| < 2 ^ 18 := by
      rw [abs_lt]
      constructor <;> norm_num at hc' ⊢ <;> linarith
    have e := abs_le.mp (fadd_error_18 _ _ hq)
    rw [abs_le]
    constructor <;> norm_num at hc' ⊢ <;> linarith
  have h1 : |(-(BLOCK_SIZE / 2) : ℚ)| ≤ 1 / 2 := by rw [BLOCK_SIZE]; norm_num [abs_le]
  have h2 : |(BLOCK_SIZE / 2 : ℚ)| ≤ 1 / 2 := by rw [BLOCK_SIZE]; norm_num [abs_le]
  exact ⟨⟨key _ _ h1 hX, key _ _ h1 hY, key _ _ h1 hZ⟩,
    ⟨key _ _ h2 hX, key _ _ h2 hY, key _ _ h2 hZ⟩⟩

/-- Within `2 ^ 17` each of the six probes has an exit step. -/
theorem exists_exitSteps_f32 (pos : Vector3) (bb : BoundingBox) (hp : Within (2 ^ 17) pos)
    (hmin : Within (2 ^ 17) bb.Min) (hmax : Within (2 ^ 17) bb.Max) :
    ∃ k : CubeSide → ℕ, ∀ s, k s ≤ probeBound ∧ IsExitStep pos bb s (k s) := by
  choose k hk using fun s => exists_isExitStep_f32 pos bb s hp hmin hmax
  exact ⟨k, hk⟩

/-- The outcome of `resolveCollision` from the exit steps of the six probes. -/
theorem resolveCollision_of_exitSteps_f32 {p : Player} {b : Block} {k : CubeSide → ℕ}
    (hk : ∀ s, IsExitStep p.position (blockBox b) s (k s)) {fuel : ℕ} (hf : ∀ s, k s ≤ fuel) :
    resolveCollision fuel p b =
      some { position := corrected p.position
               (stepTotal (k (chosenSide (fun t => stepTotal (k t)))))
               (chosenSide (fun t => stepTotal (k t))),
             transform := corrected p.position
               (stepTotal (k (chosenSide (fun t => stepTotal (k t)))))
               (chosenSide (fun t => stepTotal (k t))) } :=
  @resolveCollision_of_depths_f32 fuel p b (fun t => stepTotal (k t))
    (fun t => ⟨_, getCollisionDepth_of_exit_f32 (hk t) (hf t)⟩)

/-- Within `2 ^ 17` `resolveCollision` returns: the six probes have exit
steps, the side chosen from their running totals is not `-Y`, and the player
is put at the correction for that side. -/
theorem resolveCollision_outcome_f32 (p : Player) (b : Block) (hp : Within (2 ^ 17) p.position)
    (hb : Within (2 ^ 17 - 1) b.position) :
    ∃ k : CubeSide → ℕ,
      (∀ s, k s ≤ probeBound ∧ IsExitStep p.position (blockBox b) s (k s)) ∧
      chosenSide (fun t => stepTotal (k t)) ≠ .YMinus ∧
      ∀ fuel, probeBound ≤ fuel → resolveCollision fuel p b =
        some { position := corrected p.position
                 (stepTotal (k (chosenSide (fun t => stepTotal (k t)))))
                 (chosenSide (fun t => stepTotal (k t))),
               transform := corrected p.position
                 (stepTotal (k (chosenSide (fun t => stepTotal (k t)))))
                 (chosenSide (fun t => stepTotal (k t))) } := by
  obtain ⟨hmin, hmax⟩ := blockBox_within b hb
  obtain ⟨k, hk⟩ := exists_exitSteps_f32 p.position (blockBox b) hp hmin hmax
  refine ⟨k, hk, ?_, fun fuel hf => ?_⟩
  · exact @chosenSide_ne_YMinus_f32 probeBound p (blockBox b) (fun t => stepTotal (k t))
      (fun t => ⟨_, getCollisionDepth_of_exit_f32 (hk t).2 (hk t).1⟩)
  · exact resolveCollision_of_exitSteps_f32 (fun s => (hk s).2)
      (fun s => le_trans (hk s).1 hf)

/-! ## The displacement by the keys in float32 -/

theorem afterInput_position_f32 (keys : Keys) (p : Player) :
    (afterInput keys p).position =
      ⟨moved keys.A keys.D p.position.X, p.position.Y, moved keys.W keys.S p.position.Z⟩ := by
  obtain ⟨w, s, a, d⟩ := keys
  cases w <;> cases s <;> cases a <;> cases d <;> rfl

/-- The two rounded operations on a coordinate of absolute value at most
`2 ^ K - 1`, `K ≤ 24`, stay within `2 ^ K / 2 ^ 24` of the exact displacement. -/
theorem moved_error (plus minus : Bool) (c : ℚ) (K : ℕ) (hK : K ≤ 24) (h : |c| + 1 ≤ 2 ^ K) :
    |moved plus minus c - (c + speed * (indicator plus - indicator minus))| ≤
      2 ^ K / 2 ^ 24 := by
  have hc := abs_le.mp (by linarith : |c| ≤ 2 ^ K - 1)
  have hpos : (0 : ℚ) < 2 ^ K := by positivity
  have e25 : (2 : ℚ) ^ K / 2 ^ 24 = 2 * (2 ^ K / 2 ^ 25) := by ring
  have hdiv : (0 : ℚ) ≤ 2 ^ K / 2 ^ 25 := by positivity
  have h1 : |c + speed| < 2 ^ K := by
    rw [abs_lt, speed_eq]
    constructor <;> linarith
  have h2 : |c - speed| < 2 ^ K := by
    rw [abs_lt, speed_eq]
    constructor <;> linarith
  have e1 := abs_le.mp (round32_error _ K h1)
  have e2 := abs_le.mp (round32_error _ K h2)
  cases plus <;> cases minus <;>
    simp only [moved, indicator, if_true, if_false, Bool.false_eq_true, sub_self, mul_zero,
      add_zero, sub_zero, mul_one, zero_sub, mul_neg]
  · rw [abs_zero]
    positivity
  · rw [e25, abs_le]
    unfold fsub
    constructor <;> linarith
  · rw [e25, abs_le]
    unfold fadd
    constructor <;> linarith
  · have h3 : |fadd c speed - speed| < 2 ^ K := by
      unfold fadd
      rw [abs_lt]
      have hK1 : (2 : ℚ) ^ K / 2 ^ 25 ≤ 1 / 2 := by
        have : (2 : ℚ) ^ K ≤ 2 ^ 24 := pow_le_pow_right₀ (by norm_num) hK
        rw [div_le_iff₀ (by positivity)]
        norm_num at this ⊢
        linarith
      constructor <;> linarith
    have e3 := abs_le.mp (round32_error _ K h3)
    rw [e25, abs_le]
    unfold fsub
    unfold fadd at e3 ⊢
    constructor <;> linarith

/-! ## Rounding errors of the probe within `64` -/

theorem fadd_error_7 (a b : ℚ) (h : |a + b| < 2 ^ 7) : |fadd a b - (a + b)| ≤ 1 / 2 ^ 18 := by
  have := round32_error (a + b) 7 h
  unfold fadd
  norm_num at this ⊢
  exact this

/-- The running total after `k ≤ 1000` steps is within `(k - 1) / 2 ^ 20` of
`k` times the float32 step. -/
theorem stepTotal_error_step (j : ℕ) (hj : j + 1 ≤ 1000) :
    |stepTotal (j + 1) - ((j : ℚ) + 1) * step| ≤ (j : ℚ) / 2 ^ 20 := by
  induction j with
  | zero =>
    show |step - ((0 : ℕ) + 1 : ℚ) * step| ≤ _
    simp
  | succ j ih =>
    have ih1 := abs_le.mp (ih (by omega))
    have hj1 : (j : ℚ) ≤ 998 := by exact_mod_cast (by omega : j ≤ 998)
    have hj0 : (0 : ℚ) ≤ j := by positivity
    push_cast at ih1 ⊢
    rw [step_eq] at ih1 ⊢
    have hq : |stepTotal (j + 1) + 13421773 / 536870912| < 2 ^ 5 := by
      rw [abs_lt]
      constructor <;> norm_num <;> nlinarith
    have e := abs_le.mp (round32_error _ 5 hq)
    have e2 : stepTotal (j + 1 + 1) = round32 (stepTotal (j + 1) + 13421773 / 536870912) := by
      show fadd (stepTotal (j + 1)) step = _
      rw [step_eq]
      rfl
    rw [e2, abs_le]
    norm_num at e ⊢
    constructor <;> linarith

/-- A probe going up from a coordinate within 64 is, after `i ≤ 200` steps,
within `i / 2 ^ 18` of `i` exact steps. -/
theorem track_error (a : ℕ → ℚ) (ha : ∀ i, a (i + 1) = fadd (a i) step) (h0 : |a 0| ≤ 64)
    (i : ℕ) (hi : i ≤ 200) : |a i - (a 0 + (i : ℚ) * step)| ≤ (i : ℚ) / 2 ^ 18 := by
  have h0' := abs_le.mp h0
  induction i with
  | zero => simp
  | succ i ih =>
    have ih1 := abs_le.mp (ih (by omega))
    have hi1 : (i : ℚ) ≤ 199 := by exact_mod_cast (by omega : i ≤ 199)
    have hi0 : (0 : ℚ) ≤ i := by positivity
    rw [step_eq] at ih1
    have hq : |a i + step| < 2 ^ 7 := by
      rw [abs_lt, step_eq]
      constructor <;> norm_num <;> nlinarith
    have e := abs_le.mp (fadd_error_7 _ _ hq)
    rw [← ha i, step_eq] at e
    rw [abs_le, step_eq]
    push_cast
    norm_num at e ih1 ⊢
    constructor <;> linarith

/-! ## The exit step along one axis -/

/-- The arithmetic of the bound on the running total. -/
theorem total_arith (a0 st s j : ℚ) (hs : s = 13421773 / 536870912) (hj0 : 0 ≤ j)
    (hj1 : j ≤ 99) (h1 : -64 ≤ a0) (h2 : a0 ≤ 64)
    (st1 : -(j / 2 ^ 20) ≤ st - (j + 1) * s) (st2 : st - (j + 1) * s ≤ j / 2 ^ 20) :
    -2 ^ 7 < a0 + st ∧ a0 + st < 2 ^ 7 := by
  subst hs
  constructor <;> norm_num at st1 st2 ⊢ <;> linarith

/-- The arithmetic of the bound on the corrected coordinate. -/
theorem corrected_arith (a0 st c s j : ℚ) (hs : s = 13421773 / 536870912) (hj0 : 0 ≤ j)
    (hj1 : j ≤ 99) (h1 : -64 ≤ a0) (h2 : a0 ≤ 64)
    (st1 : -(j / 2 ^ 20) ≤ st - (j + 1) * s) (st2 : st - (j + 1) * s ≤ j / 2 ^ 20)
    (ec1 : -(1 / 2 ^ 18) ≤ c - (a0 + st)) (ec2 : c - (a0 + st) ≤ 1 / 2 ^ 18) :
    -100 ≤ c ∧ c ≤ 100 := by
  subst hs
  constructor <;> norm_num at st1 st2 ec1 ec2 ⊢ <;> linarith

/-- The arithmetic of the bounds on the gap and on the depth: `ak`, `aj` are
the probe's coordinates at its exit step `j + 1` and at the step before, `lk`,
`lj` the lower faces of the box there, `l0` the lower face at the start, `st`
the running total, `c` the corrected coordinate and `lc` the lower face of the
box there. -/
theorem gap_arith (a0 aj ak st c lk lj l0 lc M s j : ℚ) (hs : s = 13421773 / 536870912)
    (hj1 : j ≤ 99)
    (dk2 : ak ≤ a0 + (j + 1) * (13421773 / 536870912) + (j + 1) / 2 ^ 18)
    (dj1 : a0 + j * (13421773 / 536870912) - j / 2 ^ 18 ≤ aj)
    (fk2 : lk ≤ ak - 1 / 2 + 1 / 2 ^ 18)
    (fj1 : aj - 1 / 2 - 1 / 2 ^ 18 ≤ lj)
    (f01 : -(1 / 2 ^ 18) ≤ l0 - (a0 - 1 / 2)) (f02 : l0 - (a0 - 1 / 2) ≤ 1 / 2 ^ 18)
    (st1 : -(j / 2 ^ 20) ≤ st - (j + 1) * s) (st2 : st - (j + 1) * s ≤ j / 2 ^ 20)
    (ec1 : -(1 / 2 ^ 18) ≤ c - (a0 + st)) (ec2 : c - (a0 + st) ≤ 1 / 2 ^ 18)
    (fc1 : -(1 / 2 ^ 18) ≤ lc - (c - 1 / 2)) (fc2 : lc - (c - 1 / 2) ≤ 1 / 2 ^ 18)
    (hlast : lj ≤ M) (hkk : M < lk) :
    (-(1 / 2 ^ 10) < lc - M ∧ lc - M ≤ s + 1 / 2 ^ 10) ∧
    (M - l0 - 1 / 2 ^ 10 < st ∧ st ≤ M - l0 + s + 1 / 2 ^ 10) := by
  subst hs
  refine ⟨⟨?_, ?_⟩, ⟨?_, ?_⟩⟩ <;>
    norm_num at dk2 dj1 fk2 fj1 f01 f02 st1 st2 ec1 ec2 fc1 fc2 ⊢ <;> linarith

/-- The faces of the player's box along one axis are within `2 ^ (-18)` of the
coordinate less and plus one half, for a coordinate within 100. -/
theorem face_error (x : ℚ) (hx : |x| ≤ 100) :
    |fadd (-(1 / 2)) x - (x - 1 / 2)| ≤ 1 / 2 ^ 18 ∧ |fadd (1 / 2) x - (x + 1 / 2)| ≤ 1 / 2 ^ 18 := by
  have hx' := abs_le.mp hx
  have h1 : |-(1 / 2) + x| < 2 ^ 7 := by
    rw [abs_lt]
    constructor <;> norm_num <;> linarith
  have h2 : |1 / 2 + x| < 2 ^ 7 := by
    rw [abs_lt]
    constructor <;> norm_num <;> linarith
  have e1 := fadd_error_7 _ _ h1
  have e2 := fadd_error_7 _ _ h2
  have c1 : -(1 / 2) + x = x - 1 / 2 := by ring
  have c2 : 1 / 2 + x = x + 1 / 2 := by ring
  rw [c1] at e1
  rw [c2] at e2
  exact ⟨e1, e2⟩

/-- One axis of a probe going up, for a player within 64 whose box overlaps,
along this axis, a box `[m, M]` of width 1 up to rounding.  The probe leaves
the box through its upper face within 100 steps, at its step `k`; until then
the boxes overlap along the axis; the coordinate corrected by the running
total of `k` steps leaves a gap above `M` that is more than `-2 ^ (-10)` and
at most one step plus `2 ^ (-10)`; and that running total exceeds the
penetration at the start by the same margins. -/
theorem exit_up (a : ℕ → ℚ) (ha : ∀ i, a (i + 1) = fadd (a i) step) (h0 : |a 0| ≤ 64)
    (m M : ℚ) (hm : m ≤ fadd (1 / 2) (a 0)) (hM : fadd (-(1 / 2)) (a 0) ≤ M)
    (hw : M ≤ m + 1 + 1 / 2 ^ 16) :
    ∃ k, 1 ≤ k ∧ k ≤ 100 ∧
      (∀ i, i < k → m ≤ fadd (1 / 2) (a i) ∧ fadd (-(1 / 2)) (a i) ≤ M) ∧
      m ≤ fadd (1 / 2) (a k) ∧ M < fadd (-(1 / 2)) (a k) ∧
      (-(1 / 2 ^ 10) < fadd (-(1 / 2)) (fadd (a 0) (stepTotal k)) - M ∧
        fadd (-(1 / 2)) (fadd (a 0) (stepTotal k)) - M ≤ step + 1 / 2 ^ 10) ∧
      (M - fadd (-(1 / 2)) (a 0) - 1 / 2 ^ 10 < stepTotal k ∧
        stepTotal k ≤ M - fadd (-(1 / 2)) (a 0) + step + 1 / 2 ^ 10) := by
  classical
  have h0' := abs_le.mp h0
  have f0 := face_error (a 0) (by rw [abs_le]; constructor <;> linarith)
  have f0l := abs_le.mp f0.1
  have f0h := abs_le.mp f0.2
  -- the drift of the probe and the bound on its positions
  have drift : ∀ i : ℕ, i ≤ 200 → a 0 + (i : ℚ) * (13421773 / 536870912) - (i : ℚ) / 2 ^ 18 ≤ a i ∧
      a i ≤ a 0 + (i : ℚ) * (13421773 / 536870912) + (i : ℚ) / 2 ^ 18 := by
    intro i hi
    have := abs_le.mp (track_error a ha h0 i hi)
    rw [step_eq] at this
    constructor <;> linarith [this.1, this.2]
  have bound : ∀ i : ℕ, i ≤ 200 → |a i| ≤ 100 := by
    intro i hi
    have d := drift i hi
    have hi1 : (i : ℚ) ≤ 200 := by exact_mod_cast hi
    have hi0 : (0 : ℚ) ≤ i := by positivity
    rw [abs_le]
    constructor <;> norm_num at d ⊢ <;> nlinarith
  have face : ∀ i : ℕ, i ≤ 200 →
      (a i - 1 / 2 - 1 / 2 ^ 18 ≤ fadd (-(1 / 2)) (a i) ∧
        fadd (-(1 / 2)) (a i) ≤ a i - 1 / 2 + 1 / 2 ^ 18) ∧
      (a i + 1 / 2 - 1 / 2 ^ 18 ≤ fadd (1 / 2) (a i) ∧
        fadd (1 / 2) (a i) ≤ a i + 1 / 2 + 1 / 2 ^ 18) := by
    intro i hi
    have f := face_error (a i) (bound i hi)
    have fl := abs_le.mp f.1
    have fh := abs_le.mp f.2
    refine ⟨⟨?_, ?_⟩, ⟨?_, ?_⟩⟩ <;> linarith
  -- the probe is above the box after 100 steps
  have hex : ∃ i, 1 ≤ i ∧ M < fadd (-(1 / 2)) (a i) := by
    refine ⟨100, by norm_num, ?_⟩
    have d := drift 100 (by norm_num)
    have f := face 100 (by norm_num)
    norm_num at d f hw f0h ⊢
    linarith
  have hk := Nat.find_spec hex
  have hk100 : Nat.find hex ≤ 100 := by
    apply Nat.find_min' hex
    refine ⟨by norm_num, ?_⟩
    have d := drift 100 (by norm_num)
    have f := face 100 (by norm_num)
    norm_num at d f hw f0h ⊢
    linarith
  have hmin : ∀ i, i < Nat.find hex → fadd (-(1 / 2)) (a i) ≤ M := by
    intro i hi
    rcases Nat.eq_zero_or_pos i with h | h
    · rw [h]
      exact hM
    · have := Nat.find_min hex hi
      simp only [not_and, not_lt] at this
      exact this h
  have hlow : ∀ i : ℕ, i ≤ 100 → m ≤ fadd (1 / 2) (a i) := by
    intro i hi
    rcases Nat.eq_zero_or_pos i with h | h
    · rw [h]
      exact hm
    · have d := drift i (by omega)
      have f := face i (by omega)
      have hi1 : (1 : ℚ) ≤ i := by exact_mod_cast h
      have hi2 : (i : ℚ) ≤ 100 := by exact_mod_cast hi
      norm_num at d f f0h ⊢
      nlinarith
  obtain ⟨j, hj⟩ : ∃ j, Nat.find hex = j + 1 := ⟨Nat.find hex - 1, by omega⟩
  rw [hj] at hk hk100 hmin
  have dk := drift (j + 1) (by omega)
  have dj := drift j (by omega)
  have fk := face (j + 1) (by omega)
  have fj := face j (by omega)
  have hj1 : (j : ℚ) ≤ 99 := by exact_mod_cast (by omega : j ≤ 99)
  have hj0 : (0 : ℚ) ≤ j := by positivity
  have st := abs_le.mp (stepTotal_error_step j (by omega))
  have hlast := hmin j (by omega)
  have hkk := hk.2
  push_cast at dk
  have hq : |a 0 + stepTotal (j + 1)| < 2 ^ 7 := by
    rw [abs_lt]
    exact total_arith _ _ _ _ step_eq hj0 hj1 h0'.1 h0'.2 st.1 st.2
  have ec := abs_le.mp (fadd_error_7 _ _ hq)
  have hc : |fadd (a 0) (stepTotal (j + 1))| ≤ 100 := by
    rw [abs_le]
    exact corrected_arith _ _ _ _ _ step_eq hj0 hj1 h0'.1 h0'.2 st.1 st.2 ec.1 ec.2
  have fc := abs_le.mp (face_error _ hc).1
  exact ⟨j + 1, hk.1, hk100, fun i hi => ⟨hlow i (by omega), hmin i hi⟩,
    hlow _ hk100, hk.2,
    gap_arith _ _ _ _ _ _ _ _ _ _ _ _ step_eq hj1 dk.2 dj.1 fk.1.2
      fj.1.1 f0l.1 f0l.2 st.1 st.2 ec.1 ec.2 fc.1 fc.2 hlast hkk⟩

/-! ## The probe, axis by axis -/

theorem stepVec_get (side : CubeSide) (ax : Axis) :
    (stepVec side).get ax = if ax = side.axis then probeStep side else 0 := by
  cases side <;> cases ax <;>
    simp only [stepVec_Z, stepVec_ZMinus, stepVec_X, stepVec_XMinus, stepVec_Y, stepVec_YMinus,
      Vector3.get, CubeSide.axis, probeStep, reduceCtorEq, if_true, if_false]

theorem exact32_get {v : Vector3} (h : Exact32 v) (ax : Axis) : round32 (v.get ax) = v.get ax := by
  cases ax
  · exact h.1
  · exact h.2.1
  · exact h.2.2

/-- With float32 coordinates at the start, a probe moves along its axis only. -/
theorem probePos_get (pos : Vector3) (side : CubeSide) (hx : Exact32 pos) (i : ℕ) (ax : Axis) :
    (probePos pos side i).get ax =
      if ax = side.axis then track (pos.get ax) (probeStep side) i else pos.get ax := by
  induction i with
  | zero =>
    show pos.get ax = _
    split_ifs <;> rfl
  | succ i ih =>
    have e : (probePos pos side (i + 1)).get ax =
        fadd ((probePos pos side i).get ax) ((stepVec side).get ax) := by
      cases ax <;> rfl
    rw [e, ih, stepVec_get]
    split_ifs with h
    · rfl
    · unfold fadd
      rw [add_zero]
      exact exact32_get hx ax

/-- The overlap test, axis by axis. -/
theorem overlapsAt_iff_axes (q : Vector3) (bb : BoundingBox) :
    overlapsAt q bb = true ↔
      ∀ ax, bb.Min.get ax ≤ fadd (1 / 2) (q.get ax) ∧
        fadd (-(1 / 2)) (q.get ax) ≤ bb.Max.get ax := by
  rw [overlapsAt, CheckCollisionBoxes_eq_true_iff]
  constructor
  · rintro ⟨hX, hY, hZ⟩ ax
    cases ax
    · exact hX
    · exact hY
    · exact hZ
  · intro h
    exact ⟨h .X, h .Y, h .Z⟩

/-- The box of a block within 64 has width 1 up to rounding on every axis. -/
theorem blockBox_width (b : Block) (hb : Within 64 b.position) (ax : Axis) :
    (blockBox b).Max.get ax ≤ (blockBox b).Min.get ax + 1 + 1 / 2 ^ 16 := by
  obtain ⟨hX, hY, hZ⟩ := hb
  have key : ∀ c : ℚ, |c| ≤ 64 → fadd (BLOCK_SIZE / 2) c ≤ fadd (-(BLOCK_SIZE / 2)) c + 1 + 1 / 2 ^ 16 := by
    intro c hc
    have f := face_error c (le_trans hc (by norm_num))
    have f1 := abs_le.mp f.1
    have f2 := abs_le.mp f.2
    have e : BLOCK_SIZE / 2 = 1 / 2 := by rw [BLOCK_SIZE]
    rw [e]
    norm_num at f1 f2 ⊢
    linarith
  cases ax
  · exact key _ hX
  · exact key _ hY
  · exact key _ hZ

/-! ## The exit step of a side, upwards and downwards -/

theorem within_get {B : ℚ} {v : Vector3} (h : Within B v) (ax : Axis) : |v.get ax| ≤ B := by
  cases ax
  · exact h.1
  · exact h.2.1
  · exact h.2.2

theorem fadd_half_neg (x : ℚ) : fadd (1 / 2) (-x) = -fadd (-(1 / 2)) x := by
  rw [← fadd_neg_neg, neg_neg]

theorem fadd_neg_half_neg (x : ℚ) : fadd (-(1 / 2)) (-x) = -fadd (1 / 2) x := by
  rw [← fadd_neg_neg]

/-- A probe that goes up its axis, from a float32 position within 64 where the
player's box overlaps a box of width 1 up to rounding: it has an exit step
`k ≤ 100`, with the bounds of `exit_up` on the corrected coordinate. -/
theorem exit_side_up (pos : Vector3) (bb : BoundingBox) (side : CubeSide)
    (hstep : probeStep side = step) (hx : Exact32 pos) (hp : Within 64 pos)
    (hov : overlapsAt pos bb = true)
    (hw : bb.Max.get side.axis ≤ bb.Min.get side.axis + 1 + 1 / 2 ^ 16) :
    ∃ k, 1 ≤ k ∧ k ≤ 100 ∧ IsExitStep pos bb side k ∧
      (-(1 / 2 ^ 10) <
          fadd (-(1 / 2)) (fadd (pos.get side.axis) (stepTotal k)) - bb.Max.get side.axis ∧
        fadd (-(1 / 2)) (fadd (pos.get side.axis) (stepTotal k)) - bb.Max.get side.axis ≤
          step + 1 / 2 ^ 10) ∧
      (bb.Max.get side.axis - fadd (-(1 / 2)) (pos.get side.axis) - 1 / 2 ^ 10 < stepTotal k ∧
        stepTotal k ≤
          bb.Max.get side.axis - fadd (-(1 / 2)) (pos.get side.axis) + step + 1 / 2 ^ 10) := by
  have hov1 := (overlapsAt_iff_axes pos bb).mp hov
  obtain ⟨k, h1, h100, hin, -, hexit, hgap, hpen⟩ :=
    exit_up (track (pos.get side.axis) step) (fun _ => rfl) (within_get hp side.axis)
      (bb.Min.get side.axis) (bb.Max.get side.axis) (hov1 side.axis).1 (hov1 side.axis).2 hw
  refine ⟨k, h1, h100, ⟨h1, ?_, ?_⟩, hgap, hpen⟩
  · cases hc : overlapsAt (probePos pos side k) bb with
    | false => rfl
    | true =>
      have h2 := ((overlapsAt_iff_axes _ bb).mp hc side.axis).2
      rw [probePos_get pos side hx, if_pos rfl, hstep] at h2
      exact absurd h2 (not_le.mpr hexit)
  · intro i _ hi
    rw [overlapsAt_iff_axes]
    intro ax
    rw [probePos_get pos side hx]
    split_ifs with h
    · subst h
      rw [hstep]
      exact hin i hi
    · exact hov1 ax

/-- A probe that goes down its axis, from a float32 position within 64 where
the player's box overlaps a box of width 1 up to rounding: it has an exit step
`k ≤ 100`, with the bounds of `exit_up`, mirrored, on the corrected
coordinate. -/
theorem exit_side_down (pos : Vector3) (bb : BoundingBox) (side : CubeSide)
    (hstep : probeStep side = -step) (hx : Exact32 pos) (hp : Within 64 pos)
    (hov : overlapsAt pos bb = true)
    (hw : bb.Max.get side.axis ≤ bb.Min.get side.axis + 1 + 1 / 2 ^ 16) :
    ∃ k, 1 ≤ k ∧ k ≤ 100 ∧ IsExitStep pos bb side k ∧
      (-(1 / 2 ^ 10) <
          bb.Min.get side.axis - fadd (1 / 2) (fsub (pos.get side.axis) (stepTotal k)) ∧
        bb.Min.get side.axis - fadd (1 / 2) (fsub (pos.get side.axis) (stepTotal k)) ≤
          step + 1 / 2 ^ 10) ∧
      (fadd (1 / 2) (pos.get side.axis) - bb.Min.get side.axis - 1 / 2 ^ 10 < stepTotal k ∧
        stepTotal k ≤
          fadd (1 / 2) (pos.get side.axis) - bb.Min.get side.axis + step + 1 / 2 ^ 10) := by
  have hov1 := (overlapsAt_iff_axes pos bb).mp hov
  have ha : ∀ i, -track (pos.get side.axis) (-step) (i + 1) =
      fadd (-track (pos.get side.axis) (-step) i) step := by
    intro i
    show -fadd (track (pos.get side.axis) (-step) i) (-step) = _
    rw [← fadd_neg_neg, neg_neg]
  have h0 : |-track (pos.get side.axis) (-step) 0| ≤ 64 := by
    show |-(pos.get side.axis)| ≤ 64
    rw [abs_neg]
    exact within_get hp side.axis
  have hm : -bb.Max.get side.axis ≤ fadd (1 / 2) (-track (pos.get side.axis) (-step) 0) := by
    show _ ≤ fadd (1 / 2) (-(pos.get side.axis))
    rw [fadd_half_neg]
    linarith [(hov1 side.axis).2]
  have hM : fadd (-(1 / 2)) (-track (pos.get side.axis) (-step) 0) ≤ -bb.Min.get side.axis := by
    show fadd (-(1 / 2)) (-(pos.get side.axis)) ≤ _
    rw [fadd_neg_half_neg]
    linarith [(hov1 side.axis).1]
  obtain ⟨k, h1, h100, hin, -, hexit, hgap, hpen⟩ :=
    exit_up (fun i => -track (pos.get side.axis) (-step) i) ha h0
      (-bb.Max.get side.axis) (-bb.Min.get side.axis) hm hM (by linarith)
  simp only [fadd_half_neg, fadd_neg_half_neg] at hin hexit
  have e0 : track (pos.get side.axis) (-step) 0 = pos.get side.axis := rfl
  have ec : fadd (-track (pos.get side.axis) (-step) 0) (stepTotal k) =
      -fsub (pos.get side.axis) (stepTotal k) := by
    rw [e0, fsub_eq_fadd_neg, ← fadd_neg_neg, neg_neg]
  simp only [ec, fadd_neg_half_neg] at hgap
  simp only [e0, fadd_neg_half_neg] at hpen
  refine ⟨k, h1, h100, ⟨h1, ?_, ?_⟩, ⟨by linarith [hgap.1], by linarith [hgap.2]⟩,
    ⟨by linarith [hpen.1], by linarith [hpen.2]⟩⟩
  · cases hc : overlapsAt (probePos pos side k) bb with
    | false => rfl
    | true =>
      have h2 := ((overlapsAt_iff_axes _ bb).mp hc side.axis).1
      rw [probePos_get pos side hx, if_pos rfl, hstep] at h2
      linarith
  · intro i _ hi
    rw [overlapsAt_iff_axes]
    intro ax
    rw [probePos_get pos side hx]
    split_ifs with h
    · subst h
      rw [hstep]
      have := hin i hi
      constructor <;> linarith [this.1, this.2]
    · exact hov1 ax

/-! ## The correction within `64` -/

/-- The boxes overlap exactly when their overlap depth is not negative. -/
theorem CheckCollisionBoxes_iff_overlapDepth (pb bb : BoundingBox) :
    CheckCollisionBoxes pb bb = true ↔ 0 ≤ overlapDepth pb bb := by
  rw [CheckCollisionBoxes_eq_true_iff, overlapDepth]
  simp only [le_min_iff, sub_nonneg]
  tauto

/-- The overlap depth is at most the reach across any one side, which is the
gap there with the sign changed. -/
theorem overlapDepth_le (pb bb : BoundingBox) (side : CubeSide) :
    overlapDepth pb bb ≤ -gap pb bb side := by
  unfold overlapDepth
  cases side <;> simp only [gap, neg_sub, min_le_iff, le_refl, true_or, or_true]

/-- The probes from a float32 position within 64 at which the player's box
overlaps the box of a block within 64: each has an exit step `k ≤ 100`, and
for each side but `-Y` the correction by the running total of `k` steps
leaves, across that side, a gap of more than `-2 ^ (-10)` and at most one step
plus `2 ^ (-10)`, the running total exceeding the penetration at the start by
the same margins. -/
theorem exit_side_f32 (pos : Vector3) (b : Block) (hx : Exact32 pos) (hp : Within 64 pos)
    (hb : Within 64 b.position) (hov : overlapsAt pos (blockBox b) = true) (side : CubeSide) :
    ∃ k, 1 ≤ k ∧ k ≤ 100 ∧ IsExitStep pos (blockBox b) side k ∧
      (side ≠ .YMinus →
        (-(1 / 2 ^ 10) < gap (boxAt (corrected pos (stepTotal k) side)) (blockBox b) side ∧
          gap (boxAt (corrected pos (stepTotal k) side)) (blockBox b) side ≤
            step + 1 / 2 ^ 10) ∧
        (-gap (boxAt pos) (blockBox b) side - 1 / 2 ^ 10 < stepTotal k ∧
          stepTotal k ≤ -gap (boxAt pos) (blockBox b) side + step + 1 / 2 ^ 10)) := by
  have hw := blockBox_width b hb
  cases side
  · obtain ⟨k, h1, h2, h3, h4, h5⟩ := exit_side_up pos (blockBox b) .Z rfl hx hp hov (hw _)
    have e : gap (boxAt pos) (blockBox b) .Z =
        fadd (-(1 / 2)) (pos.get CubeSide.Z.axis) - (blockBox b).Max.get CubeSide.Z.axis := rfl
    refine ⟨k, h1, h2, h3, fun _ => ⟨h4, ?_⟩⟩
    rw [e]
    exact ⟨by linarith [h5.1], by linarith [h5.2]⟩
  · obtain ⟨k, h1, h2, h3, h4, h5⟩ := exit_side_down pos (blockBox b) .ZMinus rfl hx hp hov (hw _)
    have e : gap (boxAt pos) (blockBox b) .ZMinus =
        (blockBox b).Min.get CubeSide.ZMinus.axis - fadd (1 / 2) (pos.get CubeSide.ZMinus.axis) := rfl
    refine ⟨k, h1, h2, h3, fun _ => ⟨h4, ?_⟩⟩
    rw [e]
    exact ⟨by linarith [h5.1], by linarith [h5.2]⟩
  · obtain ⟨k, h1, h2, h3, h4, h5⟩ := exit_side_up pos (blockBox b) .X rfl hx hp hov (hw _)
    have e : gap (boxAt pos) (blockBox b) .X =
        fadd (-(1 / 2)) (pos.get CubeSide.X.axis) - (blockBox b).Max.get CubeSide.X.axis := rfl
    refine ⟨k, h1, h2, h3, fun _ => ⟨h4, ?_⟩⟩
    rw [e]
    exact ⟨by linarith [h5.1], by linarith [h5.2]⟩
  · obtain ⟨k, h1, h2, h3, h4, h5⟩ := exit_side_down pos (blockBox b) .XMinus rfl hx hp hov (hw _)
    have e : gap (boxAt pos) (blockBox b) .XMinus =
        (blockBox b).Min.get CubeSide.XMinus.axis - fadd (1 / 2) (pos.get CubeSide.XMinus.axis) := rfl
    refine ⟨k, h1, h2, h3, fun _ => ⟨h4, ?_⟩⟩
    rw [e]
    exact ⟨by linarith [h5.1], by linarith [h5.2]⟩
  · obtain ⟨k, h1, h2, h3, h4, h5⟩ := exit_side_up pos (blockBox b) .Y rfl hx hp hov (hw _)
    have e : gap (boxAt pos) (blockBox b) .Y =
        fadd (-(1 / 2)) (pos.get CubeSide.Y.axis) - (blockBox b).Max.get CubeSide.Y.axis := rfl
    refine ⟨k, h1, h2, h3, fun _ => ⟨h4, ?_⟩⟩
    rw [e]
    exact ⟨by linarith [h5.1], by linarith [h5.2]⟩
  · obtain ⟨k, h1, h2, h3, -, -⟩ := exit_side_up pos (blockBox b) .YMinus rfl hx hp hov (hw _)
    exact ⟨k, h1, h2, h3, fun h => absurd rfl h⟩

/-- The outcome of `resolveCollision` on an overlapping pair with float32
coordinates within 64. -/
theorem resolveCollision_within_64_f32 (p : Player) (b : Block) (hs : p.transform = p.position)
    (hx : Exact32 p.position) (hp : Within 64 p.position) (hb : Within 64 b.position)
    (hov : CheckCollisionBoxes (playerBox p) (blockBox b) = true) :
    ∃ (side : CubeSide) (k : ℕ),
      (∀ fuel, 100 ≤ fuel → resolveCollision fuel p b =
        some { position := corrected p.position (stepTotal k) side,
               transform := corrected p.position (stepTotal k) side }) ∧
      side ≠ .YMinus ∧ 1 ≤ k ∧ k ≤ 100 ∧
      IsExitStep p.position (blockBox b) side k ∧
      (-(1 / 2 ^ 10) < gap (boxAt (corrected p.position (stepTotal k) side)) (blockBox b) side ∧
        gap (boxAt (corrected p.position (stepTotal k) side)) (blockBox b) side ≤
          step + 1 / 2 ^ 10) ∧
      (-gap (playerBox p) (blockBox b) side - 1 / 2 ^ 10 < stepTotal k ∧
        stepTotal k ≤ -gap (playerBox p) (blockBox b) side + step + 1 / 2 ^ 10) := by
  have e : playerBox p = boxAt p.position := by
    cases p
    simp only at hs
    subst hs
    rfl
  rw [e] at hov ⊢
  choose k hk using exit_side_f32 p.position b hx hp hb hov
  have hne : chosenSide (fun t => stepTotal (k t)) ≠ .YMinus :=
    @chosenSide_ne_YMinus_f32 100 p (blockBox b) (fun t => stepTotal (k t))
      (fun t => ⟨_, getCollisionDepth_of_exit_f32 (hk t).2.2.1 (hk t).2.1⟩)
  refine ⟨chosenSide (fun t => stepTotal (k t)), k (chosenSide (fun t => stepTotal (k t))),
    fun fuel hf => ?_, hne, (hk _).1, (hk _).2.1, (hk _).2.2.1, ((hk _).2.2.2 hne).1,
    ((hk _).2.2.2 hne).2⟩
  exact resolveCollision_of_exitSteps_f32 (fun s => (hk s).2.2.1)
    (fun s => le_trans (hk s).2.1 hf)

/-! ## The side chosen in the ground plane -/

theorem probePos_YMinus (pos : Vector3) (i : ℕ) :
    probePos pos .YMinus i = probePos pos .Y i := by
  induction i with
  | zero => rfl
  | succ i ih =>
    show Vector3Add (probePos pos .YMinus i) (stepVec .YMinus) = Vector3Add (probePos pos .Y i) (stepVec .Y)
    rw [ih, stepVec_YMinus, stepVec_Y]

theorem blockBox_get (b : Block) (ax : Axis) :
    (blockBox b).Min.get ax = fadd (-(BLOCK_SIZE / 2)) (b.position.get ax) ∧
    (blockBox b).Max.get ax = fadd (BLOCK_SIZE / 2) (b.position.get ax) := by
  cases ax <;> exact ⟨rfl, rfl⟩

theorem blockBox_Y_faces : fadd (-(BLOCK_SIZE / 2)) 0 = -(1 / 2) ∧ fadd (BLOCK_SIZE / 2) 0 = 1 / 2 := by
  decide!

/-- The probe of `+Y` from `Y = 0` against a box with faces at `Y = ± 1/2`:
along `Y` the boxes overlap at the steps before the 41st and not at the
41st. -/
theorem track_Y_overlap :
    (∀ i, i < 41 → (-(1 / 2) ≤ fadd (1 / 2) (track 0 step i) ∧
      fadd (-(1 / 2)) (track 0 step i) ≤ 1 / 2)) ∧
    ¬ (fadd (-(1 / 2)) (track 0 step 41) ≤ 1 / 2) := by
  decide!

/-- The running totals of at most 41 steps are at most that of 41 steps. -/
theorem stepTotal_le_41 (k : ℕ) (h1 : 1 ≤ k) (h2 : k ≤ 41) : stepTotal k ≤ stepTotal 41 := by
  rcases Nat.eq_or_lt_of_le h2 with h | h
  · rw [h]
  · obtain ⟨j, rfl⟩ : ∃ j, k = j + 1 := ⟨k - 1, by omega⟩
    have e1 := abs_le.mp (stepTotal_error_step j (by omega))
    have e2 := abs_le.mp (stepTotal_error_step 40 (by norm_num))
    have hj : (j : ℚ) ≤ 39 := by exact_mod_cast (by omega : j ≤ 39)
    have hj0 : (0 : ℚ) ≤ j := by positivity
    rw [step_eq] at e1 e2
    norm_num at e1 e2
    linarith [e1.2, e2.1]

/-- A running total of at most 100 steps that is at most `1.03` is one of at
most 41 steps. -/
theorem le_41_of_stepTotal_le (k : ℕ) (h1 : 1 ≤ k) (h2 : k ≤ 100)
    (h : stepTotal k ≤ 103 / 100) : k ≤ 41 := by
  by_contra hc
  obtain ⟨j, rfl⟩ : ∃ j, k = j + 1 := ⟨k - 1, by omega⟩
  have e1 := abs_le.mp (stepTotal_error_step j (by omega))
  have hj : (41 : ℚ) ≤ j := by exact_mod_cast (by omega : 41 ≤ j)
  have hj2 : (j : ℚ) ≤ 99 := by exact_mod_cast (by omega : j ≤ 99)
  rw [step_eq] at e1
  norm_num at e1
  linarith [e1.1]

theorem stepTotal_41_le : stepTotal 41 ≤ 103 / 100 := by
  have e2 := abs_le.mp (stepTotal_error_step 40 (by norm_num))
  rw [step_eq] at e2
  norm_num at e2
  linarith [e2.2]

/-- In the ground plane, with the boxes overlapping: the probe of `+Y` takes 41
steps, and the probe of `+Z` or that of `-Z` takes no more. -/
theorem ground_overlap_f32 (pos : Vector3) (b : Block) (hx : Exact32 pos) (hp : Within 64 pos)
    (hb : Within 64 b.position) (hY : pos.Y = 0) (hbY : b.position.Y = 0)
    (hov : overlapsAt pos (blockBox b) = true) (k : CubeSide → ℕ)
    (hk : ∀ t, IsExitStep pos (blockBox b) t (k t)) :
    k .Y = 41 ∧ ((1 ≤ k .Z ∧ k .Z ≤ 41) ∨ (1 ≤ k .ZMinus ∧ k .ZMinus ≤ 41)) := by
  have hov1 := (overlapsAt_iff_axes pos (blockBox b)).mp hov
  have hfaces := blockBox_get b .Y
  have hbY1 : b.position.get .Y = 0 := hbY
  have hY1 : pos.get .Y = 0 := hY
  rw [hbY1, blockBox_Y_faces.1] at hfaces
  rw [blockBox_Y_faces.2] at hfaces
  constructor
  · -- the probe of `+Y`
    apply isExitStep_unique_f32 (hk .Y)
    refine ⟨by norm_num, ?_, ?_⟩
    · cases hc : overlapsAt (probePos pos .Y 41) (blockBox b) with
      | false => rfl
      | true =>
        have h2 := ((overlapsAt_iff_axes _ _).mp hc .Y).2
        rw [probePos_get pos .Y hx] at h2
        simp only [CubeSide.axis, if_true, probeStep, hY1, hfaces.2] at h2
        exact absurd h2 track_Y_overlap.2
    · intro i _ hi
      rw [overlapsAt_iff_axes]
      intro ax
      rw [probePos_get pos .Y hx]
      split_ifs with h
      · subst h
        have e : CubeSide.Y.axis = Axis.Y := rfl
        rw [e, hfaces.1, hfaces.2]
        simp only [probeStep, hY1]
        exact track_Y_overlap.1 i hi
      · exact hov1 ax
  · -- the probes of `+Z` and `-Z`
    obtain ⟨kZ, a1, a2, a3, a4⟩ := exit_side_f32 pos b hx hp hb hov .Z
    obtain ⟨kM, b1, b2, b3, b4⟩ := exit_side_f32 pos b hx hp hb hov .ZMinus
    have eZ := isExitStep_unique_f32 (hk .Z) a3
    have eM := isExitStep_unique_f32 (hk .ZMinus) b3
    have pZ := (a4 (by decide)).2.2
    have pM := (b4 (by decide)).2.2
    have gZ : gap (boxAt pos) (blockBox b) .Z =
        fadd (-(1 / 2)) (pos.get .Z) - (blockBox b).Max.get .Z := rfl
    have gM : gap (boxAt pos) (blockBox b) .ZMinus =
        (blockBox b).Min.get .Z - fadd (1 / 2) (pos.get .Z) := rfl
    have hw := blockBox_width b hb .Z
    have f := face_error (pos.get .Z) (le_trans (within_get hp .Z) (by norm_num))
    have f1 := abs_le.mp f.1
    have f2 := abs_le.mp f.2
    rw [gZ] at pZ
    rw [gM] at pM
    rw [eZ, eM]
    by_cases hc : stepTotal kZ ≤ 103 / 100
    · exact Or.inl ⟨a1, le_41_of_stepTotal_le kZ a1 a2 hc⟩
    · refine Or.inr ⟨b1, le_41_of_stepTotal_le kM b1 b2 ?_⟩
      rw [not_le] at hc
      rw [step_eq] at pZ pM
      norm_num at pZ pM hw f1 f2 hc ⊢
      linarith

/-- In the ground plane, with the boxes apart: the probe of `+Y` takes one
step, and so does the probe of `+Z` or that of `+X`. -/
theorem ground_apart_f32 (pos : Vector3) (b : Block) (hx : Exact32 pos)
    (hY : pos.Y = 0) (hbY : b.position.Y = 0)
    (hov : overlapsAt pos (blockBox b) = false) (k : CubeSide → ℕ)
    (hk : ∀ t, IsExitStep pos (blockBox b) t (k t)) :
    k .Y = 1 ∧ (k .Z = 1 ∨ k .X = 1) := by
  have hfaces := blockBox_get b .Y
  have hbY1 : b.position.get .Y = 0 := hbY
  have hY1 : pos.get .Y = 0 := hY
  rw [hbY1, blockBox_Y_faces.1] at hfaces
  rw [blockBox_Y_faces.2] at hfaces
  -- an axis on which the boxes are apart; it is not `Y`
  have hex : ∃ ax, ax ≠ Axis.Y ∧ ¬ ((blockBox b).Min.get ax ≤ fadd (1 / 2) (pos.get ax) ∧
      fadd (-(1 / 2)) (pos.get ax) ≤ (blockBox b).Max.get ax) := by
    by_contra hcon
    push_neg at hcon
    have : overlapsAt pos (blockBox b) = true := by
      rw [overlapsAt_iff_axes]
      intro ax
      by_cases ha : ax = Axis.Y
      · subst ha
        rw [hY1, hfaces.1, hfaces.2]
        have := track_Y_overlap.1 0 (by norm_num)
        exact this
      · exact ⟨(hcon ax ha).1, (hcon ax ha).2⟩
    rw [hov] at this
    cases this
  obtain ⟨ax, hax, hfail⟩ := hex
  have one : ∀ t : CubeSide, t.axis ≠ ax → k t = 1 := by
    intro t ht
    apply isExitStep_unique_f32 (hk t)
    refine ⟨le_rfl, ?_, fun i h1 h2 => by omega⟩
    cases hc : overlapsAt (probePos pos t 1) (blockBox b) with
    | false => rfl
    | true =>
      have h2 := (overlapsAt_iff_axes _ _).mp hc ax
      rw [probePos_get pos t hx, if_neg (fun h => ht h.symm)] at h2
      exact absurd h2 hfail
  refine ⟨one .Y (fun h => hax h.symm), ?_⟩
  cases ax
  · exact Or.inl (one .Z (by decide))
  · exact absurd rfl hax
  · exact Or.inr (one .X (by decide))

/-- In the ground plane the side chosen from the running totals of the exit
steps is neither `+Y` nor `-Y`, and its depth is at most `1.03`. -/
theorem chosenSide_ground_f32 (pos : Vector3) (b : Block) (hx : Exact32 pos)
    (hp : Within 64 pos) (hb : Within 64 b.position) (hY : pos.Y = 0)
    (hbY : b.position.Y = 0) (k : CubeSide → ℕ)
    (hk : ∀ t, IsExitStep pos (blockBox b) t (k t)) :
    chosenSide (fun t => stepTotal (k t)) ≠ .Y ∧
    chosenSide (fun t => stepTotal (k t)) ≠ .YMinus ∧
    stepTotal (k (chosenSide (fun t => stepTotal (k t)))) ≤ 103 / 100 := by
  have hYM : stepTotal (k .YMinus) = stepTotal (k .Y) := by
    have : IsExitStep pos (blockBox b) .Y (k .YMinus) := by
      have h := hk .YMinus
      simp only [IsExitStep, probePos_YMinus] at h ⊢
      exact h
    rw [isExitStep_unique_f32 (hk .Y) this]
  have hmin := fun t => (chosenSide_first_min (fun t => stepTotal (k t)) t).1
  have key : ∃ t, (t = CubeSide.Z ∨ t = CubeSide.ZMinus ∨ t = CubeSide.X) ∧
      stepTotal (k t) ≤ stepTotal (k .Y) ∧ stepTotal (k t) ≤ 103 / 100 := by
    cases hov : overlapsAt pos (blockBox b) with
    | true =>
      obtain ⟨h41, hz⟩ := ground_overlap_f32 pos b hx hp hb hY hbY hov k hk
      rw [h41]
      rcases hz with ⟨h1, h2⟩ | ⟨h1, h2⟩
      · exact ⟨.Z, Or.inl rfl, stepTotal_le_41 _ h1 h2,
          le_trans (stepTotal_le_41 _ h1 h2) stepTotal_41_le⟩
      · exact ⟨.ZMinus, Or.inr (Or.inl rfl), stepTotal_le_41 _ h1 h2,
          le_trans (stepTotal_le_41 _ h1 h2) stepTotal_41_le⟩
    | false =>
      obtain ⟨h1, hz⟩ := ground_apart_f32 pos b hx hY hbY hov k hk
      have hs : stepTotal 1 ≤ 103 / 100 := by
        show step ≤ _
        rw [step_eq]
        norm_num
      rw [h1]
      rcases hz with h2 | h2
      · exact ⟨.Z, Or.inl rfl, by rw [h2], by rw [h2]; exact hs⟩
      · exact ⟨.X, Or.inr (Or.inr rfl), by rw [h2], by rw [h2]; exact hs⟩
  obtain ⟨t, ht, hle, hb103⟩ := key
  refine ⟨?_, chosenSide_ne_YMinus _ hYM, le_trans (hmin t) hb103⟩
  intro hc
  rcases chosenSide_cases (fun t => stepTotal (k t)) with h | h | h | h | h | h <;>
    rw [hc] at h <;> obtain ⟨hs, g1, g2, g3, g4, -⟩ := h <;> cases hs
  rcases ht with rfl | rfl | rfl <;> linarith

/-! ## The loop of `update` in the ground plane -/

theorem within_mono {B C : ℚ} {v : Vector3} (h : Within B v) (hBC : B ≤ C) : Within C v :=
  ⟨le_trans h.1 hBC, le_trans h.2.1 hBC, le_trans h.2.2 hBC⟩

/-- A correction by a depth between 0 and `1.03` moves a coordinate within
`62` by less than 2. -/
theorem corrected_coordinate_bound (c d R : ℚ) (hc : |c| ≤ R) (hR : R ≤ 62) (hd0 : 0 ≤ d)
    (hd1 : d ≤ 103 / 100) : |fadd c d| ≤ R + 2 ∧ |fsub c d| ≤ R + 2 := by
  have hc1 := abs_le.mp hc
  have h1 : |c + d| < 2 ^ 7 := by
    rw [abs_lt]
    constructor <;> norm_num <;> linarith
  have h2 : |c - d| < 2 ^ 7 := by
    rw [abs_lt]
    constructor <;> norm_num <;> linarith
  have e1 := abs_le.mp (round32_error _ 7 h1)
  have e2 := abs_le.mp (round32_error _ 7 h2)
  norm_num at e1 e2
  unfold fadd fsub
  constructor <;> rw [abs_le] <;> constructor <;> linarith

/-- A correction of a player in the ground plane against a block in the
ground plane, both within `62`: the call returns, and the player stays in the
ground plane, at float32 coordinates, less than 2 further out. -/
theorem resolveCollision_ground_f32 (p : Player) (b : Block) (R : ℚ) (hR : R ≤ 62)
    (hx : Exact32 p.position) (hp : Within R p.position) (hb : Within 64 b.position)
    (hY : p.position.Y = 0) (hbY : b.position.Y = 0) :
    ∃ p1, (∀ fuel, probeBound ≤ fuel → resolveCollision fuel p b = some p1) ∧
      p1.position.Y = 0 ∧ Exact32 p1.position ∧ Within (R + 2) p1.position := by
  have hR0 : 0 ≤ R := le_trans (abs_nonneg _) hp.1
  obtain ⟨k, hk, -, hres⟩ := resolveCollision_outcome_f32 p b
    (within_mono hp (by norm_num; linarith)) (within_mono hb (by norm_num))
  obtain ⟨n1, n2, hd1⟩ := chosenSide_ground_f32 p.position b hx (within_mono hp (by linarith)) hb hY hbY
    k (fun t => (hk t).2)
  have hd0 : 0 ≤ stepTotal (k (chosenSide (fun t => stepTotal (k t)))) :=
    le_trans (by norm_num) (stepTotal_ge _ (hk _).2.1)
  refine ⟨_, hres, ?_, ?_, ?_⟩
  · show (corrected _ _ _).Y = 0
    rw [corrected_Y _ _ _ n1 n2, hY]
  · generalize stepTotal (k (chosenSide (fun t => stepTotal (k t)))) = d
    generalize chosenSide (fun t => stepTotal (k t)) = side at n1 n2
    cases side
    · exact ⟨hx.1, hx.2.1, round32_round32 _⟩
    · exact ⟨hx.1, hx.2.1, round32_round32 _⟩
    · exact ⟨round32_round32 _, hx.2.1, hx.2.2⟩
    · exact ⟨round32_round32 _, hx.2.1, hx.2.2⟩
    · exact absurd rfl n1
    · exact absurd rfl n2
  · generalize stepTotal (k (chosenSide (fun t => stepTotal (k t)))) = d at hd0 hd1
    generalize chosenSide (fun t => stepTotal (k t)) = side at n1 n2
    have hw := within_mono hp (by linarith : R ≤ R + 2)
    cases side
    · exact ⟨hw.1, hw.2.1, (corrected_coordinate_bound _ d R hp.2.2 hR hd0 hd1).1⟩
    · exact ⟨hw.1, hw.2.1, (corrected_coordinate_bound _ d R hp.2.2 hR hd0 hd1).2⟩
    · exact ⟨(corrected_coordinate_bound _ d R hp.1 hR hd0 hd1).1, hw.2.1, hw.2.2⟩
    · exact ⟨(corrected_coordinate_bound _ d R hp.1 hR hd0 hd1).2, hw.2.1, hw.2.2⟩
    · exact absurd rfl n1
    · exact absurd rfl n2

/-- The loop of `update` over blocks in the ground plane, the player starting
in the ground plane at float32 coordinates, with room for a displacement of 2
per block within `64`: the loop returns and leaves the player in the ground
plane. -/
theorem updateLoop_ground_f32 (bb : BoundingBox) :
    ∀ (blocks : List Block) (p : Player) (R : ℚ),
      (∀ b ∈ blocks, b.position.Y = 0 ∧ Within 64 b.position) →
      p.position.Y = 0 → Exact32 p.position → Within R p.position →
      R + 2 * blocks.length ≤ 64 →
      ∃ p1 bs, (∀ fuel, probeBound ≤ fuel → updateLoop fuel bb blocks p = some (p1, bs)) ∧
        p1.position.Y = 0 := by
  intro blocks
  induction blocks with
  | nil =>
    intro p R _ hY _ _ _
    exact ⟨p, [], fun _ _ => rfl, hY⟩
  | cons b blocks ih =>
    intro p R hbs hY hx hp hlen
    have hb := hbs b (List.mem_cons_self _ _)
    have hbs1 : ∀ c ∈ blocks, c.position.Y = 0 ∧ Within 64 c.position :=
      fun c hc => hbs c (List.mem_cons_of_mem _ hc)
    have hl0 : (0 : ℚ) ≤ blocks.length := by positivity
    rw [List.length_cons] at hlen
    push_cast at hlen
    by_cases hg : CheckCollisionBoxes bb (blockBox b) = true
    · obtain ⟨p2, hres, hY2, hx2, hp2⟩ := resolveCollision_ground_f32 p
        { b with color := Color.Red } R (by linarith) hx hp hb.2 hY hb.1
      obtain ⟨p1, bs, hloop, hY1⟩ := ih p2 (R + 2) hbs1 hY2 hx2 hp2 (by linarith)
      refine ⟨p1, { b with color := Color.Red } :: bs, fun fuel hf => ?_, hY1⟩
      simp only [updateLoop, hg, if_true, hres fuel hf, hloop fuel hf]
    · obtain ⟨p1, bs, hloop, hY1⟩ := ih p R hbs1 hY hx hp (by linarith)
      refine ⟨p1, { b with color := Color.Green } :: bs, fun fuel hf => ?_, hY1⟩
      simp only [updateLoop, hg, if_false, hloop fuel hf, Bool.false_eq_true]

theorem moved_exact (plus minus : Bool) (c : ℚ) (h : round32 c = c) :
    round32 (moved plus minus c) = moved plus minus c := by
  cases plus <;> cases minus <;>
    simp only [moved, if_true, if_false, Bool.false_eq_true]
  · exact h
  · exact round32_round32 _
  · exact round32_round32 _
  · exact round32_round32 _

theorem moved_bound (plus minus : Bool) (c : ℚ) (h : |c| ≤ 32) :
    |moved plus minus c| ≤ 33 := by
  have e := abs_le.mp (moved_error plus minus c 6 (by norm_num) (by norm_num; linarith))
  have hc := abs_le.mp h
  rw [speed_eq] at e
  rw [abs_le]
  cases plus <;> cases minus <;>
    simp only [indicator, if_true, if_false, Bool.false_eq_true] at e <;>
    norm_num at e <;> constructor <;> linarith

/-- The player after the keys are read: in the ground plane at float32
coordinates within `33` if it was so within `32`. -/
theorem afterInput_ground_f32 (keys : Keys) (p : Player) (hY : p.position.Y = 0)
    (hx : Exact32 p.position) (hp : Within 32 p.position) :
    (afterInput keys p).position.Y = 0 ∧ Exact32 (afterInput keys p).position ∧
      Within 33 (afterInput keys p).position := by
  rw [afterInput_position_f32]
  refine ⟨hY, ⟨moved_exact _ _ _ hx.1, hx.2.1, moved_exact _ _ _ hx.2.2⟩,
    ⟨moved_bound _ _ _ hp.1, le_trans hp.2.1 (by norm_num), moved_bound _ _ _ hp.2.2⟩⟩

end F32

/-! ## Evaluations shared by the counterexamples -/

/-- The player centred on the block at `(12, 0, 5)`: the correction is made
along `+Z` by the running total of 40 steps. -/
theorem resolveCollision_centred_12_0_5_f32 :
    ∀ fuel, 41 ≤ fuel →
      F32.resolveCollision fuel ⟨⟨12, 0, 5⟩, ⟨12, 0, 5⟩⟩ ⟨⟨12, 0, 5⟩, Color.Green⟩ =
        some ⟨⟨12, 0, 12582911 / 2097152⟩, ⟨12, 0, 12582911 / 2097152⟩⟩ :=
  fun _ hf => F32.resolveCollision_fuel_mono_f32 hf (by decide!)

/-- The player centred on the block at `(33000, 0, 33000)`, no key held: the
probes along `X` and `Z` take 43 steps, those along `Y` take 41, and `update`
lifts the player to `y = 1.0249996`. -/
theorem update_33000_f32 :
    ∀ fuel, 43 ≤ fuel →
      F32.update fuel ⟨false, false, false, false⟩
        ⟨⟨33000, 0, 33000⟩, ⟨33000, 0, 33000⟩⟩
        ⟨⟨0, 0, 0⟩, [⟨⟨33000, 0, 33000⟩, Color.Green⟩]⟩ =
      some (⟨⟨33000, 537395 / 524288, 33000⟩, ⟨33000, 537395 / 524288, 33000⟩⟩,
        ⟨⟨33000, 0, 33000⟩, [⟨⟨33000, 0, 33000⟩, Color.Red⟩]⟩) :=
  fun _ hf => F32.update_fuel_mono_f32 hf (by decide!)

/-! ## The claims -/

/-- C1, counterexample: in float32 the player centred on the block at
`(12, 0, 5)` overlaps it; `resolveCollision` moves the player along `+Z` by the
running total of 40 steps, `0.99999946`, to `z = 5.9999995`, where the lower
face of its box, at `5.4999995`, is still below the upper face of the block's
box at `5.5`: the boxes overlap after the call. -/
theorem resolveCollision_leaves_overlap_f32 :
    CheckCollisionBoxes (F32.playerBox ⟨⟨12, 0, 5⟩, ⟨12, 0, 5⟩⟩)
      (F32.blockBox ⟨⟨12, 0, 5⟩, Color.Green⟩) = true ∧
    (∀ fuel, 41 ≤ fuel →
      F32.resolveCollision fuel ⟨⟨12, 0, 5⟩, ⟨12, 0, 5⟩⟩ ⟨⟨12, 0, 5⟩, Color.Green⟩ =
        some ⟨⟨12, 0, 12582911 / 2097152⟩, ⟨12, 0, 12582911 / 2097152⟩⟩) ∧
    (F32.playerBox ⟨⟨12, 0, 12582911 / 2097152⟩, ⟨12, 0, 12582911 / 2097152⟩⟩).Min.Z =
      11534335 / 2097152 ∧
    (F32.blockBox ⟨⟨12, 0, 5⟩, Color.Green⟩).Max.Z = 11 / 2 ∧
    CheckCollisionBoxes
      (F32.playerBox ⟨⟨12, 0, 12582911 / 2097152⟩, ⟨12, 0, 12582911 / 2097152⟩⟩)
      (F32.blockBox ⟨⟨12, 0, 5⟩, Color.Green⟩) = true :=
  ⟨by decide!, resolveCollision_centred_12_0_5_f32, by decide!, by decide!, by decide!⟩

/-- C1, amended: in float32, for a player with float32 coordinates within 64
and a block within 64 whose boxes overlap, one call of `resolveCollision`
returns for every fuel from 100 on, and after it the boxes interpenetrate by
less than `2 ^ (-10)`: the player is at its position corrected along the
chosen side, which is not `-Y`, by the running total of the probe's steps, with
the transform following, and the overlap depth of the two boxes is below
`2 ^ (-10)`.  The overlap depth can still be zero or positive, in which case
the overlap test still holds after the call. -/
theorem resolveCollision_overlap_depth_f32 (p : Player) (b : Block)
    (hs : p.transform = p.position) (hx : F32.Exact32 p.position)
    (hp : F32.Within 64 p.position) (hb : F32.Within 64 b.position)
    (hov : CheckCollisionBoxes (F32.playerBox p) (F32.blockBox b) = true) :
    ∃ (side : CubeSide) (k : ℕ) (p1 : Player),
      (∀ fuel, 100 ≤ fuel → F32.resolveCollision fuel p b = some p1) ∧
      side ≠ .YMinus ∧ 1 ≤ k ∧ k ≤ 100 ∧
      p1.position = F32.corrected p.position (F32.stepTotal k) side ∧
      p1.transform = p1.position ∧
      F32.overlapDepth (F32.playerBox p1) (F32.blockBox b) < 1 / 2 ^ 10 := by
  obtain ⟨side, k, hr, hne, h1, h2, -, hgap, -⟩ :=
    F32.resolveCollision_within_64_f32 p b hs hx hp hb hov
  refine ⟨side, k, _, hr, hne, h1, h2, rfl, rfl, ?_⟩
  have h3 := F32.overlapDepth_le
    (F32.boxAt (F32.corrected p.position (F32.stepTotal k) side)) (F32.blockBox b) side
  rw [F32.playerBox_synced]
  linarith [hgap.1]

/-- C1, amended, at the player `(12, 0, 5.25)` and the block `(12, 0, 6)`. -/
theorem resolveCollision_overlap_depth_f32_witness :
    (⟨⟨12, 0, 21 / 4⟩, ⟨12, 0, 21 / 4⟩⟩ : Player).transform =
      (⟨⟨12, 0, 21 / 4⟩, ⟨12, 0, 21 / 4⟩⟩ : Player).position ∧
    F32.Exact32 (⟨12, 0, 21 / 4⟩ : Vector3) ∧
    F32.Within 64 (⟨12, 0, 21 / 4⟩ : Vector3) ∧
    F32.Within 64 (⟨12, 0, 6⟩ : Vector3) ∧
    CheckCollisionBoxes (F32.playerBox ⟨⟨12, 0, 21 / 4⟩, ⟨12, 0, 21 / 4⟩⟩)
      (F32.blockBox ⟨⟨12, 0, 6⟩, Color.Green⟩) = true ∧
    ∃ (side : CubeSide) (k : ℕ) (p1 : Player),
      (∀ fuel, 100 ≤ fuel →
        F32.resolveCollision fuel ⟨⟨12, 0, 21 / 4⟩, ⟨12, 0, 21 / 4⟩⟩
          ⟨⟨12, 0, 6⟩, Color.Green⟩ = some p1) ∧
      side ≠ .YMinus ∧ 1 ≤ k ∧ k ≤ 100 ∧
      p1.position = F32.corrected ⟨12, 0, 21 / 4⟩ (F32.stepTotal k) side ∧
      p1.transform = p1.position ∧
      F32.overlapDepth (F32.playerBox p1) (F32.blockBox ⟨⟨12, 0, 6⟩, Color.Green⟩) <
        1 / 2 ^ 10 :=
  ⟨rfl, by decide!, by norm_num [F32.Within, abs_le], by norm_num [F32.Within, abs_le],
    by decide!,
    resolveCollision_overlap_depth_f32 ⟨⟨12, 0, 21 / 4⟩, ⟨12, 0, 21 / 4⟩⟩
      ⟨⟨12, 0, 6⟩, Color.Green⟩ rfl (by decide!) (by norm_num [F32.Within, abs_le])
      (by norm_num [F32.Within, abs_le]) (by decide!)⟩

/-- C2 (minimality): `getCollisionWhichSide` returns (for all sufficiently
large fuel) a side whose depth, as `getCollisionDepth` measures it, is less
than or equal to the depth of each of the six sides. -/
theorem getCollisionWhichSide_minimal (p : Player) (bb : BoundingBox) :
    ∃ N, ∀ fuel, N ≤ fuel → ∃ side p1 depth p2,
      p.getCollisionWhichSide fuel bb = some (side, p1) ∧
      p.getCollisionDepth fuel bb side = some (depth, p2) ∧
      ∀ t, ∃ depthT p3, p.getCollisionDepth fuel bb t = some (depthT, p3) ∧
        depth ≤ depthT := by
  obtain ⟨k, N, hk, hN⟩ := exists_exitSteps p.position bb
  refine ⟨N, fun fuel hf => ⟨_, _, _, _, getCollisionWhichSide_of_isExitStep hk
    (fun s => le_trans (hN s) hf),
    getCollisionDepth_of_isExitStep (hk _) (le_trans (hN _) hf), fun t => ?_⟩⟩
  exact ⟨_, _, getCollisionDepth_of_isExitStep (hk t) (le_trans (hN t) hf),
    (chosenSide_first_min (fun s => (k s : ℚ) * STEP) t).1⟩

/-- C3, counterexample: in float32 the player's box exactly centred on the
block's box at `(7, 0, 19)` gets the depth `1.0249996` (41 steps) from the
probes of `+Z`, `-Z`, `+Y`, `-Y` and the depth `0.99999946` (40 steps) from
those of `+X`, `-X`: the six depths are not equal and the side returned is
`+X`, not `+Z`. -/
theorem getCollisionWhichSide_centred_f32 :
    F32.playerBox ⟨⟨7, 0, 19⟩, ⟨7, 0, 19⟩⟩ = F32.blockBox ⟨⟨7, 0, 19⟩, Color.Green⟩ ∧
    (∀ fuel, 41 ≤ fuel →
      F32.getCollisionDepth fuel ⟨⟨7, 0, 19⟩, ⟨7, 0, 19⟩⟩
        (F32.blockBox ⟨⟨7, 0, 19⟩, Color.Green⟩) .Z =
        some (537395 / 524288, ⟨⟨7, 0, 19⟩, ⟨7, 0, 19⟩⟩)) ∧
    (∀ fuel, 41 ≤ fuel →
      F32.getCollisionDepth fuel ⟨⟨7, 0, 19⟩, ⟨7, 0, 19⟩⟩
        (F32.blockBox ⟨⟨7, 0, 19⟩, Color.Green⟩) .X =
        some (16777209 / 16777216, ⟨⟨7, 0, 19⟩, ⟨7, 0, 19⟩⟩)) ∧
    (∀ fuel, 41 ≤ fuel →
      F32.getCollisionWhichSide fuel ⟨⟨7, 0, 19⟩, ⟨7, 0, 19⟩⟩
        (F32.blockBox ⟨⟨7, 0, 19⟩, Color.Green⟩) =
        some (CubeSide.X, ⟨⟨7, 0, 19⟩, ⟨7, 0, 19⟩⟩)) := by
  have hZ : F32.getCollisionDepth 41 ⟨⟨7, 0, 19⟩, ⟨7, 0, 19⟩⟩
      (F32.blockBox ⟨⟨7, 0, 19⟩, Color.Green⟩) .Z =
      some (537395 / 524288, ⟨⟨7, 0, 19⟩, ⟨7, 0, 19⟩⟩) := by decide!
  have hZM : F32.getCollisionDepth 41 ⟨⟨7, 0, 19⟩, ⟨7, 0, 19⟩⟩
      (F32.blockBox ⟨⟨7, 0, 19⟩, Color.Green⟩) .ZMinus =
      some (537395 / 524288, ⟨⟨7, 0, 19⟩, ⟨7, 0, 19⟩⟩) := by decide!
  have hX : F32.getCollisionDepth 41 ⟨⟨7, 0, 19⟩, ⟨7, 0, 19⟩⟩
      (F32.blockBox ⟨⟨7, 0, 19⟩, Color.Green⟩) .X =
      some (16777209 / 16777216, ⟨⟨7, 0, 19⟩, ⟨7, 0, 19⟩⟩) := by decide!
  have hXM : F32.getCollisionDepth 41 ⟨⟨7, 0, 19⟩, ⟨7, 0, 19⟩⟩
      (F32.blockBox ⟨⟨7, 0, 19⟩, Color.Green⟩) .XMinus =
      some (16777209 / 16777216, ⟨⟨7, 0, 19⟩, ⟨7, 0, 19⟩⟩) := by decide!
  have hY : F32.getCollisionDepth 41 ⟨⟨7, 0, 19⟩, ⟨7, 0, 19⟩⟩
      (F32.blockBox ⟨⟨7, 0, 19⟩, Color.Green⟩) .Y =
      some (537395 / 524288, ⟨⟨7, 0, 19⟩, ⟨7, 0, 19⟩⟩) := by decide!
  have hd : ∀ fuel, 41 ≤ fuel → ∀ t, ∃ pt, F32.getCollisionDepth fuel
      ⟨⟨7, 0, 19⟩, ⟨7, 0, 19⟩⟩ (F32.blockBox ⟨⟨7, 0, 19⟩, Color.Green⟩) t =
      some ((fun t => if t = CubeSide.X ∨ t = CubeSide.XMinus then (16777209 / 16777216 : ℚ)
        else 537395 / 524288) t, pt) := by
    intro fuel hf t
    cases t
    · exact ⟨_, F32.getCollisionDepth_fuel_mono_f32 hf hZ⟩
    · exact ⟨_, F32.getCollisionDepth_fuel_mono_f32 hf hZM⟩
    · exact ⟨_, F32.getCollisionDepth_fuel_mono_f32 hf hX⟩
    · exact ⟨_, F32.getCollisionDepth_fuel_mono_f32 hf hXM⟩
    · exact ⟨_, F32.getCollisionDepth_fuel_mono_f32 hf hY⟩
    · exact ⟨_, (F32.getCollisionDepth_YMinus_f32 _ _ _).trans
        (F32.getCollisionDepth_fuel_mono_f32 hf hY)⟩
  have hc : chosenSide (fun t => if t = CubeSide.X ∨ t = CubeSide.XMinus then
      (16777209 / 16777216 : ℚ) else 537395 / 524288) = CubeSide.X := by decide!
  refine ⟨by decide!, fun _ hf => F32.getCollisionDepth_fuel_mono_f32 hf hZ,
    fun _ hf => F32.getCollisionDepth_fuel_mono_f32 hf hX, fun fuel hf => ?_⟩
  have hw := F32.getCollisionWhichSide_of_depths_f32 (hd fuel hf)
  rw [hc] at hw
  exact hw

/-- C3, amended: in float32, for a player and a box with coordinates within
`2 ^ 17`, `getCollisionWhichSide` returns for every fuel from `probeBound` on,
and the side it returns is the first in the order `+Z, -Z, +X, -X, +Y, -Y`
among the sides of least depth: its depth is at most that of every side and
strictly less than that of every earlier side.  When the six depths are equal
the side returned is `+Z`; centring the player's box on the block's box does
not by itself make them equal. -/
theorem getCollisionWhichSide_first_min_f32 (p : Player) (bb : BoundingBox)
    (hp : F32.Within (2 ^ 17) p.position) (hmin : F32.Within (2 ^ 17) bb.Min)
    (hmax : F32.Within (2 ^ 17) bb.Max) :
    ∃ (side : CubeSide) (d : CubeSide → ℚ),
      (∀ fuel, F32.probeBound ≤ fuel → F32.getCollisionWhichSide fuel p bb =
        some (side, { position := p.position, transform := p.position })) ∧
      (∀ fuel, F32.probeBound ≤ fuel → ∀ t, F32.getCollisionDepth fuel p bb t =
        some (d t, { position := p.position, transform := p.position })) ∧
      (∀ t, d side ≤ d t) ∧
      (∀ t, t.index < side.index → d side < d t) ∧
      ((∀ t, d t = d .Z) → side = .Z) := by
  obtain ⟨k, hk⟩ := F32.exists_exitSteps_f32 p.position bb hp hmin hmax
  have hd : ∀ fuel, F32.probeBound ≤ fuel → ∀ t, F32.getCollisionDepth fuel p bb t =
      some (F32.stepTotal (k t), { position := p.position, transform := p.position }) :=
    fun fuel hf t => F32.getCollisionDepth_of_exit_f32 (hk t).2 (le_trans (hk t).1 hf)
  refine ⟨chosenSide (fun t => F32.stepTotal (k t)), fun t => F32.stepTotal (k t),
    fun fuel hf => F32.getCollisionWhichSide_of_depths_f32 (fun t => ⟨_, hd fuel hf t⟩), hd,
    fun t => (chosenSide_first_min (fun t => F32.stepTotal (k t)) t).1,
    fun t => (chosenSide_first_min (fun t => F32.stepTotal (k t)) t).2,
    fun heq => ?_⟩
  by_contra hne
  have h1 := (chosenSide_first_min (fun t => F32.stepTotal (k t)) .Z).2
    (by
      cases hs : chosenSide (fun t => F32.stepTotal (k t)) <;>
        simp only [CubeSide.index] <;> first | omega | exact absurd hs hne)
  have h2 := heq (chosenSide (fun t => F32.stepTotal (k t)))
  simp only at h1 h2
  rw [h2] at h1
  exact lt_irrefl _ h1

/-- C3, amended, at the player centred on the block at the origin. -/
theorem getCollisionWhichSide_first_min_f32_witness :
    F32.Within (2 ^ 17) (⟨0, 0, 0⟩ : Vector3) ∧
    F32.Within (2 ^ 17) (F32.blockBox ⟨⟨0, 0, 0⟩, Color.Green⟩).Min ∧
    F32.Within (2 ^ 17) (F32.blockBox ⟨⟨0, 0, 0⟩, Color.Green⟩).Max ∧
    ∃ (side : CubeSide) (d : CubeSide → ℚ),
      (∀ fuel, F32.probeBound ≤ fuel →
        F32.getCollisionWhichSide fuel ⟨⟨0, 0, 0⟩, ⟨0, 0, 0⟩⟩
          (F32.blockBox ⟨⟨0, 0, 0⟩, Color.Green⟩) =
        some (side, { position := ⟨0, 0, 0⟩, transform := ⟨0, 0, 0⟩ })) ∧
      (∀ fuel, F32.probeBound ≤ fuel → ∀ t,
        F32.getCollisionDepth fuel ⟨⟨0, 0, 0⟩, ⟨0, 0, 0⟩⟩
          (F32.blockBox ⟨⟨0, 0, 0⟩, Color.Green⟩) t =
        some (d t, { position := ⟨0, 0, 0⟩, transform := ⟨0, 0, 0⟩ })) ∧
      (∀ t, d side ≤ d t) ∧
      (∀ t, t.index < side.index → d side < d t) ∧
      ((∀ t, d t = d .Z) → side = .Z) :=
  ⟨by norm_num [F32.Within],
    (F32.blockBox_within ⟨⟨0, 0, 0⟩, Color.Green⟩ (by norm_num [F32.Within])).1,
    (F32.blockBox_within ⟨⟨0, 0, 0⟩, Color.Green⟩ (by norm_num [F32.Within])).2,
    getCollisionWhichSide_first_min_f32 ⟨⟨0, 0, 0⟩, ⟨0, 0, 0⟩⟩
      (F32.blockBox ⟨⟨0, 0, 0⟩, Color.Green⟩) (by norm_num [F32.Within])
      (F32.blockBox_within ⟨⟨0, 0, 0⟩, Color.Green⟩ (by norm_num [F32.Within])).1
      (F32.blockBox_within ⟨⟨0, 0, 0⟩, Color.Green⟩ (by norm_num [F32.Within])).2⟩

/-- C4, counterexample: in float32, with the player centred on the block at
`(12, 0, 5)`, the probe of `+Z` leaves the loop after 40 steps, at the
accumulated position `z = 6.0000038`, and `getCollisionDepth` returns the
running total `0.99999946`.  The box translated by `40 × 0.025 = 1` still
touches the block's box and the one translated by `41 × 0.025` does not, so the
least `k` of the claim is 41; the value returned is not `41 × 0.025`, and not
`k × 0.025` for any `k`. -/
theorem getCollisionDepth_not_multiple_f32 :
    (∀ fuel, 40 ≤ fuel →
      F32.getCollisionDepth fuel ⟨⟨12, 0, 5⟩, ⟨12, 0, 5⟩⟩
        (F32.blockBox ⟨⟨12, 0, 5⟩, Color.Green⟩) .Z =
        some (16777209 / 16777216, ⟨⟨12, 0, 5⟩, ⟨12, 0, 5⟩⟩)) ∧
    F32.probePos ⟨12, 0, 5⟩ .Z 40 = ⟨12, 0, 1572865 / 262144⟩ ∧
    F32.stepTotal 40 = 16777209 / 16777216 ∧
    overlapsAt (translate ⟨12, 0, 5⟩ .Z 40) (Block.boundingBox ⟨⟨12, 0, 5⟩, Color.Green⟩) = true ∧
    overlapsAt (translate ⟨12, 0, 5⟩ .Z 41) (Block.boundingBox ⟨⟨12, 0, 5⟩, Color.Green⟩) = false ∧
    (∀ k : ℕ, (k : ℚ) * STEP ≠ 16777209 / 16777216) ∧
    (∀ k : ℕ, (k : ℚ) * F32.step ≠ 16777209 / 16777216) := by
  refine ⟨fun _ hf => F32.getCollisionDepth_fuel_mono_f32 hf (by decide!), by decide!,
    by decide!, by decide!, by decide!, fun k h => ?_, fun k h => ?_⟩
  · rw [STEP] at h
    have h1 : (k : ℚ) * 16777216 = 40 * 16777209 := by linarith
    have h2 : k * 16777216 = 40 * 16777209 := by exact_mod_cast h1
    omega
  · rw [F32.step_eq] at h
    have h1 : (k : ℚ) * 13421773 = 32 * 16777209 := by linarith
    have h2 : k * 13421773 = 32 * 16777209 := by exact_mod_cast h1
    omega

/-- C4, amended: in float32 `getCollisionDepth` returns, with the position
restored, the running total of `k` steps (`step` added up `k` times, each sum
rounded), where `k` is the least positive number of probe steps after which
the player's box, at the position reached by `k` rounded additions of the step
vector, does not overlap the block's box; it returns nothing else, and only
with fuel for those `k` steps.  The running total of `k ≤ 1000` steps is
within `k / 2 ^ 20` of `k × 0.025`.  With coordinates within `2 ^ 17` there is
such a `k`, at most `probeBound`, so the call returns given that much fuel. -/
theorem getCollisionDepth_eq_running_total_f32 (fuel : ℕ) (p : Player) (bb : BoundingBox)
    (side : CubeSide) :
    (∀ r, F32.getCollisionDepth fuel p bb side = some r ↔
      ∃ k, k ≤ fuel ∧ F32.IsExitStep p.position bb side k ∧
        r = (F32.stepTotal k, { position := p.position, transform := p.position })) ∧
    (∀ k : ℕ, 1 ≤ k → k ≤ 1000 → |F32.stepTotal k - (k : ℚ) * STEP| ≤ (k : ℚ) / 2 ^ 20) ∧
    (F32.Within (2 ^ 17) p.position → F32.Within (2 ^ 17) bb.Min →
      F32.Within (2 ^ 17) bb.Max →
      ∃ k, 1 ≤ k ∧ k ≤ F32.probeBound ∧ F32.IsExitStep p.position bb side k) := by
  refine ⟨fun r => F32.getCollisionDepth_eq_some_iff_f32 fuel p bb side r,
    F32.stepTotal_error, fun hp hmin hmax => ?_⟩
  obtain ⟨k, hk, hex⟩ := F32.exists_isExitStep_f32 p.position bb side hp hmin hmax
  exact ⟨k, hex.1, hk, hex⟩

/-- C5 (correction applied): `resolveCollision` returns (for all sufficiently
large fuel) the player at its old position plus `depth` times the unit vector
of the chosen side, where the side is the result of `getCollisionWhichSide`
and `depth` that of `getCollisionDepth` for that side; the two coordinates off
the chosen axis are unchanged; and each branch of the `switch`, `-Y` included,
moves the player by its depth times its unit vector. -/
theorem resolveCollision_correction (p : Player) (b : Block) :
    ∃ N, ∀ fuel, N ≤ fuel →
      (∃ side p1 depth p2 p3,
        p.getCollisionWhichSide fuel b.boundingBox = some (side, p1) ∧
        p.getCollisionDepth fuel b.boundingBox side = some (depth, p2) ∧
        p.resolveCollision fuel b = some p3 ∧
        p3.position = Vector3Add p.position (Vector3Scale (unitVector side) depth) ∧
        ((side = .Z ∨ side = .ZMinus) →
          p3.position.X = p.position.X ∧ p3.position.Y = p.position.Y) ∧
        ((side = .X ∨ side = .XMinus) →
          p3.position.Y = p.position.Y ∧ p3.position.Z = p.position.Z) ∧
        ((side = .Y ∨ side = .YMinus) →
          p3.position.X = p.position.X ∧ p3.position.Z = p.position.Z)) ∧
      (∀ side, ∃ depth p2 p4,
        p.getCollisionDepth fuel b.boundingBox side = some (depth, p2) ∧
        p.resolveCollisionCase fuel b.boundingBox side = some p4 ∧
        p4.position = Vector3Add p.position (Vector3Scale (unitVector side) depth)) ∧
      unitVector .Z = ⟨0, 0, 1⟩ ∧ unitVector .ZMinus = ⟨0, 0, -1⟩ ∧
      unitVector .X = ⟨1, 0, 0⟩ ∧ unitVector .XMinus = ⟨-1, 0, 0⟩ ∧
      unitVector .Y = ⟨0, 1, 0⟩ ∧ unitVector .YMinus = ⟨0, -1, 0⟩ := by
  obtain ⟨k, N, hk, hN⟩ := exists_exitSteps p.position b.boundingBox
  refine ⟨N, fun fuel hf => ⟨?_, ?_, rfl, rfl, rfl, rfl, rfl, rfl⟩⟩
  · have hw := getCollisionWhichSide_of_isExitStep hk (fun s => le_trans (hN s) hf)
    have hr := resolveCollision_of_isExitStep hk (fun s => le_trans (hN s) hf)
    generalize chosenSide (fun s => (k s : ℚ) * STEP) = side at hw hr
    have hd := getCollisionDepth_of_isExitStep (hk side) (le_trans (hN side) hf)
    refine ⟨side, _, _, _, _, hw, hd, hr, rfl, ?_, ?_, ?_⟩
    · rintro (h | h) <;> subst h <;>
        simp [moveAlong, unitVector, Vector3Add, Vector3Scale]
    · rintro (h | h) <;> subst h <;>
        simp [moveAlong, unitVector, Vector3Add, Vector3Scale]
    · rintro (h | h) <;> subst h <;>
        simp [moveAlong, unitVector, Vector3Add, Vector3Scale]
  · intro side
    exact ⟨_, _, _, getCollisionDepth_of_isExitStep (hk side) (le_trans (hN side) hf),
      resolveCollisionCase_of_isExitStep (hk side) (le_trans (hN side) hf), rfl⟩

/-- C6 (probing does not mutate the player): `getCollisionDepth` returns (for
all sufficiently large fuel) with the player's position equal to the position
before the call, and so does `getCollisionWhichSide`; and whatever the fuel,
a call that returns has restored the position. -/
theorem probing_restores_position (p : Player) (bb : BoundingBox) :
    (∀ side, ∃ N, ∀ fuel, N ≤ fuel → ∃ depth p1,
      p.getCollisionDepth fuel bb side = some (depth, p1) ∧ p1.position = p.position) ∧
    (∃ N, ∀ fuel, N ≤ fuel → ∃ side p1,
      p.getCollisionWhichSide fuel bb = some (side, p1) ∧ p1.position = p.position) ∧
    (∀ fuel side depth p1,
      p.getCollisionDepth fuel bb side = some (depth, p1) → p1.position = p.position) := by
  obtain ⟨k, N, hk, hN⟩ := exists_exitSteps p.position bb
  refine ⟨fun side => ⟨N, fun fuel hf => ⟨_, _,
    getCollisionDepth_of_isExitStep (hk side) (le_trans (hN side) hf), rfl⟩⟩,
    ⟨N, fun fuel hf => ⟨_, _,
      getCollisionWhichSide_of_isExitStep hk (fun s => le_trans (hN s) hf), rfl⟩⟩, ?_⟩
  intro fuel side depth p1 h
  unfold Player.getCollisionDepth at h
  simp only at h
  split at h
  · cases h
  · simp only [Option.some.injEq, Prod.mk.injEq] at h
    rw [← h.2]
    rfl

/-- C7, counterexample: the player at `(1/2, 0, 0)` with `W` held moves to
`(1/2, 0, 1/20)`, where its box overlaps the two adjacent blocks centred at
`(0, 0, 1)` and `(1, 0, 1)`.  The loop over the first block leaves the player
at `z = -1/40`; the guard, which tests the box computed before the loop, still
holds for the second block, so `resolveCollision` is called on it although the
player's box at its current position does not overlap it; that call moves the
player on to `z = -2/40`. -/
theorem update_calls_resolver_without_overlap :
    afterInput ⟨true, false, false, false⟩ ⟨⟨1 / 2, 0, 0⟩, ⟨1 / 2, 0, 0⟩⟩ =
        ⟨⟨1 / 2, 0, 1 / 20⟩, ⟨1 / 2, 0, 1 / 20⟩⟩ ∧
    updateLoop 100 (Player.boundingBox ⟨⟨1 / 2, 0, 1 / 20⟩, ⟨1 / 2, 0, 1 / 20⟩⟩)
        [⟨⟨0, 0, 1⟩, Color.Green⟩] ⟨⟨1 / 2, 0, 1 / 20⟩, ⟨1 / 2, 0, 1 / 20⟩⟩ =
      some (⟨⟨1 / 2, 0, -1 / 40⟩, ⟨1 / 2, 0, -1 / 40⟩⟩, [⟨⟨0, 0, 1⟩, Color.Red⟩]) ∧
    CheckCollisionBoxes (Player.boundingBox ⟨⟨1 / 2, 0, 1 / 20⟩, ⟨1 / 2, 0, 1 / 20⟩⟩)
        (Block.boundingBox ⟨⟨1, 0, 1⟩, Color.Green⟩) = true ∧
    CheckCollisionBoxes (Player.boundingBox ⟨⟨1 / 2, 0, -1 / 40⟩, ⟨1 / 2, 0, -1 / 40⟩⟩)
        (Block.boundingBox ⟨⟨1, 0, 1⟩, Color.Green⟩) = false ∧
    Player.update 100 ⟨true, false, false, false⟩ ⟨⟨1 / 2, 0, 0⟩, ⟨1 / 2, 0, 0⟩⟩
        ⟨⟨0, 0, 0⟩, [⟨⟨0, 0, 1⟩, Color.Green⟩, ⟨⟨1, 0, 1⟩, Color.Green⟩]⟩ =
      some (⟨⟨1 / 2, 0, -2 / 40⟩, ⟨1 / 2, 0, -2 / 40⟩⟩,
        ⟨⟨1 / 2, 0, 0⟩, [⟨⟨0, 0, 1⟩, Color.Red⟩, ⟨⟨1, 0, 1⟩, Color.Red⟩]⟩) := by
  decide!

/-- C7, amended: whenever the record of the calls of one `update` is
complete, `update` itself returns; `resolveCollision` has been called on
exactly the blocks whose box overlaps the player's box as computed once, after
the input displacement and before the loop, in list order, each marked red; at
the first call the player is as the input displacement left it, so its box at
its current position overlaps the block's box; each later call is made on the
player that the call before it returned, whose box need not overlap the
block's box any more. -/
theorem update_resolver_calls (fuel : ℕ) (keys : Keys) (p : Player) (g : Game)
    (calls : List (Player × Block)) (h : p.updateCalls fuel keys g = some calls) :
    (∃ r, p.update fuel keys g = some r) ∧
    calls.map Prod.snd =
      (g.blocks.filter
        (fun b => CheckCollisionBoxes (afterInput keys p).boundingBox b.boundingBox)).map
        (fun b => { b with color := Color.Red }) ∧
    (∀ c ∈ calls,
      CheckCollisionBoxes (afterInput keys p).boundingBox c.2.boundingBox = true) ∧
    (∀ c ∈ calls.head?, c.1 = afterInput keys p ∧
      CheckCollisionBoxes c.1.boundingBox c.2.boundingBox = true) ∧
    List.Chain' (fun c d => c.1.resolveCollision fuel c.2 = some d.1) calls := by
  rw [updateCalls_eq_updateLoopCalls] at h
  obtain ⟨h1, h2, h3⟩ := updateLoopCalls_spec fuel _ _ _ _ h
  have hg : ∀ c ∈ calls,
      CheckCollisionBoxes (afterInput keys p).boundingBox c.2.boundingBox = true := by
    intro c hc
    have hm : c.2 ∈ calls.map Prod.snd := List.mem_map_of_mem _ hc
    rw [h1, List.mem_map] at hm
    obtain ⟨b, hb, hbc⟩ := hm
    rw [List.mem_filter] at hb
    rw [← hbc]
    exact hb.2
  refine ⟨?_, h1, hg, fun c hc => ?_, h3⟩
  · have hs := updateLoopCalls_isSome fuel (afterInput keys p).boundingBox g.blocks
      (afterInput keys p)
    rw [h, Option.isSome_some] at hs
    rw [update_eq_updateLoop]
    cases hl : updateLoop fuel (afterInput keys p).boundingBox g.blocks (afterInput keys p) with
    | none => rw [hl] at hs; cases hs
    | some r => exact ⟨_, rfl⟩
  · have hc1 := h2 c hc
    refine ⟨hc1, ?_⟩
    rw [hc1]
    exact hg c (List.mem_of_mem_head? hc)

/-- C7, amended, at the player `(1/2, 0, 0)` with `W` held and the adjacent
blocks `(0, 0, 1)` and `(1, 0, 1)`: the second call is made on the player at
`(1/2, 0, -1/40)`, where the first call left it. -/
theorem update_resolver_calls_witness :
    Player.updateCalls 100 ⟨true, false, false, false⟩ ⟨⟨1 / 2, 0, 0⟩, ⟨1 / 2, 0, 0⟩⟩
        ⟨⟨0, 0, 0⟩, [⟨⟨0, 0, 1⟩, Color.Green⟩, ⟨⟨1, 0, 1⟩, Color.Green⟩]⟩ =
      some [(⟨⟨1 / 2, 0, 1 / 20⟩, ⟨1 / 2, 0, 1 / 20⟩⟩, ⟨⟨0, 0, 1⟩, Color.Red⟩),
        (⟨⟨1 / 2, 0, -1 / 40⟩, ⟨1 / 2, 0, -1 / 40⟩⟩, ⟨⟨1, 0, 1⟩, Color.Red⟩)] ∧
    ((∃ r, Player.update 100 ⟨true, false, false, false⟩ ⟨⟨1 / 2, 0, 0⟩, ⟨1 / 2, 0, 0⟩⟩
        ⟨⟨0, 0, 0⟩, [⟨⟨0, 0, 1⟩, Color.Green⟩, ⟨⟨1, 0, 1⟩, Color.Green⟩]⟩ = some r) ∧
    List.map Prod.snd
        [((⟨⟨1 / 2, 0, 1 / 20⟩, ⟨1 / 2, 0, 1 / 20⟩⟩ : Player),
            (⟨⟨0, 0, 1⟩, Color.Red⟩ : Block)),
          (⟨⟨1 / 2, 0, -1 / 40⟩, ⟨1 / 2, 0, -1 / 40⟩⟩, ⟨⟨1, 0, 1⟩, Color.Red⟩)] =
      (List.filter
        (fun b => CheckCollisionBoxes (afterInput ⟨true, false, false, false⟩
          ⟨⟨1 / 2, 0, 0⟩, ⟨1 / 2, 0, 0⟩⟩).boundingBox b.boundingBox)
        [(⟨⟨0, 0, 1⟩, Color.Green⟩ : Block), ⟨⟨1, 0, 1⟩, Color.Green⟩]).map
        (fun b => { b with color := Color.Red }) ∧
    (∀ c ∈ [((⟨⟨1 / 2, 0, 1 / 20⟩, ⟨1 / 2, 0, 1 / 20⟩⟩ : Player),
            (⟨⟨0, 0, 1⟩, Color.Red⟩ : Block)),
          (⟨⟨1 / 2, 0, -1 / 40⟩, ⟨1 / 2, 0, -1 / 40⟩⟩, ⟨⟨1, 0, 1⟩, Color.Red⟩)],
      CheckCollisionBoxes (afterInput ⟨true, false, false, false⟩
        ⟨⟨1 / 2, 0, 0⟩, ⟨1 / 2, 0, 0⟩⟩).boundingBox c.2.boundingBox = true) ∧
    (∀ c ∈ List.head?
        [((⟨⟨1 / 2, 0, 1 / 20⟩, ⟨1 / 2, 0, 1 / 20⟩⟩ : Player),
            (⟨⟨0, 0, 1⟩, Color.Red⟩ : Block)),
          (⟨⟨1 / 2, 0, -1 / 40⟩, ⟨1 / 2, 0, -1 / 40⟩⟩, ⟨⟨1, 0, 1⟩, Color.Red⟩)],
      c.1 = afterInput ⟨true, false, false, false⟩ ⟨⟨1 / 2, 0, 0⟩, ⟨1 / 2, 0, 0⟩⟩ ∧
      CheckCollisionBoxes c.1.boundingBox c.2.boundingBox = true) ∧
    List.Chain' (fun c d => c.1.resolveCollision 100 c.2 = some d.1)
        [((⟨⟨1 / 2, 0, 1 / 20⟩, ⟨1 / 2, 0, 1 / 20⟩⟩ : Player),
            (⟨⟨0, 0, 1⟩, Color.Red⟩ : Block)),
          (⟨⟨1 / 2, 0, -1 / 40⟩, ⟨1 / 2, 0, -1 / 40⟩⟩, ⟨⟨1, 0, 1⟩, Color.Red⟩)]) :=
  ⟨by decide!,
    update_resolver_calls 100 ⟨true, false, false, false⟩ ⟨⟨1 / 2, 0, 0⟩, ⟨1 / 2, 0, 0⟩⟩
      ⟨⟨0, 0, 0⟩, [⟨⟨0, 0, 1⟩, Color.Green⟩, ⟨⟨1, 0, 1⟩, Color.Green⟩]⟩ _ (by decide!)⟩

/-- C8, counterexample: the player at `(0, 0, 1/20)` overlaps the block
centred at `(0, 0, 1)`; a first call of `resolveCollision` separates the pair
by moving the player to `z = -1/40`; a second call on the separated pair moves
the player on to `z = -2/40`. -/
theorem resolveCollision_second_call_moves :
    CheckCollisionBoxes (Player.boundingBox ⟨⟨0, 0, 1 / 20⟩, ⟨0, 0, 1 / 20⟩⟩)
        (Block.boundingBox ⟨⟨0, 0, 1⟩, Color.Green⟩) = true ∧
    Player.resolveCollision 100 ⟨⟨0, 0, 1 / 20⟩, ⟨0, 0, 1 / 20⟩⟩ ⟨⟨0, 0, 1⟩, Color.Green⟩ =
        some ⟨⟨0, 0, -1 / 40⟩, ⟨0, 0, -1 / 40⟩⟩ ∧
    CheckCollisionBoxes (Player.boundingBox ⟨⟨0, 0, -1 / 40⟩, ⟨0, 0, -1 / 40⟩⟩)
        (Block.boundingBox ⟨⟨0, 0, 1⟩, Color.Green⟩) = false ∧
    Player.resolveCollision 100 ⟨⟨0, 0, -1 / 40⟩, ⟨0, 0, -1 / 40⟩⟩
        ⟨⟨0, 0, 1⟩, Color.Green⟩ = some ⟨⟨0, 0, -2 / 40⟩, ⟨0, 0, -2 / 40⟩⟩ ∧
    (⟨0, 0, -2 / 40⟩ : Vector3).Z < (⟨0, 0, -1 / 40⟩ : Vector3).Z := by
  decide!

/-- C8, amended: in float32, for a player and a block with coordinates within
`2 ^ 17`, overlapping or not, `resolveCollision` returns for every fuel from
`probeBound` on and has moved the player: the position is corrected along the
chosen side, which is not `-Y`, by the running total of `k ≥ 1` steps, which is
at least `1 / 64`, and it differs from the position before the call.  There is
no overlap test in the resolver, so a second call on a pair that a first call
separated, and any call on a pair that does not overlap, move the player. -/
theorem resolveCollision_always_moves_f32 (p : Player) (b : Block)
    (hp : F32.Within (2 ^ 17) p.position) (hb : F32.Within (2 ^ 17 - 1) b.position) :
    ∃ (side : CubeSide) (k : ℕ) (p1 : Player),
      (∀ fuel, F32.probeBound ≤ fuel → F32.resolveCollision fuel p b = some p1) ∧
      side ≠ .YMinus ∧ 1 ≤ k ∧ 1 / 64 ≤ F32.stepTotal k ∧
      p1.position = F32.corrected p.position (F32.stepTotal k) side ∧
      p1.position ≠ p.position := by
  obtain ⟨k, hk, hne, hr⟩ := F32.resolveCollision_outcome_f32 p b hp hb
  have h1 := (hk (chosenSide (fun t => F32.stepTotal (k t)))).2.1
  exact ⟨_, _, _, hr, hne, h1, F32.stepTotal_ge _ h1, rfl,
    F32.corrected_ne _ _ _ hp (F32.stepTotal_ge _ h1)⟩

/-- C8, amended, at the player `(0, 0, -1.0250001)`, where a first call on the
pair with the block at the origin puts the player `(0, 0, -3/4)`, clear of the
block. -/
theorem resolveCollision_always_moves_f32_witness :
    F32.Within (2 ^ 17) (⟨0, 0, -2149581 / 2097152⟩ : Vector3) ∧
    F32.Within (2 ^ 17 - 1) (⟨0, 0, 0⟩ : Vector3) ∧
    ∃ (side : CubeSide) (k : ℕ) (p1 : Player),
      (∀ fuel, F32.probeBound ≤ fuel →
        F32.resolveCollision fuel ⟨⟨0, 0, -2149581 / 2097152⟩, ⟨0, 0, -2149581 / 2097152⟩⟩
          ⟨⟨0, 0, 0⟩, Color.Green⟩ = some p1) ∧
      side ≠ .YMinus ∧ 1 ≤ k ∧ 1 / 64 ≤ F32.stepTotal k ∧
      p1.position = F32.corrected ⟨0, 0, -2149581 / 2097152⟩ (F32.stepTotal k) side ∧
      p1.position ≠ (⟨0, 0, -2149581 / 2097152⟩ : Vector3) :=
  ⟨by norm_num [F32.Within, abs_le], by norm_num [F32.Within, abs_le],
    resolveCollision_always_moves_f32
      ⟨⟨0, 0, -2149581 / 2097152⟩, ⟨0, 0, -2149581 / 2097152⟩⟩ ⟨⟨0, 0, 0⟩, Color.Green⟩
      (by norm_num [F32.Within, abs_le]) (by norm_num [F32.Within, abs_le])⟩

/-- C9 (end-to-end scenario): the player starts at `(12, 0, 5)`, the only
block is centred at `(12, 0, 6)`, and `W` (forward) alone is held.  For every
`K ≥ 1`, `K` calls of `update` return (for all fuel from 80 on) with the
player at `z = 199/40 = 4.975`, so that `z + 0.5 ≤ 6 - 0.5 + STEP`, and the
player's box does not overlap the block's box. -/
theorem end_to_end_forward (K : ℕ) (hK : 1 ≤ K) (cam : Vector3) :
    ∃ N, ∀ fuel, N ≤ fuel → ∃ p1 g1,
      updateN fuel ⟨true, false, false, false⟩ K (newPlayer ⟨12, 0, 5⟩)
        ⟨cam, [newBlock ⟨12, 0, 6⟩ Color.Green]⟩ = some (p1, g1) ∧
      p1.position.Z + 1 / 2 ≤ 6 - 1 / 2 + STEP ∧
      CheckCollisionBoxes p1.boundingBox (newBlock ⟨12, 0, 6⟩ Color.Green).boundingBox = false ∧
      p1.position = ⟨12, 0, 199 / 40⟩ := by
  refine ⟨80, fun fuel hf => ?_⟩
  obtain ⟨K1, rfl⟩ : ∃ K1, K = K1 + 1 := ⟨K - 1, by omega⟩
  obtain ⟨g1, h⟩ := scenario_later_ticks fuel hf K1 ⟨12, 0, 5⟩ Color.Red
  refine ⟨⟨⟨12, 0, 199 / 40⟩, ⟨12, 0, 199 / 40⟩⟩, g1, ?_, ?_, ?_, rfl⟩
  · simp only [updateN, newPlayer, newBlock, scenario_first_tick fuel hf, h]
  · norm_num [STEP]
  · decide!

/-- C9 at `K = 3`, with the camera target of `initGame`. -/
theorem end_to_end_forward_witness :
    ∃ N, ∀ fuel, N ≤ fuel → ∃ p1 g1,
      updateN fuel ⟨true, false, false, false⟩ 3 (newPlayer ⟨12, 0, 5⟩)
        ⟨⟨12, 0, 12⟩, [newBlock ⟨12, 0, 6⟩ Color.Green]⟩ = some (p1, g1) ∧
      p1.position.Z + 1 / 2 ≤ 6 - 1 / 2 + STEP ∧
      CheckCollisionBoxes p1.boundingBox (newBlock ⟨12, 0, 6⟩ Color.Green).boundingBox = false ∧
      p1.position = ⟨12, 0, 199 / 40⟩ :=
  end_to_end_forward 3 (by decide) ⟨12, 0, 12⟩

/-- C10 (the `-Y` probe): the `-Y` probe moves the player by `(0, STEP, 0)`
per step exactly as the `+Y` probe does, so `getCollisionDepth` gives the same
result for `YMinus` as for `Y`; in the `switch` of `resolveCollision` the `+Y`
branch adds that depth to the `Y` coordinate and the `-Y` branch subtracts it. -/
theorem probe_YMinus_same_as_Y (p : Player) (bb : BoundingBox) :
    Vector3Scale (probeDir .YMinus) STEP = ⟨0, STEP, 0⟩ ∧
    Vector3Scale (probeDir .Y) STEP = ⟨0, STEP, 0⟩ ∧
    (∀ fuel, p.getCollisionDepth fuel bb .YMinus = p.getCollisionDepth fuel bb .Y) ∧
    ∃ N, ∀ fuel, N ≤ fuel → ∃ depth p1 pY pYMinus,
      p.getCollisionDepth fuel bb .Y = some (depth, p1) ∧
      p.getCollisionDepth fuel bb .YMinus = some (depth, p1) ∧
      p.resolveCollisionCase fuel bb .Y = some pY ∧
      pY.position = ⟨p.position.X, p.position.Y + depth, p.position.Z⟩ ∧
      p.resolveCollisionCase fuel bb .YMinus = some pYMinus ∧
      pYMinus.position = ⟨p.position.X, p.position.Y - depth, p.position.Z⟩ := by
  refine ⟨by simp [probeDir, NewVector3, Vector3Scale],
    by simp [probeDir, NewVector3, Vector3Scale], fun fuel => rfl, ?_⟩
  obtain ⟨k, N, hk, hN⟩ := exists_exitSteps p.position bb
  refine ⟨N, fun fuel hf => ?_⟩
  have hY := getCollisionDepth_of_isExitStep (hk .Y) (le_trans (hN .Y) hf)
  have hYM : p.getCollisionDepth fuel bb .YMinus = p.getCollisionDepth fuel bb .Y := rfl
  refine ⟨(k .Y : ℚ) * STEP, { position := p.position, transform := p.position },
    { position := ⟨p.position.X, p.position.Y + (k .Y : ℚ) * STEP, p.position.Z⟩,
      transform := p.position },
    { position := ⟨p.position.X, p.position.Y - (k .Y : ℚ) * STEP, p.position.Z⟩,
      transform := p.position }, hY, hYM.trans hY, ?_, rfl, ?_, rfl⟩
  · simp only [Player.resolveCollisionCase, hY]
  · simp only [Player.resolveCollisionCase, hYM, hY]

/-- C11, counterexample: in float32 `600000 + 0.025` rounds to `600000`, so
with the player centred on the block at `(600000, 0, 0)` the probe of `+X`
stays where it is, the boxes overlap at every step, and `getCollisionDepth`
returns for no fuel: the loop does not terminate. -/
theorem getCollisionDepth_never_returns_f32 :
    F32.probePos ⟨600000, 0, 0⟩ .X 1 = ⟨600000, 0, 0⟩ ∧
    F32.overlapsAt ⟨600000, 0, 0⟩ (F32.blockBox ⟨⟨600000, 0, 0⟩, Color.Green⟩) = true ∧
    (∀ i, F32.overlapsAt (F32.probePos ⟨600000, 0, 0⟩ .X i)
      (F32.blockBox ⟨⟨600000, 0, 0⟩, Color.Green⟩) = true) ∧
    (∀ fuel, F32.getCollisionDepth fuel ⟨⟨600000, 0, 0⟩, ⟨600000, 0, 0⟩⟩
      (F32.blockBox ⟨⟨600000, 0, 0⟩, Color.Green⟩) .X = none) := by
  have h1 : F32.probePos ⟨600000, 0, 0⟩ .X 1 = ⟨600000, 0, 0⟩ := by decide!
  have h2 : F32.overlapsAt ⟨600000, 0, 0⟩
      (F32.blockBox ⟨⟨600000, 0, 0⟩, Color.Green⟩) = true := by decide!
  have h3 : ∀ i, F32.probePos ⟨600000, 0, 0⟩ .X i = ⟨600000, 0, 0⟩ := by
    intro i
    induction i with
    | zero => rfl
    | succ i ih =>
      show F32.Vector3Add (F32.probePos ⟨600000, 0, 0⟩ .X i) (F32.stepVec .X) = _
      rw [ih]
      exact h1
  refine ⟨h1, h2, fun i => by rw [h3 i]; exact h2, fun fuel => ?_⟩
  exact F32.getCollisionDepth_none_f32 (fun i _ _ => by
    show F32.overlapsAt (F32.probePos ⟨600000, 0, 0⟩ .X i) _ = true
    rw [h3 i]
    exact h2)

/-- C11, amended: in float32, for every side, every player position and every
box, zero-size boxes included, with coordinates within `2 ^ 17 = 131072`, the
probe loop of `getCollisionDepth` terminates: there is a step `k` with
`1 ≤ k ≤ probeBound` such that the call returns, with the running total of `k`
steps and the position restored, for every fuel from `k` on, and has not
returned with less fuel, which is to say that the loop ends by its own
condition on its `k`-th evaluation. -/
theorem getCollisionDepth_terminates_f32 (p : Player) (bb : BoundingBox) (side : CubeSide)
    (hp : F32.Within (2 ^ 17) p.position) (hmin : F32.Within (2 ^ 17) bb.Min)
    (hmax : F32.Within (2 ^ 17) bb.Max) :
    ∃ k, 1 ≤ k ∧ k ≤ F32.probeBound ∧
      (∀ fuel, k ≤ fuel → F32.getCollisionDepth fuel p bb side =
        some (F32.stepTotal k, { position := p.position, transform := p.position })) ∧
      (∀ fuel, fuel < k → F32.getCollisionDepth fuel p bb side = none) := by
  obtain ⟨k, hk, hex⟩ := F32.exists_isExitStep_f32 p.position bb side hp hmin hmax
  refine ⟨k, hex.1, hk, fun fuel hf => F32.getCollisionDepth_of_exit_f32 hex hf,
    fun fuel hf => ?_⟩
  cases hr : F32.getCollisionDepth fuel p bb side with
  | none => rfl
  | some r =>
    obtain ⟨k1, hk1, hex1, -⟩ := (F32.getCollisionDepth_eq_some_iff_f32 fuel p bb side r).mp hr
    have := F32.isExitStep_unique_f32 hex hex1
    omega

/-- C11, amended, at the player `(12, 0, 5)` and the zero-size box at the same
point. -/
theorem getCollisionDepth_terminates_f32_witness :
    F32.Within (2 ^ 17) (⟨12, 0, 5⟩ : Vector3) ∧
    F32.Within (2 ^ 17) (⟨12, 0, 5⟩ : Vector3) ∧
    F32.Within (2 ^ 17) (⟨12, 0, 5⟩ : Vector3) ∧
    ∃ k, 1 ≤ k ∧ k ≤ F32.probeBound ∧
      (∀ fuel, k ≤ fuel →
        F32.getCollisionDepth fuel ⟨⟨12, 0, 5⟩, ⟨12, 0, 5⟩⟩ ⟨⟨12, 0, 5⟩, ⟨12, 0, 5⟩⟩ .Z =
        some (F32.stepTotal k, { position := ⟨12, 0, 5⟩, transform := ⟨12, 0, 5⟩ })) ∧
      (∀ fuel, fuel < k →
        F32.getCollisionDepth fuel ⟨⟨12, 0, 5⟩, ⟨12, 0, 5⟩⟩ ⟨⟨12, 0, 5⟩, ⟨12, 0, 5⟩⟩ .Z =
        none) :=
  ⟨by norm_num [F32.Within, abs_le], by norm_num [F32.Within, abs_le],
    by norm_num [F32.Within, abs_le],
    getCollisionDepth_terminates_f32 ⟨⟨12, 0, 5⟩, ⟨12, 0, 5⟩⟩ ⟨⟨12, 0, 5⟩, ⟨12, 0, 5⟩⟩ .Z
      (by norm_num [F32.Within, abs_le]) (by norm_num [F32.Within, abs_le])
      (by norm_num [F32.Within, abs_le])⟩

/-- C12 (residual overlap under sequential resolution): the player at
`(12, 0, 5)` with no key held touches the blocks centred at `(12, 0, 6)` and
`(12, 0, 4)`, so both overlap its box.  One call of `update` resolves the
first block by moving the player to `z = 199/40`, out of its box, then resolves
the second by moving the player to `z = 201/40`, where its box overlaps the
box of the first block again. -/
theorem update_leaves_residual_overlap :
    ∃ (p : Player) (b1 b2 : Block) (keys : Keys) (cam : Vector3),
      CheckCollisionBoxes (afterInput keys p).boundingBox b1.boundingBox = true ∧
      CheckCollisionBoxes (afterInput keys p).boundingBox b2.boundingBox = true ∧
      ∃ (N : ℕ) (pmid p1 : Player) (g1 : Game),
        (∀ fuel, N ≤ fuel →
          (afterInput keys p).resolveCollision fuel b1 = some pmid ∧
          p.update fuel keys { cameraTarget := cam, blocks := [b1, b2] } = some (p1, g1)) ∧
        CheckCollisionBoxes pmid.boundingBox b1.boundingBox = false ∧
        CheckCollisionBoxes p1.boundingBox b1.boundingBox = true := by
  refine ⟨newPlayer ⟨12, 0, 5⟩, newBlock ⟨12, 0, 6⟩ Color.Green, newBlock ⟨12, 0, 4⟩ Color.Green,
    ⟨false, false, false, false⟩, ⟨12, 0, 12⟩, by decide!, by decide!, 100,
    ⟨⟨12, 0, 199 / 40⟩, ⟨12, 0, 199 / 40⟩⟩, ⟨⟨12, 0, 201 / 40⟩, ⟨12, 0, 201 / 40⟩⟩,
    ⟨⟨12, 0, 5⟩, [⟨⟨12, 0, 6⟩, Color.Red⟩, ⟨⟨12, 0, 4⟩, Color.Red⟩]⟩, ?_, by decide!, by decide!⟩
  intro fuel hf
  exact ⟨resolveCollision_fuel_mono hf (by decide!), update_fuel_mono hf (by decide!)⟩

/-- C13, counterexample: in float32, with all four keys held and no block,
`update` takes the player from `(1, 0, 1)` to `(0.99999994, 0, 0.99999994)`:
`(1 + 0.05) - 0.05` is not `1`, so two opposite signals held together do not
leave the axis unchanged. -/
theorem update_opposite_keys_f32 :
    (∀ fuel, F32.update fuel ⟨true, true, true, true⟩ ⟨⟨1, 0, 1⟩, ⟨1, 0, 1⟩⟩ ⟨⟨0, 0, 0⟩, []⟩ =
      some (⟨⟨16777215 / 16777216, 0, 16777215 / 16777216⟩,
          ⟨16777215 / 16777216, 0, 16777215 / 16777216⟩⟩, ⟨⟨1, 0, 1⟩, []⟩)) ∧
    fadd 1 F32.speed = 4404019 / 4194304 ∧
    fsub (4404019 / 4194304) F32.speed = 16777215 / 16777216 ∧
    (16777215 / 16777216 : ℚ) ≠ 1 := by
  refine ⟨fun fuel => ?_, by decide!, by decide!, by norm_num⟩
  have h : F32.update 0 ⟨true, true, true, true⟩ ⟨⟨1, 0, 1⟩, ⟨1, 0, 1⟩⟩ ⟨⟨0, 0, 0⟩, []⟩ =
      some (⟨⟨16777215 / 16777216, 0, 16777215 / 16777216⟩,
          ⟨16777215 / 16777216, 0, 16777215 / 16777216⟩⟩, ⟨⟨1, 0, 1⟩, []⟩) := by decide!
  exact F32.update_fuel_mono_f32 (Nat.zero_le fuel) h

/-- C13, amended: in float32, when no block overlaps the player's box after
the input displacement, `update` returns, for any fuel, the player with `Y`
unchanged and with `X` and `Z` each obtained by the rounded operations of its
two keys in the order of the code: `speed = 0.05` (as a float32) added if the
first key (`A`, `W`) is held, then subtracted if the second (`D`, `S`) is held.
For coordinates of absolute value at most `2 ^ K - 1`, `K ≤ 24`, each of `X`
and `Z` is within `2 ^ K / 2 ^ 24` of the exact displacement
`speed × ([A] - [D])`, `speed × ([W] - [S])`; opposite signals cancel up to that
rounding error only. -/
theorem update_input_displacement_f32 (fuel : ℕ) (keys : Keys) (p : Player) (g : Game) (K : ℕ)
    (hfree : ∀ b ∈ g.blocks,
      CheckCollisionBoxes (F32.playerBox (F32.afterInput keys p)) (F32.blockBox b) = false)
    (hK : K ≤ 24) (hX : |p.position.X| + 1 ≤ 2 ^ K) (hZ : |p.position.Z| + 1 ≤ 2 ^ K) :
    ∃ p1 g1, F32.update fuel keys p g = some (p1, g1) ∧
      p1.position = ⟨F32.moved keys.A keys.D p.position.X, p.position.Y,
        F32.moved keys.W keys.S p.position.Z⟩ ∧
      |p1.position.X - (p.position.X + F32.speed * (indicator keys.A - indicator keys.D))| ≤
        2 ^ K / 2 ^ 24 ∧
      p1.position.Y = p.position.Y ∧
      |p1.position.Z - (p.position.Z + F32.speed * (indicator keys.W - indicator keys.S))| ≤
        2 ^ K / 2 ^ 24 := by
  obtain ⟨bs, hbs⟩ := F32.updateLoop_of_no_overlap_f32 fuel _ g.blocks (F32.afterInput keys p)
    hfree
  refine ⟨F32.afterInput keys p, { cameraTarget := p.position, blocks := bs }, ?_,
    F32.afterInput_position_f32 keys p, ?_, ?_, ?_⟩
  · rw [F32.update_eq_updateLoop_f32, hbs]
  · rw [F32.afterInput_position_f32]
    exact F32.moved_error _ _ _ K hK hX
  · rw [F32.afterInput_position_f32]
  · rw [F32.afterInput_position_f32]
    exact F32.moved_error _ _ _ K hK hZ

/-- C13, amended, at the player `(1, 0, 1)` with `W` and `D` held and a block
out of reach at `(12, 0, 6)`. -/
theorem update_input_displacement_f32_witness :
    (∀ b ∈ [(⟨⟨12, 0, 6⟩, Color.Green⟩ : Block)],
      CheckCollisionBoxes (F32.playerBox (F32.afterInput ⟨true, false, false, true⟩
        ⟨⟨1, 0, 1⟩, ⟨1, 0, 1⟩⟩)) (F32.blockBox b) = false) ∧
    1 ≤ 24 ∧ |(1 : ℚ)| + 1 ≤ 2 ^ 1 ∧ |(1 : ℚ)| + 1 ≤ 2 ^ 1 ∧
    ∃ p1 g1, F32.update 0 ⟨true, false, false, true⟩ ⟨⟨1, 0, 1⟩, ⟨1, 0, 1⟩⟩
        ⟨⟨0, 0, 0⟩, [⟨⟨12, 0, 6⟩, Color.Green⟩]⟩ = some (p1, g1) ∧
      p1.position = ⟨F32.moved false true 1, 0, F32.moved true false 1⟩ ∧
      |p1.position.X - (1 + F32.speed * (indicator false - indicator true))| ≤ 2 ^ 1 / 2 ^ 24 ∧
      p1.position.Y = 0 ∧
      |p1.position.Z - (1 + F32.speed * (indicator true - indicator false))| ≤ 2 ^ 1 / 2 ^ 24 :=
  ⟨by decide!, by norm_num, by norm_num, by norm_num,
    update_input_displacement_f32 0 ⟨true, false, false, true⟩ ⟨⟨1, 0, 1⟩, ⟨1, 0, 1⟩⟩
      ⟨⟨0, 0, 0⟩, [⟨⟨12, 0, 6⟩, Color.Green⟩]⟩ 1 (by decide!) (by norm_num) (by norm_num)
      (by norm_num)⟩

/-- C14 (overlap marker): `update` returns (for all sufficiently large fuel)
with every block unmoved and marked red if its box overlaps the player's box
as it is after the input displacement and before any correction, green
otherwise; and the colours of the blocks given to `update` do not enter the
player it returns. -/
theorem update_markers (keys : Keys) (p : Player) (g : Game) :
    (∃ N p1, ∀ fuel, N ≤ fuel → p.update fuel keys g =
      some (p1, { cameraTarget := p.position,
                  blocks := g.blocks.map (marked (boxAt (displaced keys p.position))) })) ∧
    (∀ b : Block,
      (marked (boxAt (displaced keys p.position)) b).position = b.position ∧
      ((marked (boxAt (displaced keys p.position)) b).color = Color.Red ↔
        CheckCollisionBoxes (boxAt (displaced keys p.position)) b.boundingBox = true) ∧
      ((marked (boxAt (displaced keys p.position)) b).color = Color.Green ↔
        CheckCollisionBoxes (boxAt (displaced keys p.position)) b.boundingBox = false)) ∧
    (∀ fuel (g2 : Game), g2.blocks.map Block.position = g.blocks.map Block.position →
      (p.update fuel keys g2).map Prod.fst = (p.update fuel keys g).map Prod.fst) := by
  refine ⟨?_, ?_, ?_⟩
  · obtain ⟨N, r, h⟩ := updateLoop_returns (afterInput keys p).boundingBox g.blocks
      (afterInput keys p)
    obtain ⟨p1, bs⟩ := r
    have hbs := updateLoop_blocks N _ _ _ _ _ (h N le_rfl)
    rw [afterInput_boundingBox_eq] at hbs
    refine ⟨N, p1, fun fuel hf => ?_⟩
    rw [update_eq_updateLoop, h fuel hf, hbs]
  · intro b
    refine ⟨rfl, ?_, ?_⟩
    · cases hc : CheckCollisionBoxes (boxAt (displaced keys p.position)) b.boundingBox <;>
        simp [marked, hc]
    · cases hc : CheckCollisionBoxes (boxAt (displaced keys p.position)) b.boundingBox <;>
        simp [marked, hc]
  · intro fuel g2 hpos
    have h := updateLoop_player_of_positions fuel (afterInput keys p).boundingBox
      g2.blocks g.blocks (afterInput keys p) hpos
    rw [update_eq_updateLoop, update_eq_updateLoop]
    cases h1 : updateLoop fuel (afterInput keys p).boundingBox g2.blocks (afterInput keys p) with
    | none =>
      rw [h1] at h
      cases h2 : updateLoop fuel (afterInput keys p).boundingBox g.blocks (afterInput keys p) with
      | none => rfl
      | some r2 => rw [h2] at h; simp at h
    | some r1 =>
      rw [h1] at h
      cases h2 : updateLoop fuel (afterInput keys p).boundingBox g.blocks (afterInput keys p) with
      | none => rw [h2] at h; simp at h
      | some r2 =>
        rw [h2] at h
        simpa using h

/-- C15, counterexample: in float32 the gap left by `resolveCollision` across
the chosen side is zero for the player `(12, 0, 5.25)` and the block
`(12, 0, 6)` (the player is put at `z = 5`, its box touching the block's box,
which the overlap test counts as overlapping), negative for the player centred
on the block at `(12, 0, 5)` (where the applied depth `0.99999946` is less than
the penetration 1), and more than one step for the player `(0, 0, -0.75)` and
the block at the origin. -/
theorem resolveCollision_gap_f32 :
    (∀ fuel, 72 ≤ fuel →
      F32.resolveCollision fuel ⟨⟨12, 0, 21 / 4⟩, ⟨12, 0, 21 / 4⟩⟩ ⟨⟨12, 0, 6⟩, Color.Green⟩ =
        some ⟨⟨12, 0, 5⟩, ⟨12, 0, 5⟩⟩) ∧
    F32.gap (F32.playerBox ⟨⟨12, 0, 5⟩, ⟨12, 0, 5⟩⟩) (F32.blockBox ⟨⟨12, 0, 6⟩, Color.Green⟩)
      .ZMinus = 0 ∧
    CheckCollisionBoxes (F32.playerBox ⟨⟨12, 0, 5⟩, ⟨12, 0, 5⟩⟩)
      (F32.blockBox ⟨⟨12, 0, 6⟩, Color.Green⟩) = true ∧
    (∀ fuel, 41 ≤ fuel →
      F32.resolveCollision fuel ⟨⟨12, 0, 5⟩, ⟨12, 0, 5⟩⟩ ⟨⟨12, 0, 5⟩, Color.Green⟩ =
        some ⟨⟨12, 0, 12582911 / 2097152⟩, ⟨12, 0, 12582911 / 2097152⟩⟩) ∧
    F32.gap (F32.playerBox ⟨⟨12, 0, 12582911 / 2097152⟩, ⟨12, 0, 12582911 / 2097152⟩⟩)
      (F32.blockBox ⟨⟨12, 0, 5⟩, Color.Green⟩) .Z = -1 / 2097152 ∧
    (F32.blockBox ⟨⟨12, 0, 5⟩, Color.Green⟩).Max.Z -
      (F32.playerBox ⟨⟨12, 0, 5⟩, ⟨12, 0, 5⟩⟩).Min.Z = 1 ∧
    F32.stepTotal 40 = 16777209 / 16777216 ∧
    (∀ fuel, 72 ≤ fuel →
      F32.resolveCollision fuel ⟨⟨0, 0, -3 / 4⟩, ⟨0, 0, -3 / 4⟩⟩ ⟨⟨0, 0, 0⟩, Color.Green⟩ =
        some ⟨⟨0, 0, -2149581 / 2097152⟩, ⟨0, 0, -2149581 / 2097152⟩⟩) ∧
    F32.gap (F32.playerBox ⟨⟨0, 0, -2149581 / 2097152⟩, ⟨0, 0, -2149581 / 2097152⟩⟩)
      (F32.blockBox ⟨⟨0, 0, 0⟩, Color.Green⟩) .ZMinus = 52429 / 2097152 ∧
    STEP < 52429 / 2097152 ∧ F32.step < 52429 / 2097152 :=
  ⟨fun _ hf => F32.resolveCollision_fuel_mono_f32 hf (by decide!), by decide!, by decide!,
    resolveCollision_centred_12_0_5_f32, by decide!, by decide!, by decide!,
    fun _ hf => F32.resolveCollision_fuel_mono_f32 hf (by decide!), by decide!, by decide!,
    by decide!⟩

/-- C15, amended: in float32, for a player with float32 coordinates within 64
and a block within 64 whose boxes overlap, `resolveCollision` returns for
every fuel from 100 on, and the bound of one step holds up to `2 ^ (-10)`: the
gap between the two boxes across the chosen side after the call is more than
`-2 ^ (-10)` and at most one step plus `2 ^ (-10)`, and the depth applied, the
running total of the `k ≤ 100` steps of the probe, is more than the
penetration across that side before the call less `2 ^ (-10)` and at most that
penetration plus one step plus `2 ^ (-10)`.  The gap need not be positive and
can exceed one step. -/
theorem resolveCollision_overshoot_f32 (p : Player) (b : Block)
    (hs : p.transform = p.position) (hx : F32.Exact32 p.position)
    (hp : F32.Within 64 p.position) (hb : F32.Within 64 b.position)
    (hov : CheckCollisionBoxes (F32.playerBox p) (F32.blockBox b) = true) :
    ∃ (side : CubeSide) (k : ℕ) (p1 : Player),
      (∀ fuel, 100 ≤ fuel → F32.resolveCollision fuel p b = some p1) ∧
      side ≠ .YMinus ∧ 1 ≤ k ∧ k ≤ 100 ∧
      p1.position = F32.corrected p.position (F32.stepTotal k) side ∧
      -(1 / 2 ^ 10) < F32.gap (F32.playerBox p1) (F32.blockBox b) side ∧
      F32.gap (F32.playerBox p1) (F32.blockBox b) side ≤ F32.step + 1 / 2 ^ 10 ∧
      -F32.gap (F32.playerBox p) (F32.blockBox b) side - 1 / 2 ^ 10 < F32.stepTotal k ∧
      F32.stepTotal k ≤
        -F32.gap (F32.playerBox p) (F32.blockBox b) side + F32.step + 1 / 2 ^ 10 := by
  obtain ⟨side, k, hr, hne, h1, h2, -, hgap, hpen⟩ :=
    F32.resolveCollision_within_64_f32 p b hs hx hp hb hov
  refine ⟨side, k, _, hr, hne, h1, h2, rfl, ?_, ?_, hpen.1, hpen.2⟩
  · rw [F32.playerBox_synced]
    exact hgap.1
  · rw [F32.playerBox_synced]
    exact hgap.2

/-- C15, amended, at the player `(0, 0, -0.75)` and the block at the origin. -/
theorem resolveCollision_overshoot_f32_witness :
    (⟨⟨0, 0, -3 / 4⟩, ⟨0, 0, -3 / 4⟩⟩ : Player).transform =
      (⟨⟨0, 0, -3 / 4⟩, ⟨0, 0, -3 / 4⟩⟩ : Player).position ∧
    F32.Exact32 (⟨0, 0, -3 / 4⟩ : Vector3) ∧
    F32.Within 64 (⟨0, 0, -3 / 4⟩ : Vector3) ∧
    F32.Within 64 (⟨0, 0, 0⟩ : Vector3) ∧
    CheckCollisionBoxes (F32.playerBox ⟨⟨0, 0, -3 / 4⟩, ⟨0, 0, -3 / 4⟩⟩)
      (F32.blockBox ⟨⟨0, 0, 0⟩, Color.Green⟩) = true ∧
    ∃ (side : CubeSide) (k : ℕ) (p1 : Player),
      (∀ fuel, 100 ≤ fuel →
        F32.resolveCollision fuel ⟨⟨0, 0, -3 / 4⟩, ⟨0, 0, -3 / 4⟩⟩
          ⟨⟨0, 0, 0⟩, Color.Green⟩ = some p1) ∧
      side ≠ .YMinus ∧ 1 ≤ k ∧ k ≤ 100 ∧
      p1.position = F32.corrected ⟨0, 0, -3 / 4⟩ (F32.stepTotal k) side ∧
      -(1 / 2 ^ 10) < F32.gap (F32.playerBox p1) (F32.blockBox ⟨⟨0, 0, 0⟩, Color.Green⟩) side ∧
      F32.gap (F32.playerBox p1) (F32.blockBox ⟨⟨0, 0, 0⟩, Color.Green⟩) side ≤
        F32.step + 1 / 2 ^ 10 ∧
      -F32.gap (F32.playerBox ⟨⟨0, 0, -3 / 4⟩, ⟨0, 0, -3 / 4⟩⟩)
          (F32.blockBox ⟨⟨0, 0, 0⟩, Color.Green⟩) side - 1 / 2 ^ 10 < F32.stepTotal k ∧
      F32.stepTotal k ≤
        -F32.gap (F32.playerBox ⟨⟨0, 0, -3 / 4⟩, ⟨0, 0, -3 / 4⟩⟩)
          (F32.blockBox ⟨⟨0, 0, 0⟩, Color.Green⟩) side + F32.step + 1 / 2 ^ 10 :=
  ⟨rfl, by decide!, by norm_num [F32.Within, abs_le], by norm_num [F32.Within, abs_le],
    by decide!,
    resolveCollision_overshoot_f32 ⟨⟨0, 0, -3 / 4⟩, ⟨0, 0, -3 / 4⟩⟩
      ⟨⟨0, 0, 0⟩, Color.Green⟩ rfl (by decide!) (by norm_num [F32.Within, abs_le])
      (by norm_num [F32.Within, abs_le]) (by decide!)⟩

/-- C16 (the `-Y` side is never chosen): `getCollisionDepth` gives the same
result for `YMinus` as for `Y`, whatever the fuel; `getCollisionWhichSide`
returns (for all sufficiently large fuel), and whenever it returns, the side
is not `YMinus`; so `resolveCollision`, whenever it returns, returns what one
of the five other branches of its `switch` returns. -/
theorem YMinus_never_chosen (p : Player) (bb : BoundingBox) :
    (∀ fuel, p.getCollisionDepth fuel bb .YMinus = p.getCollisionDepth fuel bb .Y) ∧
    (∃ N, ∀ fuel, N ≤ fuel → ∃ side p1,
      p.getCollisionWhichSide fuel bb = some (side, p1) ∧ side ≠ CubeSide.YMinus) ∧
    (∀ fuel side p1, p.getCollisionWhichSide fuel bb = some (side, p1) →
      side ≠ CubeSide.YMinus) ∧
    (∀ fuel (b : Block) p2, p.resolveCollision fuel b = some p2 →
      ∃ side p1, side ≠ CubeSide.YMinus ∧
        p.getCollisionWhichSide fuel b.boundingBox = some (side, p1) ∧
        (p1.resolveCollisionCase fuel b.boundingBox side).map Player.updateTransform =
          some p2) := by
  refine ⟨fun fuel => rfl, ?_, fun fuel side p1 h => getCollisionWhichSide_ne_YMinus h, ?_⟩
  · obtain ⟨k, N, hk, hN⟩ := exists_exitSteps p.position bb
    exact ⟨N, fun fuel hf => ⟨_, _,
      getCollisionWhichSide_of_isExitStep hk (fun s => le_trans (hN s) hf),
      chosenSide_exitSteps_ne_YMinus hk⟩⟩
  · intro fuel b p2 h
    unfold Player.resolveCollision at h
    simp only at h
    split at h
    · cases h
    rename_i side p1 hw
    refine ⟨side, p1, getCollisionWhichSide_ne_YMinus hw, hw, ?_⟩
    split at h
    · cases h
    rename_i p3 hc
    rw [hc]
    exact h

/-- C17, counterexample: in float32, with the player centred on the block at
`(33000, 0, 33000)`, both at `Y = 0`, and no key held, the probes of `+Z`,
`-Z`, `+X`, `-X` advance by `0.0234375` a step (`33000 + 0.025` rounded) and
take 43 steps, while the probe of `+Y` takes 41: the `+Y` depth `1.0249996` is
strictly the least, `+Y` is chosen, and `update` leaves the player at
`Y = 1.0249996`. -/
theorem update_leaves_ground_plane_f32 :
    (F32.blockBox ⟨⟨33000, 0, 33000⟩, Color.Green⟩).Min.Y = -1 / 2 ∧
    (F32.blockBox ⟨⟨33000, 0, 33000⟩, Color.Green⟩).Max.Y = 1 / 2 ∧
    F32.probePos ⟨33000, 0, 33000⟩ .Z 1 = ⟨33000, 0, 4224003 / 128⟩ ∧
    (∀ fuel, 43 ≤ fuel →
      F32.update fuel ⟨false, false, false, false⟩
        ⟨⟨33000, 0, 33000⟩, ⟨33000, 0, 33000⟩⟩
        ⟨⟨0, 0, 0⟩, [⟨⟨33000, 0, 33000⟩, Color.Green⟩]⟩ =
      some (⟨⟨33000, 537395 / 524288, 33000⟩, ⟨33000, 537395 / 524288, 33000⟩⟩,
        ⟨⟨33000, 0, 33000⟩, [⟨⟨33000, 0, 33000⟩, Color.Red⟩]⟩)) ∧
    (537395 / 524288 : ℚ) ≠ 0 :=
  ⟨by decide!, by decide!, by decide!, update_33000_f32, by norm_num⟩

/-- C17, amended: in float32, with the player at `Y = 0` at float32 coordinates
within 32, and at most 15 blocks, all at `Y = 0` with coordinates within 64,
`update` returns for every input and every fuel from `probeBound` on, and
leaves the player at `Y = 0`: at each call of `resolveCollision` the player,
still within 64, gets for `+Z`, `-Z` or `+X` a depth that does not exceed the
depth of `+Y`, whether or not the pair overlaps, so neither `+Y` nor `-Y` is
chosen. -/
theorem update_keeps_ground_plane_f32 (keys : Keys) (p : Player) (g : Game)
    (hY : p.position.Y = 0) (hx : F32.Exact32 p.position) (hp : F32.Within 32 p.position)
    (hb : ∀ b ∈ g.blocks, b.position.Y = 0 ∧ F32.Within 64 b.position)
    (hn : g.blocks.length ≤ 15) :
    ∃ p1 g1, (∀ fuel, F32.probeBound ≤ fuel → F32.update fuel keys p g = some (p1, g1)) ∧
      p1.position.Y = 0 := by
  obtain ⟨hY1, hx1, hp1⟩ := F32.afterInput_ground_f32 keys p hY hx hp
  have hlen : (33 : ℚ) + 2 * g.blocks.length ≤ 64 := by
    have : (g.blocks.length : ℚ) ≤ 15 := by exact_mod_cast hn
    linarith
  obtain ⟨p1, bs, hloop, hY2⟩ := F32.updateLoop_ground_f32
    (F32.playerBox (F32.afterInput keys p)) g.blocks (F32.afterInput keys p) 33 hb hY1 hx1 hp1 hlen
  refine ⟨p1, { cameraTarget := p.position, blocks := bs }, fun fuel hf => ?_, hY2⟩
  rw [F32.update_eq_updateLoop_f32, hloop fuel hf]

/-- C17, amended, at the player `(12, 0, 5)` with `W` held and the blocks
`(12, 0, 5.25)` and `(13, 0, 6)`. -/
theorem update_keeps_ground_plane_f32_witness :
    ∃ p1 g1, (∀ fuel, F32.probeBound ≤ fuel →
        F32.update fuel ⟨true, false, false, false⟩ ⟨⟨12, 0, 5⟩, ⟨12, 0, 5⟩⟩
          ⟨⟨0, 0, 0⟩, [⟨⟨12, 0, 21 / 4⟩, Color.Green⟩, ⟨⟨13, 0, 6⟩, Color.Green⟩]⟩ =
          some (p1, g1)) ∧
      p1.position.Y = 0 :=
  update_keeps_ground_plane_f32 ⟨true, false, false, false⟩ ⟨⟨12, 0, 5⟩, ⟨12, 0, 5⟩⟩
    ⟨⟨0, 0, 0⟩, [⟨⟨12, 0, 21 / 4⟩, Color.Green⟩, ⟨⟨13, 0, 6⟩, Color.Green⟩]⟩
    rfl (by decide!) (by norm_num [F32.Within, abs_le])
    (by
      intro b hb
      simp only [List.mem_cons, List.mem_singleton, List.not_mem_nil, or_false] at hb
      rcases hb with rfl | rfl <;> exact ⟨rfl, by norm_num [F32.Within, abs_le]⟩)
    (by decide)

end Collisions
